import Mathlib

/-!
# Verification of the MAL interpreter (impls/python.3)

Shallow embedding of the interpreter core found in `mal_types.py`,
`core.py`, `parser.py` and `step6_file.py`, together with theorems
settling the frozen claims about its specification.

Conventions of the embedding:
* Python `int` is `Int`; Python strings are Lean `String`/`List Char`.
* Mutable state (environments, atom cells) is threaded explicitly through
  a store `St`.  An `Environment` object is represented by its index into
  the store; an `Atom` cell likewise.
* Python exceptions become an error sum `Err`: subclasses of
  `MalException` on one side, host-level exceptions (`IndexError`,
  `ZeroDivisionError`, `RecursionError`, ...) on the other, mirroring the
  fact that `rep` catches only `MalException`.
* The evaluator `eval_ast` is a `while True:` loop whose body either
  returns, raises, rewrites `(ast, env)` and continues, or recurses into
  `eval_ast` for non-tail children.  We model it with two explicit
  budgets: `fuel`, spent on every self-call (loop iterations included),
  and `stack`, spent only when the Python code makes a nested host call
  (list comprehensions and loop `continue`s stay in the same host frame).
  Exhausting `stack` models Python's `RecursionError` (a host error);
  exhausting `fuel` is the artefact `Res.timeout`.
-/

namespace Mal

/-- The built-in callables installed by `core.get_namespace`.  Each Python
`Function` object wraps exactly one of these host callables, so a tag is a
faithful stand-in for the callable's identity. -/
inductive Prim where
  | add | sub | div | mul | mod
  | prn | list | isList | isEmpty | count
  | eq | le | leq | gt | geq
  | prStr | str | println | car | cdr
  | readString | slurp
  | atom | isAtom | deref | reset | swap
deriving Repr, DecidableEq

/-- The tagged value universe `ExpressionT` of `mal_types.py`.
`FunctionDefinition` in the source also stores a compiled callable
`closure : Function`; its behaviour is built from exactly the `params`,
`body` and `env` fields (see `fn*` in `step6_file.py`), so here `closure`
is only the identity of that freshly created host callable: a counter
value unique to each `fn*` evaluation (Python compares function objects
by identity).  `params` is a `list[Symbol]` in the source; we keep the
symbol names.  `Atom` and the captured environment are store indices. -/
inductive ExpressionT where
  | Symbol (symbol : String)
  | Keyword (value : String)
  | Number (value : Int)
  | TrueV
  | FalseV
  | Nil
  | String (value : String)
  | List (value : List ExpressionT)
  | Vector (value : List ExpressionT)
  | HashMap (value : List (ExpressionT × ExpressionT))
  | Function (value : Prim)
  | FunctionDefinition (params : List String) (body : ExpressionT) (env : Nat) (closure : Nat)
  | Atom (value : Nat)
end Mal

open Mal in
/-- An `Environment` of `mal_types.py`: a table from symbol names to
values plus an optional outer environment (a store index). -/
structure Mal.Environment where
  data : List (String × ExpressionT)
  outer : Option Nat

/-- The store: allocated environments (newest first, each tagged with its
index) and atom cells, plus the allocation counter and the text printed to
the host sink by `prn`/`println`. -/
structure Mal.St where
  envs : List (Nat × Mal.Environment)
  nextEnv : Nat
  atoms : List Mal.ExpressionT
  nextClosure : Nat
  out : List String

namespace Mal

/-- MAL-level errors: the `MalException` subclasses of the source.
Payloads are kept only where a claim needs to distinguish them. -/
inductive MalErr where
  | symbolNotFound (name : String)
  | nonFunctionFormAtFirstListItem
  | badNumberOfArguments
  | badNumberOfAssignations
  | notAssignationInLet
  | expectedSymbolInLetDefinition
  | emptyDoBlock
  | nonSymbolInBinding
  | expectedListOfBindings
  | unexpectedArgument (msg : String)
  | unexpectedNumberOfArguments (name : String) (expected : Nat)
  | parsingError
  | malIOError
  | carOnEmptyList
  | cdrOnEmptyList
deriving Repr, DecidableEq

/-- Host-level (non-`MalException`) failures. -/
inductive HostErr where
  | indexError
  | zeroDivisionError
  | recursionError
  | reprUnmodelled
  | ioUnmodelled
deriving Repr, DecidableEq

/-- Either kind of raised exception. -/
inductive Err where
  | mal (m : MalErr)
  | host (h : HostErr)
deriving Repr, DecidableEq

/-- `rep` in `step6_file.py` wraps evaluation in `except MalException`:
exactly the MAL-level errors are caught and printed; host exceptions
propagate out of the REPL. -/
def repCatches : Err → Bool
  | .mal _ => true
  | .host _ => false

/-- Outcome of running a piece of interpreter code: a value or a raised
exception, each with the store as the mutations left it, or an exhausted
`fuel` budget (an artefact of the embedding, not a Python behaviour). -/
inductive Res (α : Type) where
  | ok (v : α) (st : St)
  | err (e : Err) (st : St)
  | timeout

/-! ## Environments (`mal_types.Environment`) -/

/-- Find the frame with the given index. -/
def lookupFrame : List (Nat × Environment) → Nat → Option Environment
  | [], _ => none
  | (j, f) :: rest, i => if j = i then some f else lookupFrame rest i

/-- Replace the frame with the given index. -/
def setFrame : List (Nat × Environment) → Nat → Environment → List (Nat × Environment)
  | [], _, _ => []
  | (j, f) :: rest, i, f' =>
      if j = i then (j, f') :: rest else (j, f) :: setFrame rest i f'

/-- Lookup in a frame's table (`dict.__getitem__`). -/
def tableGet : List (String × ExpressionT) → String → Option ExpressionT
  | [], _ => none
  | (k, v) :: rest, s => if k = s then some v else tableGet rest s

/-- `dict.__setitem__`: overwrite in place or append. -/
def tableSet : List (String × ExpressionT) → String → ExpressionT → List (String × ExpressionT)
  | [], s, v => [(s, v)]
  | (k, w) :: rest, s, v =>
      if k = s then (k, v) :: rest else (k, w) :: tableSet rest s v

/-- `Environment.set`: define or overwrite in this env's table only. -/
def envSet (st : St) (env : Nat) (name : String) (v : ExpressionT) : St :=
  match lookupFrame st.envs env with
  | none => st
  | some f => { st with envs := setFrame st.envs env { f with data := tableSet f.data name v } }

/-- `Environment.find`: the nearest enclosing binding, walking `outer`.
The walk is bounded by the number of frames; every reachable chain is
acyclic (outer indices are strictly smaller than the frame's own), so the
bound is never the reason a lookup fails on stores built by the
interpreter. -/
def envFindGo (st : St) (name : String) : Nat → Nat → Option ExpressionT
  | 0, _ => none
  | b + 1, env =>
    match lookupFrame st.envs env with
    | none => none
    | some f =>
      match tableGet f.data name with
      | some v => some v
      | none =>
        match f.outer with
        | none => none
        | some o => envFindGo st name b o

/-- `Environment.find`. -/
def envFind (st : St) (env : Nat) (name : String) : Option ExpressionT :=
  envFindGo st name st.envs.length env

/-- `Environment.get`: `find` or raise `SymbolNotFound`. -/
def envGet (st : St) (env : Nat) (name : String) : Res ExpressionT :=
  match envFind st env name with
  | some v => .ok v st
  | none => .err (.mal (.symbolNotFound name)) st

/-- Allocate a fresh empty environment chained to `outer`
(`Environment(outer)`). Returns its index. -/
def allocEnv (st : St) (outer : Option Nat) : Nat × St :=
  (st.nextEnv,
   { st with envs := (st.nextEnv, { data := [], outer := outer }) :: st.envs
             nextEnv := st.nextEnv + 1 })

/-- The binding loop of `Environment.__init__` when both `binds` and
`expressions` are given: zip parameters with arguments; on the marker
`"&"` bind the next parameter to a `List` of the remaining arguments and
stop.  Indexing past either list is a host `IndexError` (the source does
no arity check here). -/
def bindLoop (st : St) (env : Nat) : List String → List ExpressionT → Res Unit
  | [], _ => .ok () st
  | b :: bs, args =>
    if b = "&" then
      match bs with
      | r :: _ => .ok () (envSet st env r (.List args))
      | [] => .err (.host .indexError) st
    else
      match args with
      | a :: rest => bindLoop (envSet st env b a) env bs rest
      | [] => .err (.host .indexError) st

/-- `Environment(outer, binds, expressions)`: fresh frame plus the
binding loop. Returns the new environment's index. -/
def mkBoundEnv (st : St) (outer : Nat) (binds : List String)
    (args : List ExpressionT) : Res Nat :=
  let (i, st') := allocEnv st (some outer)
  match bindLoop st' i binds args with
  | .ok _ st'' => .ok i st''
  | .err e st'' => .err e st''
  | .timeout => .timeout

/-! ## Atom cells -/

def getAtom (st : St) (i : Nat) : Option ExpressionT :=
  st.atoms.get? i

def setAtom (st : St) (i : Nat) (v : ExpressionT) : St :=
  { st with atoms := st.atoms.set i v }

/-- Allocate a fresh atom cell, returning its index. -/
def allocAtom (st : St) (v : ExpressionT) : Nat × St :=
  (st.atoms.length, { st with atoms := st.atoms ++ [v] })

/-! ## Truthiness and booleans -/

/-- Host truthiness of an expression: `Nil.__bool__` and
`FalseV.__bool__` return `False`; every other variant is a plain dataclass
and hence truthy (`if eval_ast(condition, env):` in the `if` form). -/
def truthy : ExpressionT → Bool
  | .FalseV => false
  | .Nil => false
  | _ => true

/-- `core.bool_to_mal_bool`. -/
def bool_to_mal_bool (b : Bool) : ExpressionT :=
  if b then .TrueV else .FalseV

/-! ## Decimal rendering (Python `str` on `int`) -/

/-- The character of a decimal digit. -/
def digitChar (d : Nat) : Char := Char.ofNat (48 + d)

/-- Decimal digits of a natural number, most significant first. -/
def natReprChars (n : Nat) : List Char :=
  if _h : n < 10 then [digitChar n]
  else natReprChars (n / 10) ++ [digitChar (n % 10)]
termination_by n
decreasing_by exact Nat.div_lt_self (by omega) (by omega)

/-- Python `str` of an `int`: decimal with a leading `-` when negative. -/
def intReprChars (n : Int) : List Char :=
  if n < 0 then '-' :: natReprChars n.natAbs else natReprChars n.natAbs

/-! ## Python structural equality (`==` on the dataclasses)

The generated dataclass `__eq__` requires the classes to agree exactly and
then compares the field tuples; comparing elements of tuples, lists and
dict values goes through `PyObject_RichCompareBool`, which short-circuits
on object identity.  Identity is representable here exactly where it is
observable: atom cells, environments and compiled closures carry indices.
Cyclic atom/environment chains make `==` recurse forever in the source
(`RecursionError`); the budget models that host limit and `none` is that
crash. -/

/-- Position of the variant's class, for `isinstance(x, type(y))`. -/
def variantIdx : ExpressionT → Nat
  | .Symbol _ => 0
  | .Keyword _ => 1
  | .Number _ => 2
  | .TrueV => 3
  | .FalseV => 4
  | .Nil => 5
  | .String _ => 6
  | .List _ => 7
  | .Vector _ => 8
  | .HashMap _ => 9
  | .Function _ => 10
  | .FunctionDefinition .. => 11
  | .Atom _ => 12

/-- Key equality for `HashMap` dictionaries: keys are `String`/`Keyword`
values, whose dataclass `__eq__`/`__hash__` compare by payload. -/
def keyEq : ExpressionT → ExpressionT → Bool
  | .String s, .String t => s = t
  | .Keyword s, .Keyword t => s = t
  | _, _ => false

/-- `dict.__getitem__` on a `HashMap`'s pair list. -/
def keyLookup : List (ExpressionT × ExpressionT) → ExpressionT → Option ExpressionT
  | [], _ => none
  | (k, v) :: rest, key => if keyEq k key then some v else keyLookup rest key

mutual

/-- Python `==` on two expressions.  Classes must match exactly (so a
`List` is never `==` a `Vector` — contrast `core.eq`); atoms with the same
cell index are the identity-shortcut case, otherwise their stored values
are compared; `Function` and the `closure` field compare host callables by
identity. -/
def pyEq (b : Nat) (st : St) (x y : ExpressionT) : Option Bool :=
  if _hb : b = 0 then none
  else
    match x, y with
    | .Symbol s, .Symbol t => some (s = t)
    | .Keyword s, .Keyword t => some (s = t)
    | .Number n, .Number m => some (n = m)
    | .TrueV, .TrueV => some true
    | .FalseV, .FalseV => some true
    | .Nil, .Nil => some true
    | .String s, .String t => some (s = t)
    | .List xs, .List ys => pyEqList (b - 1) st xs ys
    | .Vector xs, .Vector ys => pyEqList (b - 1) st xs ys
    | .HashMap xs, .HashMap ys => pyEqDict (b - 1) st xs ys
    | .Function p, .Function q => some (p = q)
    | .FunctionDefinition ps b1 e1 c1, .FunctionDefinition qs b2 e2 c2 =>
      -- field tuple, compared left to right with short-circuit
      if ps ≠ qs then some false
      else
        match pyEq (b - 1) st b1 b2 with
        | none => none
        | some false => some false
        | some true =>
          match pyEqEnv (b - 1) st e1 e2 with
          | none => none
          | some false => some false
          | some true => some (c1 = c2)
    | .Atom i, .Atom j =>
      if i = j then some true
      else
        match getAtom st i, getAtom st j with
        | some v, some w => pyEq (b - 1) st v w
        | _, _ => none
    | _, _ => some false
termination_by (b, 0)

/-- Python list `==`: lengths, then elementwise, each element compared at
the same depth. -/
def pyEqList (b : Nat) (st : St) : List ExpressionT → List ExpressionT → Option Bool
  | [], [] => some true
  | x :: xs, y :: ys =>
    match pyEq b st x y with
    | none => none
    | some false => some false
    | some true => pyEqList b st xs ys
  | _, _ => some false
termination_by xs _ => (b, xs.length + 1)

/-- Python dict `==` on `HashMap` payloads: same size and every key of the
left maps to an `==` value on the right (tables are unique-keyed). -/
def pyEqDict (b : Nat) (st : St) (xs ys : List (ExpressionT × ExpressionT)) :
    Option Bool :=
  if xs.length = ys.length then pyEqDictGo b st xs ys else some false
termination_by (b, xs.length + 3)

def pyEqDictGo (b : Nat) (st : St) : List (ExpressionT × ExpressionT) →
    List (ExpressionT × ExpressionT) → Option Bool
  | [], _ => some true
  | (k, v) :: rest, ys =>
    match keyLookup ys k with
    | none => some false
    | some w =>
      match pyEq b st v w with
      | none => none
      | some false => some false
      | some true => pyEqDictGo b st rest ys
termination_by xs _ => (b, xs.length + 2)

/-- Python `==` on `Environment` dataclasses (reached through the `env`
field of a closure): identity shortcut, then table dict and outer chain. -/
def pyEqEnv (b : Nat) (st : St) (i j : Nat) : Option Bool :=
  if _hb : b = 0 then none
  else if i = j then some true
  else
    match lookupFrame st.envs i, lookupFrame st.envs j with
    | some f, some g =>
      if f.data.length ≠ g.data.length then some false
      else
        match pyEqTableGo (b - 1) st f.data g.data with
        | none => none
        | some false => some false
        | some true =>
          match f.outer, g.outer with
          | none, none => some true
          | some a, some b' => pyEqEnv (b - 1) st a b'
          | _, _ => some false
    | _, _ => none
termination_by (b, 1)

def pyEqTableGo (b : Nat) (st : St) : List (String × ExpressionT) →
    List (String × ExpressionT) → Option Bool
  | [], _ => some true
  | (k, v) :: rest, ys =>
    match tableGet ys k with
    | none => some false
    | some w =>
      match pyEq b st v w with
      | none => none
      | some false => some false
      | some true => pyEqTableGo b st rest ys
termination_by xs _ => (b, xs.length + 1)

end

/-- `core.eq` on its two arguments (the argument-count assertion lives in
the primitive dispatch).  Both arguments sequences: compare by length and
pairwise recursive `core.eq`, so a `List` equals a `Vector` elementwise;
otherwise `isinstance(args[0], type(args[1]))` and Python `==`. -/
def seqElems : ExpressionT → Option (List ExpressionT)
  | .List v => some v
  | .Vector v => some v
  | _ => none

mutual

def eqCore (b : Nat) (st : St) (x y : ExpressionT) : Option ExpressionT :=
  if _hb : b = 0 then none
  else
    match seqElems x, seqElems y with
    | some xs, some ys =>
      if xs.length = ys.length then
        match eqCoreAll (b - 1) st xs ys with
        | none => none
        | some r => some (bool_to_mal_bool r)
      else some (bool_to_mal_bool false)
    | _, _ =>
      if variantIdx x = variantIdx y then
        match pyEq (b - 1) st x y with
        | none => none
        | some r => some (if r then .TrueV else .FalseV)
      else some .FalseV
termination_by (b, 0)

/-- `all(eq([x1, y1]) for x1, y1 in zip(...))`: lazy, stops at the first
falsy result (`TrueV.__bool__`/`FalseV.__bool__`); every pair is compared
at the same depth. -/
def eqCoreAll (b : Nat) (st : St) : List ExpressionT → List ExpressionT → Option Bool
  | x :: xs, y :: ys =>
    match eqCore b st x y with
    | none => none
    | some r => if truthy r then eqCoreAll b st xs ys else some false
  | _, _ => some true
termination_by xs _ => (b, xs.length + 1)

end

/-! ## Host `repr`

`def!` coerces a non-`Symbol` key with `Symbol(repr(key))`, so the
dataclass `__repr__` of each variant is part of the observable behaviour.
A dataclass prints as `Name(field=repr_of_value, ...)`; lists as
`[a, b]`; dicts as `{k: v}`; `@dataclass` wraps `__repr__` in
`reprlib.recursive_repr`, which renders a re-entered object as `...`
(the `seen` list of atom indices).  The repr of a `Function` or of a
`FunctionDefinition` embeds the address of a host function object and is
not representable; those cases are `none` and surface as a host error. -/

/-- Lower-case hexadecimal of a byte, two digits. -/
def hexByte (n : Nat) : List Char :=
  let dig := fun d => if d < 10 then digitChar d else Char.ofNat (87 + d)
  [dig (n / 16 % 16), dig (n % 16)]

/-- Python `repr` of one character inside a string literal quoted by
`quote`.  (Printable characters stay raw; ASCII control characters become
`\xNN`; the non-ASCII corner cases of Python's `unicode_repr` are beyond
the claims and kept raw.) -/
def pyCharRepr (quote : Char) (c : Char) : List Char :=
  if c = '\\' then ['\\', '\\']
  else if c = quote then ['\\', quote]
  else if c = '\n' then ['\\', 'n']
  else if c = '\r' then ['\\', 'r']
  else if c = '\t' then ['\\', 't']
  else if c.toNat < 32 || c.toNat == 127 then '\\' :: 'x' :: hexByte c.toNat
  else [c]

/-- Python `repr` of a `str`: single-quoted, unless the text contains a
single quote and no double quote. -/
def pyStrRepr (s : String) : List Char :=
  let q : Char := if s.contains '\'' && !s.contains '"' then '"' else '\''
  q :: s.data.flatMap (pyCharRepr q) ++ [q]

/-- The `", "` separator of Python container reprs. -/
def commaSep : List Char := [',', ' ']

mutual

/-- `repr` of an expression (the dataclass `__repr__`s).  The budget is
decremented only when dereferencing an atom cell, `seen` carries the
atom cells being rendered (`reprlib.recursive_repr`). -/
def reprExpr (st : St) : Nat → List Nat → ExpressionT → Option (List Char)
  | _, _, .Symbol s => some ("Symbol(symbol=".data ++ pyStrRepr s ++ [')'])
  | _, _, .Keyword s => some ("Keyword(value=".data ++ pyStrRepr s ++ [')'])
  | _, _, .Number n => some ("Number(value=".data ++ intReprChars n ++ [')'])
  | _, _, .TrueV => some "TrueV()".data
  | _, _, .FalseV => some "FalseV()".data
  | _, _, .Nil => some "Nil()".data
  | _, _, .String s => some ("String(value=".data ++ pyStrRepr s ++ [')'])
  | b, seen, .List xs =>
    (reprList st b seen xs).map (fun r => "List(value=[".data ++ r ++ "])".data)
  | b, seen, .Vector xs =>
    (reprList st b seen xs).map (fun r => "Vector(value=[".data ++ r ++ "])".data)
  | b, seen, .HashMap ps =>
    (reprPairs st b seen ps).map (fun r => "HashMap(value=\x7b".data ++ r ++ "\x7d)".data)
  | _, _, .Function _ => none
  | _, _, .FunctionDefinition .. => none
  | b, seen, .Atom i =>
    if i ∈ seen then some "Atom(...)".data
    else
      match b with
      | 0 => none
      | b' + 1 =>
        match getAtom st i with
        | none => none
        | some v =>
          (reprExpr st b' (i :: seen) v).map
            (fun r => "Atom(value=".data ++ r ++ [')'])

def reprList (st : St) (b : Nat) (seen : List Nat) :
    List ExpressionT → Option (List Char)
  | [] => some []
  | [x] => reprExpr st b seen x
  | x :: rest => do
    let rx ← reprExpr st b seen x
    let rr ← reprList st b seen rest
    pure (rx ++ commaSep ++ rr)

def reprPairs (st : St) (b : Nat) (seen : List Nat) :
    List (ExpressionT × ExpressionT) → Option (List Char)
  | [] => some []
  | [(k, v)] => do
    let rk ← reprExpr st b seen k
    let rv ← reprExpr st b seen v
    pure (rk ++ ": ".data ++ rv)
  | (k, v) :: rest => do
    let rk ← reprExpr st b seen k
    let rv ← reprExpr st b seen v
    let rr ← reprPairs st b seen rest
    pure (rk ++ ": ".data ++ rv ++ commaSep ++ rr)

end

/-! ## The pretty-printer (`mal_types.Pretty`) -/

/-- One `str.replace(old, new)` pass where `old` is a single character:
exactly a character-wise substitution. -/
def replaceChar (c : Char) (r : List Char) (cs : List Char) : List Char :=
  cs.flatMap (fun d => if d = c then r else [d])

/-- `visit_string` in readable mode: three `replace` passes, backslashes
first, then newlines, then double quotes. -/
def escapeString (cs : List Char) : List Char :=
  replaceChar '"' ['\\', '"']
    (replaceChar '\n' ['\\', 'n']
      (replaceChar '\\' ['\\', '\\'] cs))

/-- `" ".join`. -/
def joinSpace : List (List Char) → List Char
  | [] => []
  | [x] => x
  | x :: rest => x ++ ' ' :: joinSpace rest

mutual

/-- The `Pretty` visitor.  The budget is spent only when an atom cell is
dereferenced (`visit_atom` recurses through the store and can cycle, like
the source).  `none` covers the two host behaviours outside the model:
a `RecursionError` on cyclic atoms and the `repr` of a callable (which
embeds a host object address). -/
def prettyGo (st : St) (readable : Bool) (b : Nat) : ExpressionT → Option (List Char)
  | .Symbol s => some s.data
  | .Keyword k => some (':' :: k.data)
  | .Number n => some (intReprChars n)
  | .TrueV => some "true".data
  | .FalseV => some "false".data
  | .Nil => some "nil".data
  | .String s =>
    if readable then some ('"' :: escapeString s.data ++ ['"']) else some s.data
  | .List xs => (prettyJoin st readable b xs).map (fun ps => '(' :: joinSpace ps ++ [')'])
  | .Vector xs => (prettyJoin st readable b xs).map (fun ps => '[' :: joinSpace ps ++ [']'])
  | .HashMap ps => (prettyPairs st readable b ps).map (fun qs => '{' :: joinSpace qs ++ ['}'])
  | .Function _ => none
  | .FunctionDefinition .. => none
  | .Atom i =>
    match b with
    | 0 => none
    | b' + 1 =>
      match getAtom st i with
      | none => none
      | some v =>
        -- `if a != a.value:` — Python `==` on the cell and its contents
        match pyEq b' st (.Atom i) v with
        | none => none
        | some true => (reprExpr st b' [] (.Atom i)).map id
        | some false =>
          (prettyGo st readable b' v).map (fun cs => "(atom ".data ++ cs ++ [')'])

def prettyJoin (st : St) (readable : Bool) (b : Nat) :
    List ExpressionT → Option (List (List Char))
  | [] => some []
  | x :: rest => do
    let px ← prettyGo st readable b x
    let pr ← prettyJoin st readable b rest
    pure (px :: pr)

def prettyPairs (st : St) (readable : Bool) (b : Nat) :
    List (ExpressionT × ExpressionT) → Option (List (List Char))
  | [] => some []
  | (k, v) :: rest => do
    let pk ← prettyGo st readable b k
    let pv ← prettyGo st readable b v
    let pr ← prettyPairs st readable b rest
    pure ((pk ++ ' ' :: pv) :: pr)

end

/-! ## The reader (`parser.py`)

The source realizes the grammar with Lark (`basic` lexer, LALR parser)
plus the `TransformLisP` tree transformer.  The `basic` lexer matches, at
every position, the first terminal in priority order — all terminals have
the default priority except `SYMBOL.-1`, and among same-priority literals
the longer pattern (`~@` before `~`) comes first — with each regex
matching greedily; `SPACES` (whitespace or comma) and `COMMENT` (`;` to
end of line) are ignored.  At the default priority the remaining
terminals accept pairwise disjoint texts, so only those two ordering
facts are observable.  We embed that token discipline directly. -/

inductive Tok where
  | lparen | rparen | lbracket | rbracket | lbrace | rbrace
  | quoteTok | backtickTok | tildeTok | specialTok | hatTok | atTok
  | trueTok | falseTok | nilTok
  | numTok (value : Int)
  | strTok (raw : List Char)
  | unbalancedTok
  | kwTok (value : String)
  | symTok (value : String)
deriving Repr, DecidableEq

/-- Python `\s` on the claims-relevant (ASCII) range; `SPACES : /\s|,/`
adds the comma at the use site. -/
def isSpacePy (c : Char) : Bool :=
  c = ' ' || c = '\t' || c = '\n' || c = '\r' || c.toNat = 11 || c.toNat = 12

/-- The `SYMBOL` character class: anything outside
whitespace, `[ ] { } ( ) ' " ` , ;`. -/
def symChar (c : Char) : Bool :=
  !(isSpacePy c || c = '[' || c = ']' || c = '{' || c = '}' || c = '(' ||
    c = ')' || c = '\'' || c = '"' || c = '`' || c = ',' || c = ';')

/-- Value of a run of decimal digits (`int(token.value)`). -/
def digitsVal (cs : List Char) : Nat :=
  cs.foldl (fun a c => a * 10 + (c.toNat - 48)) 0

/-- Scanning a `STRING_COMMON` body after the opening quote.  The regex
`("\\\\.|[^"\\\\])*` is deterministic: an escape pair (whose second
character may not be a newline, `.` does not match `\n`), or any plain
character except quote and backslash.  A closing quote ends the token; end
of input instead realizes `UNBALANCED_STRING`; a bare backslash before a
newline or the end of input makes every terminal fail at the opening
quote (a lexer error). -/
inductive StrScan where
  | closed (raw : List Char) (rest : List Char)
  | unbalanced
  | failed

def scanString : List Char → StrScan
  | [] => .unbalanced
  | c :: rest =>
    if c = '"' then .closed [] rest
    else if c = '\\' then
      match rest with
      | [] => .failed
      | d :: rest' =>
        if d = '\n' then .failed
        else
          match scanString rest' with
          | .closed raw r => .closed ('\\' :: d :: raw) r
          | x => x
    else
      match scanString rest with
      | .closed raw r => .closed (c :: raw) r
      | x => x

theorem scanString_closed_length (cs : List Char) :
    ∀ raw rest, scanString cs = .closed raw rest → rest.length < cs.length := by
  generalize hn : cs.length = n
  induction n using Nat.strong_induction_on generalizing cs with
  | _ n ih =>
    intro raw rest h
    match cs, hn with
    | [], _ => simp [scanString] at h
    | c :: cs', hn =>
      rw [scanString.eq_def] at h
      simp only [] at h
      by_cases hq : c = '"'
      · rw [if_pos hq] at h
        cases h
        subst hn
        simp
      · rw [if_neg hq] at h
        by_cases hb : c = '\\'
        · rw [if_pos hb] at h
          match cs', hn with
          | [], _ => cases h
          | d :: rest', hn =>
            simp only [] at h
            by_cases hd : d = '\n'
            · rw [if_pos hd] at h; cases h
            · rw [if_neg hd] at h
              rcases hr : scanString rest' with ⟨raw', r'⟩ | _ | _ <;> rw [hr] at h
              · injection h with h1 h2
                subst h2
                have hlt := ih rest'.length (by simp at hn; omega) rest' rfl raw' r' hr
                simp at hn
                omega
              · cases h
              · cases h
        · rw [if_neg hb] at h
          rcases hr : scanString cs' with ⟨raw', r'⟩ | _ | _ <;> rw [hr] at h
          · injection h with h1 h2
            subst h2
            have hlt := ih cs'.length (by simp at hn; omega) cs' rfl raw' r' hr
            simp at hn
            omega
          · cases h
          · cases h

theorem dropWhile_length_le (p : Char → Bool) (l : List Char) :
    (l.dropWhile p).length ≤ l.length := by
  induction l with
  | nil => simp [List.dropWhile]
  | cons c cs ih =>
    rw [List.dropWhile_cons]
    split
    · exact ih.trans (by simp)
    · simp

/-- Head of the remaining input is a nonzero digit (the start of the
`-?[1-9][0-9]*` alternative after a minus sign). -/
def headDigit19 : List Char → Bool
  | d :: _ => d.isDigit && !(d = '0')
  | [] => false

/-- Head of the remaining input is a symbol character (`KEYWORD` needs
`":" SYMBOL`). -/
def headSymChar : List Char → Bool
  | d :: _ => symChar d
  | [] => false

/-- After a `~`: the two-character `~@` literal outranks `~` alone. -/
def tildeSel : List Char → (Tok × List Char)
  | '@' :: rest' => (Tok.specialTok, rest')
  | rest => (Tok.tildeTok, rest)

/-- After a `-` when a nonzero digit follows (the guard); the empty-input
arm is unreachable behind that guard. -/
def negSel : List Char → (Int × List Char)
  | d :: more =>
    (-(digitsVal (d :: more.takeWhile Char.isDigit) : Int), more.dropWhile Char.isDigit)
  | [] => (0, [])

/-- The closed-string outcome of the scan, if any. -/
def scanTok : StrScan → Option (List Char × List Char)
  | .closed raw r => some (raw, r)
  | _ => none

def scanUnb : StrScan → Bool
  | .unbalanced => true
  | _ => false

/-- Number, `KEYWORD` and `SYMBOL` terminals (the lowest priorities). -/
def tokStepD (k : List Char → Except String (List Tok)) (c : Char) (rest : List Char) :
    Except String (List Tok) :=
  if c = '0' then (Tok.numTok 0 :: ·) <$> k (rest.dropWhile (fun d => d = '0'))
  else if c.isDigit then
    (Tok.numTok (digitsVal (c :: rest.takeWhile Char.isDigit)) :: ·) <$>
      k (rest.dropWhile Char.isDigit)
  else if c = '-' && headDigit19 rest then
    (Tok.numTok (negSel rest).1 :: ·) <$> k (negSel rest).2
  else if c = ':' && headSymChar rest then
    (Tok.kwTok (String.mk (rest.takeWhile symChar)) :: ·) <$> k (rest.dropWhile symChar)
  else if symChar c then
    (Tok.symTok (String.mk (c :: rest.takeWhile symChar)) :: ·) <$> k (rest.dropWhile symChar)
  else .error "Error! no terminal matches"

/-- The `true`/`false`/`nil` literals and the ignored terminals. -/
def tokStepC (k : List Char → Except String (List Tok)) (c : Char) (rest : List Char) :
    Except String (List Tok) :=
  if c = 't' ∧ rest.take 3 = ['r', 'u', 'e'] then (Tok.trueTok :: ·) <$> k (rest.drop 3)
  else if c = 'f' ∧ rest.take 4 = ['a', 'l', 's', 'e'] then
    (Tok.falseTok :: ·) <$> k (rest.drop 4)
  else if c = 'n' ∧ rest.take 2 = ['i', 'l'] then (Tok.nilTok :: ·) <$> k (rest.drop 2)
  else if isSpacePy c || c = ',' then k rest
  else if c = ';' then k (rest.dropWhile (fun d => !(d = '\n')))
  else tokStepD k c rest

/-- The remaining bracket literals and the string terminals. -/
def tokStepB (k : List Char → Except String (List Tok)) (c : Char) (rest : List Char) :
    Except String (List Tok) :=
  if c = ')' then (Tok.rparen :: ·) <$> k rest
  else if c = '[' then (Tok.lbracket :: ·) <$> k rest
  else if c = ']' then (Tok.rbracket :: ·) <$> k rest
  else if c = '{' then (Tok.lbrace :: ·) <$> k rest
  else if c = '}' then (Tok.rbrace :: ·) <$> k rest
  else if c = '"' then
    (scanTok (scanString rest)).elim
      (if scanUnb (scanString rest) then .ok [Tok.unbalancedTok]
       else .error "Error! no terminal matches")
      (fun p => (Tok.strTok p.1 :: ·) <$> k p.2)
  else tokStepC k c rest

/-- One lexer step at a non-empty input: the first terminal that
matches, in priority order (`~@` before `~`, literals before regexes,
`SYMBOL` last).  `k` continues on the unconsumed characters. -/
def tokStepA (k : List Char → Except String (List Tok)) (c : Char) (rest : List Char) :
    Except String (List Tok) :=
  if c = '~' then ((tildeSel rest).1 :: ·) <$> k (tildeSel rest).2
  else if c = '\'' then (Tok.quoteTok :: ·) <$> k rest
  else if c = '`' then (Tok.backtickTok :: ·) <$> k rest
  else if c = '^' then (Tok.hatTok :: ·) <$> k rest
  else if c = '@' then (Tok.atTok :: ·) <$> k rest
  else if c = '(' then (Tok.lparen :: ·) <$> k rest
  else tokStepB k c rest

/-- The token stream of a source text: at each position, skip the ignored
terminals or emit the first terminal that matches, in priority order.
Literal terminals match as prefixes regardless of what follows (so
`truex` lexes as `true` then `x`); regex terminals match greedily. -/
def tokenizeGo (fuel : Nat) (cs : List Char) : Except String (List Tok) :=
  match fuel with
  | 0 => .error "Error! no terminal matches"
  | fl + 1 =>
    match cs with
    | [] => .ok []
    | c :: rest => tokStepA (tokenizeGo fl) c rest

/-- The lexer: every step consumes at least one character, so a fuel
exceeding the length never runs out and the fuel-exhaustion arm is dead
code (`tokenizeGo_fuel` below makes the fuel a pure totality artifact). -/
def tokenize (cs : List Char) : Except String (List Tok) :=
  tokenizeGo (cs.length + 1) cs

theorem tildeSel_len (cs : List Char) : (tildeSel cs).2.length ≤ cs.length := by
  rw [tildeSel.eq_def]
  split <;> simp

theorem negSel_len (cs : List Char) : (negSel cs).2.length ≤ cs.length := by
  rw [negSel.eq_def]
  split
  · exact Nat.le_trans (dropWhile_length_le _ _) (by simp)
  · simp

theorem scanTok_len (rest raw r : List Char) (h : scanTok (scanString rest) = some (raw, r)) :
    r.length < rest.length := by
  rcases hs : scanString rest with ⟨raw', r'⟩ | _ | _ <;> rw [hs] at h <;>
    simp only [scanTok, Option.some.injEq, Prod.mk.injEq, reduceCtorEq] at h
  obtain ⟨h1, h2⟩ := h
  subst h2
  exact scanString_closed_length rest _ _ hs

theorem tokStepD_congr (k1 k2 : List Char → Except String (List Tok)) (c : Char)
    (rest : List Char) (h : ∀ X : List Char, X.length ≤ rest.length → k1 X = k2 X) :
    tokStepD k1 c rest = tokStepD k2 c rest := by
  simp only [tokStepD]
  split_ifs <;>
    first
    | rfl
    | (congr 1; exact h _ (dropWhile_length_le _ _))
    | (congr 1; exact h _ (negSel_len rest))

theorem tokStepC_congr (k1 k2 : List Char → Except String (List Tok)) (c : Char)
    (rest : List Char) (h : ∀ X : List Char, X.length ≤ rest.length → k1 X = k2 X) :
    tokStepC k1 c rest = tokStepC k2 c rest := by
  simp only [tokStepC]
  split_ifs <;>
    first
    | exact tokStepD_congr k1 k2 c rest h
    | exact h rest Nat.le.refl
    | (congr 1; exact h _ (by simp only [List.length_drop]; omega))
    | (congr 1; exact h _ (dropWhile_length_le _ _))

theorem tokStepB_congr (k1 k2 : List Char → Except String (List Tok)) (c : Char)
    (rest : List Char) (h : ∀ X : List Char, X.length ≤ rest.length → k1 X = k2 X) :
    tokStepB k1 c rest = tokStepB k2 c rest := by
  simp only [tokStepB]
  split_ifs <;>
    first
    | exact tokStepC_congr k1 k2 c rest h
    | (congr 1; exact h rest Nat.le.refl)
    | (rcases hsc : scanTok (scanString rest) with _ | ⟨raw, r⟩ <;>
        simp only [hsc, Option.elim] <;>
        first
        | rfl
        | (congr 1
           exact h r (Nat.le_of_lt (scanTok_len rest raw r hsc))))

theorem tokStepA_congr (k1 k2 : List Char → Except String (List Tok)) (c : Char)
    (rest : List Char) (h : ∀ X : List Char, X.length ≤ rest.length → k1 X = k2 X) :
    tokStepA k1 c rest = tokStepA k2 c rest := by
  simp only [tokStepA]
  split_ifs <;>
    first
    | exact tokStepB_congr k1 k2 c rest h
    | (congr 1; exact h rest Nat.le.refl)
    | (congr 1; exact h _ (tildeSel_len rest))

/-- Any two sufficient fuels lex identically: the fuel is an artifact. -/
theorem tokenizeGo_fuel : ∀ (n : Nat) (cs : List Char), cs.length ≤ n →
    ∀ f g, cs.length < f → cs.length < g → tokenizeGo f cs = tokenizeGo g cs := by
  intro n
  induction n with
  | zero =>
    intro cs hc f g hf hg
    match cs, hc with
    | [], _ =>
      match f, hf with
      | f' + 1, _ =>
        match g, hg with
        | g' + 1, _ => rfl
  | succ n ih =>
    intro cs hc f g hf hg
    match cs with
    | [] =>
      match f, hf with
      | f' + 1, _ =>
        match g, hg with
        | g' + 1, _ => rfl
    | c :: rest =>
      match f, hf with
      | f' + 1, hf =>
        match g, hg with
        | g' + 1, hg =>
          have hlen : rest.length ≤ n := by simp at hc; omega
          have hfr : rest.length < f' := by simp at hf; omega
          have hgr : rest.length < g' := by simp at hg; omega
          have key : ∀ X : List Char, X.length ≤ rest.length →
              tokenizeGo f' X = tokenizeGo g' X := fun X hX =>
            ih X (Nat.le_trans hX hlen) f' g'
              (Nat.lt_of_le_of_lt hX hfr) (Nat.lt_of_le_of_lt hX hgr)
          simp only [tokenizeGo]
          exact tokStepA_congr (tokenizeGo f') (tokenizeGo g') c rest key

/-- The `STRING` transform: resolve `\n`, `\\` and `\"`; any other
escaped character is dropped together with its backslash (no branch of
the source appends it); a backslash with nothing after it raises
`WrongBackslash` (`none` — unreachable from lexed tokens). -/
def unescapeChars : List Char → Option (List Char)
  | [] => some []
  | '\\' :: [] => none
  | '\\' :: d :: rest =>
    if d = 'n' then (unescapeChars rest).map ('\n' :: ·)
    else if d = '\\' then (unescapeChars rest).map ('\\' :: ·)
    else if d = '"' then (unescapeChars rest).map ('"' :: ·)
    else unescapeChars rest
  | c :: rest => (unescapeChars rest).map (c :: ·)

/-- Insert one pair into a growing dict (`acc[key] = value`): overwrite in
place or append. -/
def dictInsert (acc : List (ExpressionT × ExpressionT)) (k v : ExpressionT) :
    List (ExpressionT × ExpressionT) :=
  match acc with
  | [] => [(k, v)]
  | (k', v') :: rest =>
    if keyEq k' k then (k', v) :: rest else (k', v') :: dictInsert rest k v

/-- `hash_map1`: fold the parsed pairs into a dict. -/
def buildDict (pairs : List (ExpressionT × ExpressionT)) :
    List (ExpressionT × ExpressionT) :=
  pairs.foldl (fun acc p => dictInsert acc p.1 p.2) []

mutual

/-- Parse one `expression` from the token stream, returning the rest
(strictly shorter).  The grammar of `parser.py`: atoms, reader-macro
prefixes, `list`, `vector` and `hash_map`, with the `TransformLisP`
actions applied. -/
def parseExpr : (ts : List Tok) →
    Except String (ExpressionT × {rest : List Tok // rest.length < ts.length})
  | [] => .error "Error! unexpected EOF"
  | t :: ts =>
    match t with
    | .trueTok => .ok (.TrueV, ⟨ts, by simp⟩)
    | .falseTok => .ok (.FalseV, ⟨ts, by simp⟩)
    | .nilTok => .ok (.Nil, ⟨ts, by simp⟩)
    | .numTok n => .ok (.Number n, ⟨ts, by simp⟩)
    | .kwTok k => .ok (.Keyword k, ⟨ts, by simp⟩)
    | .symTok s => .ok (.Symbol s, ⟨ts, by simp⟩)
    | .strTok raw =>
      match unescapeChars raw with
      | some s => .ok (.String (String.mk s), ⟨ts, by simp⟩)
      | none => .error "Error! while transforming the tree after parsing"
    | .unbalancedTok => .error "Error! unbalanced string"
    | .quoteTok =>
      match parseExpr ts with
      | .ok (e, ⟨rest, h⟩) =>
        .ok (.List [.Symbol "quote", e], ⟨rest, by simp; omega⟩)
      | .error m => .error m
    | .backtickTok =>
      match parseExpr ts with
      | .ok (e, ⟨rest, h⟩) =>
        .ok (.List [.Symbol "quasiquote", e], ⟨rest, by simp; omega⟩)
      | .error m => .error m
    | .tildeTok =>
      match parseExpr ts with
      | .ok (e, ⟨rest, h⟩) =>
        .ok (.List [.Symbol "unquote", e], ⟨rest, by simp; omega⟩)
      | .error m => .error m
    | .specialTok =>
      match parseExpr ts with
      | .ok (e, ⟨rest, h⟩) =>
        .ok (.List [.Symbol "splice-unquote", e], ⟨rest, by simp; omega⟩)
      | .error m => .error m
    | .atTok =>
      match parseExpr ts with
      | .ok (e, ⟨rest, h⟩) =>
        .ok (.List [.Symbol "deref", e], ⟨rest, by simp; omega⟩)
      | .error m => .error m
    | .hatTok =>
      -- `meta : HAT expression expression` → `(with-meta x m)`, swapped
      match parseExpr ts with
      | .ok (e1, ⟨r1, h1⟩) =>
        match parseExpr r1 with
        | .ok (e2, ⟨r2, h2⟩) =>
          .ok (.List [.Symbol "with-meta", e2, e1], ⟨r2, by simp; omega⟩)
        | .error m => .error m
      | .error m => .error m
    | .lparen =>
      match parseItems .rparen ts with
      | .ok (es, ⟨rest, h⟩) => .ok (.List es, ⟨rest, by simp; omega⟩)
      | .error m => .error m
    | .lbracket =>
      match parseItems .rbracket ts with
      | .ok (es, ⟨rest, h⟩) => .ok (.Vector es, ⟨rest, by simp; omega⟩)
      | .error m => .error m
    | .lbrace =>
      match parsePairs ts with
      | .ok (ps, ⟨rest, h⟩) => .ok (.HashMap (buildDict ps), ⟨rest, by simp; omega⟩)
      | .error m => .error m
    | .rparen => .error "Error! unexpected token"
    | .rbracket => .error "Error! unexpected token"
    | .rbrace => .error "Error! unexpected token"
termination_by ts => (ts.length, 0)

/-- Parse expressions until the closing token, consuming it. -/
def parseItems (closer : Tok) : (ts : List Tok) →
    Except String (List ExpressionT × {rest : List Tok // rest.length < ts.length})
  | [] => .error "Error! unexpected EOF"
  | t :: ts =>
    if t = closer then .ok ([], ⟨ts, by simp⟩)
    else
      match parseExpr (t :: ts) with
      | .ok (e, ⟨r1, h1⟩) =>
        match parseItems closer r1 with
        | .ok (es, ⟨r2, h2⟩) => .ok (e :: es, ⟨r2, by omega⟩)
        | .error m => .error m
      | .error m => .error m
termination_by ts => (ts.length, 1)

/-- Parse `hash_map_item*` then the closing brace: each key is
syntactically a `STRING` or `KEYWORD` token. -/
def parsePairs : (ts : List Tok) →
    Except String (List (ExpressionT × ExpressionT) ×
      {rest : List Tok // rest.length < ts.length})
  | [] => .error "Error! unexpected EOF"
  | t :: ts =>
    match t with
    | .rbrace => .ok ([], ⟨ts, by simp⟩)
    | .strTok raw =>
      match unescapeChars raw with
      | none => .error "Error! while transforming the tree after parsing"
      | some s =>
        match parseExpr ts with
        | .ok (v, ⟨r1, h1⟩) =>
          match parsePairs r1 with
          | .ok (ps, ⟨r2, h2⟩) =>
            .ok ((ExpressionT.String (String.mk s), v) :: ps, ⟨r2, by simp; omega⟩)
          | .error m => .error m
        | .error m => .error m
    | .kwTok k =>
      match parseExpr ts with
      | .ok (v, ⟨r1, h1⟩) =>
        match parsePairs r1 with
        | .ok (ps, ⟨r2, h2⟩) =>
          .ok ((ExpressionT.Keyword k, v) :: ps, ⟨r2, by simp; omega⟩)
        | .error m => .error m
      | .error m => .error m
    | _ => .error "Error! unexpected token"
termination_by ts => (ts.length, 1)

end

/-- `parse_str`: lex, parse one `expression` (the LALR start symbol must
consume the whole input), and apply the transformer.  Errors are returned
as strings, never raised. -/
def parse_str (text : String) : Except String ExpressionT :=
  match tokenize text.data with
  | .error m => .error m
  | .ok toks =>
    match parseExpr toks with
    | .ok (e, ⟨rest, _⟩) =>
      match rest with
      | [] => .ok e
      | _ => .error "Error! unexpected token"
    | .error m => .error m

/-! ## Primitives (`core.py`) and the evaluator (`step6_file.eval_ast`) -/

/-- `core.assert_number` (`UnexpectedArgument` carries ` a ClassName`). -/
def assert_number : ExpressionT → Except MalErr Int
  | .Number n => .ok n
  | _ => .error (.unexpectedArgument " a Number")

/-- `core.assert_list`. -/
def assert_list : ExpressionT → Except MalErr (List ExpressionT)
  | .List v => .ok v
  | _ => .error (.unexpectedArgument " a List")

/-- `core.assert_sequence`. -/
def assert_sequence : ExpressionT → Except MalErr (List ExpressionT)
  | .List v => .ok v
  | .Vector v => .ok v
  | _ => .error (.unexpectedArgument " a sequence")

/-- `core.assert_string`. -/
def assert_string : ExpressionT → Except MalErr String
  | .String s => .ok s
  | _ => .error (.unexpectedArgument " a String")

/-- `core.assert_atom`. -/
def assert_atom : ExpressionT → Except MalErr Nat
  | .Atom i => .ok i
  | _ => .error (.unexpectedArgument " a Atom")

/-- The arithmetic lambdas of `get_namespace`:
`Number(assert_number(t[0]).value OP assert_number(t[1]).value)`.  Only
`t[0]` and `t[1]` are read; indexing an absent position is a host
`IndexError` (`t[0]` is read — and type-checked — before `t[1]`). -/
def numBin (st : St) (args : List ExpressionT) (f : Int → Int → Except HostErr Int) :
    Res ExpressionT :=
  match args with
  | [] => .err (.host .indexError) st
  | [a] =>
    match assert_number a with
    | .error m => .err (.mal m) st
    | .ok _ => .err (.host .indexError) st
  | a :: b :: _ =>
    match assert_number a with
    | .error m => .err (.mal m) st
    | .ok x =>
      match assert_number b with
      | .error m => .err (.mal m) st
      | .ok y =>
        match f x y with
        | .ok r => .ok (.Number r) st
        | .error h => .err (.host h) st

/-- A comparison primitive: exactly two `Number`s. -/
def cmpPrim (st : St) (args : List ExpressionT) (name : String) (f : Int → Int → Bool) :
    Res ExpressionT :=
  match args with
  | [a, b] =>
    match assert_number a with
    | .error m => .err (.mal m) st
    | .ok x =>
      match assert_number b with
      | .error m => .err (.mal m) st
      | .ok y => .ok (bool_to_mal_bool (f x y)) st
  | _ => .err (.mal (.unexpectedNumberOfArguments name 2)) st

/-- `sep.join` of rendered pieces. -/
def joinWith (sep : List Char) : List (List Char) → List Char
  | [] => []
  | [x] => x
  | x :: rest => x ++ sep ++ joinWith sep rest

/-- Render each argument with `Pretty` and join (`pr_str`, `str`,
`prn`, `println`). -/
def prettyAll (st : St) (readable : Bool) (b : Nat) (sep : List Char)
    (args : List ExpressionT) : Option (List Char) :=
  (prettyJoin st readable b args).map (joinWith sep)

/-- `fn*` parameter collection: every element must be a `Symbol`. -/
def symbolNames : List ExpressionT → Option (List String)
  | [] => some []
  | .Symbol s :: rest => (symbolNames rest).map (s :: ·)
  | _ => none

mutual

/-- `step6_file.eval_ast`: the trampolined evaluator.  One Lean recursion
step is one loop iteration or one nested host call; `fuel` decreases on
every one of them (totality), `stack` only on nested host calls — a
`continue` of the `while True:` loop passes `s + 1`, restoring the
caller's frame budget, while non-tail children get `s`.  An `Atom` ast
matches no `case` of the source `match`, so the loop spins forever. -/
def eval_ast (fuel stack : Nat) (ast : ExpressionT) (env : Nat) (st : St) :
    Res ExpressionT :=
  match fuel with
  | 0 => .timeout
  | f + 1 =>
    match stack with
    | 0 => .err (.host .recursionError) st
    | s + 1 =>
      match ast with
      | .Symbol name => envGet st env name
      | .Keyword _ | .Number _ | .TrueV | .FalseV | .Nil | .String _ => .ok ast st
      | .List [] => .ok ast st
      | .List (hd :: args) =>
        match hd, args with
        | .Symbol "def!", [key, value] =>
          match
            (match key with
             | .Symbol s' => Res.ok s' st
             | k =>
               match reprExpr st f [] k with
               | some cs => Res.ok (String.mk cs) st
               | none => Res.err (.host .reprUnmodelled) st) with
          | .ok name _ =>
            match eval_ast f s value env st with
            | .ok v st' => .ok v (envSet st' env name v)
            | r => r
          | .err e st' => .err e st'
          | .timeout => .timeout
        | .Symbol "def!", _ => .err (.mal .badNumberOfArguments) st
        | .Symbol "let*", [bindings, body] =>
          match seqElems bindings with
          | none => .err (.mal .notAssignationInLet) st
          | some bs =>
            if bs.length % 2 ≠ 0 then .err (.mal .badNumberOfAssignations) st
            else
              match allocEnv st (some env) with
              | (i, st₁) =>
                match letLoop f s bs i st₁ with
                | .ok _ st₂ => eval_ast f (s + 1) body i st₂
                | .err e st₂ => .err e st₂
                | .timeout => .timeout
        | .Symbol "let*", _ => .err (.mal .badNumberOfArguments) st
        | .Symbol "do", [] => .err (.mal .emptyDoBlock) st
        | .Symbol "do", e :: es => doLoop f s (e :: es) env st
        | .Symbol "if", [c, t, e] =>
          match eval_ast f s c env st with
          | .ok v st' =>
            if truthy v then eval_ast f (s + 1) t env st'
            else eval_ast f (s + 1) e env st'
          | r => r
        | .Symbol "if", [c, t] =>
          match eval_ast f s c env st with
          | .ok v st' =>
            if truthy v then eval_ast f (s + 1) t env st'
            else .ok .Nil st'
          | r => r
        | .Symbol "if", _ => .err (.mal .badNumberOfArguments) st
        | .Symbol "fn*", [bindss, body] =>
          match seqElems bindss with
          | none => .err (.mal .expectedListOfBindings) st
          | some elems =>
            match symbolNames elems with
            | none => .err (.mal .nonSymbolInBinding) st
            | some binds =>
              .ok (.FunctionDefinition binds body env st.nextClosure)
                { st with nextClosure := st.nextClosure + 1 }
        | .Symbol "fn*", _ => .err (.mal .badNumberOfArguments) st
        | _, _ =>
          match eval_ast f s hd env st with
          | .ok fv st₁ =>
            match fv with
            | .Function g =>
              match evalSeq f s args env st₁ with
              | .ok argsv st₂ => applyPrim f s g argsv st₂
              | .err e st₂ => .err e st₂
              | .timeout => .timeout
            | .FunctionDefinition ps body cenv _ =>
              if ps.length ≠ args.length then .err (.mal .badNumberOfArguments) st₁
              else
                match evalSeq f s args env st₁ with
                | .ok argsv st₂ =>
                  match mkBoundEnv st₂ cenv ps argsv with
                  | .ok newEnv st₃ => eval_ast f (s + 1) body newEnv st₃
                  | .err e st₃ => .err e st₃
                  | .timeout => .timeout
                | .err e st₂ => .err e st₂
                | .timeout => .timeout
            | _ => .err (.mal .nonFunctionFormAtFirstListItem) st₁
          | r => r
      | .Vector xs =>
        match xs with
        | [] => .ok ast st
        | _ =>
          match evalSeq f s xs env st with
          | .ok vs st' => .ok (.Vector vs) st'
          | .err e st' => .err e st'
          | .timeout => .timeout
      | .HashMap ps =>
        match ps with
        | [] => .ok ast st
        | _ =>
          match evalPairs f s ps env st with
          | .ok qs st' => .ok (.HashMap qs) st'
          | .err e st' => .err e st'
          | .timeout => .timeout
      | .Function _ => .ok ast st
      | .FunctionDefinition .. => .ok ast st
      | .Atom _ => eval_ast f (s + 1) ast env st
termination_by structural fuel

/-- The `do` loop: non-final forms are nested calls, the final form is a
`continue`. -/
def doLoop (fuel s : Nat) (es : List ExpressionT) (env : Nat) (st : St) :
    Res ExpressionT :=
  match fuel with
  | 0 => .timeout
  | f + 1 =>
    match es with
    | [] => .timeout
    | [last] => eval_ast f (s + 1) last env st
    | e :: rest =>
      match eval_ast f s e env st with
      | .ok _ st' => doLoop f s rest env st'
      | r => r
termination_by structural fuel

/-- The `let*` binding loop: each binding name must be a `Symbol`
(checked before its expression is evaluated); values are evaluated and
bound in the child env one pair at a time. -/
def letLoop (fuel s : Nat) (bs : List ExpressionT) (env : Nat) (st : St) : Res Unit :=
  match fuel with
  | 0 => .timeout
  | f + 1 =>
    match bs with
    | [] => .ok () st
    | sym :: vexpr :: rest =>
      match sym with
      | .Symbol name =>
        match eval_ast f s vexpr env st with
        | .ok v st' => letLoop f s rest env (envSet st' env name v)
        | .err e st' => .err e st'
        | .timeout => .timeout
      | _ => .err (.mal .expectedSymbolInLetDefinition) st
    | [_] => .err (.host .indexError) st
termination_by structural fuel

/-- Evaluate a list of expressions left to right (argument lists, vector
elements). -/
def evalSeq (fuel s : Nat) (es : List ExpressionT) (env : Nat) (st : St) :
    Res (List ExpressionT) :=
  match fuel with
  | 0 => .timeout
  | f + 1 =>
    match es with
    | [] => .ok [] st
    | e :: rest =>
      match eval_ast f s e env st with
      | .ok v st' =>
        match evalSeq f s rest env st' with
        | .ok vs st'' => .ok (v :: vs) st''
        | .err e' st'' => .err e' st''
        | .timeout => .timeout
      | .err e' st' => .err e' st'
      | .timeout => .timeout
termination_by structural fuel

/-- Evaluate the values of a `HashMap` (keys unchanged). -/
def evalPairs (fuel s : Nat) (ps : List (ExpressionT × ExpressionT)) (env : Nat)
    (st : St) : Res (List (ExpressionT × ExpressionT)) :=
  match fuel with
  | 0 => .timeout
  | f + 1 =>
    match ps with
    | [] => .ok [] st
    | (k, v) :: rest =>
      match eval_ast f s v env st with
      | .ok v' st' =>
        match evalPairs f s rest env st' with
        | .ok qs st'' => .ok ((k, v') :: qs) st''
        | .err e' st'' => .err e' st''
        | .timeout => .timeout
      | .err e' st' => .err e' st'
      | .timeout => .timeout
termination_by structural fuel

/-- Invocation of a `core.get_namespace` built-in on evaluated arguments.
`swap!` is the only one that calls back into user code. -/
def applyPrim (fuel s : Nat) (p : Prim) (args : List ExpressionT) (st : St) :
    Res ExpressionT :=
  match fuel with
  | 0 => .timeout
  | f + 1 =>
    match p with
    | .add => numBin st args (fun a b => .ok (a + b))
    | .sub => numBin st args (fun a b => .ok (a - b))
    | .div =>
      numBin st args (fun a b =>
        if b = 0 then .error .zeroDivisionError else .ok (Int.fdiv a b))
    | .mul => numBin st args (fun a b => .ok (a * b))
    | .mod =>
      numBin st args (fun a b =>
        if b = 0 then .error .zeroDivisionError else .ok (Int.fmod a b))
    | .prn =>
      match prettyAll st true s [' '] args with
      | none => .err (.host .reprUnmodelled) st
      | some cs => .ok .Nil { st with out := st.out ++ [String.mk cs] }
    | .list => .ok (.List args) st
    | .isList =>
      match args with
      | [x] =>
        .ok (bool_to_mal_bool (match x with | .List _ => true | _ => false)) st
      | _ => .err (.mal (.unexpectedNumberOfArguments "list?" 1)) st
    | .isEmpty =>
      match args with
      | [x] =>
        match assert_sequence x with
        | .ok ls => .ok (bool_to_mal_bool ls.isEmpty) st
        | .error m => .err (.mal m) st
      | _ => .err (.mal (.unexpectedNumberOfArguments "empty?" 1)) st
    | .count =>
      match args with
      | [x] =>
        match x with
        | .Nil => .ok (.Number 0) st
        | _ =>
          match assert_sequence x with
          | .ok ls => .ok (.Number ls.length) st
          | .error m => .err (.mal m) st
      | _ => .err (.mal (.unexpectedNumberOfArguments "count" 1)) st
    | .eq =>
      match args with
      | [x, y] =>
        match eqCore s st x y with
        | none => .err (.host .recursionError) st
        | some r => .ok r st
      | _ => .err (.mal (.unexpectedNumberOfArguments "(=)" 2)) st
    | .le => cmpPrim st args "(<)" (fun a b => a < b)
    | .leq => cmpPrim st args "(<=)" (fun a b => a ≤ b)
    | .gt => cmpPrim st args "(>)" (fun a b => b < a)
    | .geq => cmpPrim st args "(>=)" (fun a b => b ≤ a)
    | .prStr =>
      match prettyAll st true s [' '] args with
      | none => .err (.host .reprUnmodelled) st
      | some cs => .ok (.String (String.mk cs)) st
    | .str =>
      match prettyAll st false s [] args with
      | none => .err (.host .reprUnmodelled) st
      | some cs => .ok (.String (String.mk cs)) st
    | .println =>
      match prettyAll st false s [' '] args with
      | none => .err (.host .reprUnmodelled) st
      | some cs => .ok .Nil { st with out := st.out ++ [String.mk cs] }
    | .car =>
      match args with
      | [x] =>
        match assert_list x with
        | .ok (v :: _) => .ok v st
        | .ok [] => .err (.mal .carOnEmptyList) st
        | .error m => .err (.mal m) st
      | _ => .err (.mal (.unexpectedNumberOfArguments "car" 1)) st
    | .cdr =>
      match args with
      | [x] =>
        match assert_list x with
        | .ok (_ :: t) => .ok (.List t) st
        | .ok [] => .err (.mal .cdrOnEmptyList) st
        | .error m => .err (.mal m) st
      | _ => .err (.mal (.unexpectedNumberOfArguments "cdr" 1)) st
    | .readString =>
      match args with
      | [x] =>
        match assert_string x with
        | .ok s' =>
          match parse_str s' with
          | .error _ => .err (.mal .parsingError) st
          | .ok e => .ok e st
        | .error m => .err (.mal m) st
      | _ => .err (.mal (.unexpectedNumberOfArguments "read-string" 1)) st
    | .slurp =>
      match args with
      | [x] =>
        match assert_string x with
        | .ok _ => .err (.host .ioUnmodelled) st
        | .error m => .err (.mal m) st
      | _ => .err (.mal (.unexpectedNumberOfArguments "slurp" 1)) st
    | .atom =>
      match args with
      | [x] =>
        match allocAtom st x with
        | (i, st') => .ok (.Atom i) st'
      | _ => .err (.mal (.unexpectedNumberOfArguments "atom" 1)) st
    | .isAtom =>
      match args with
      | [x] =>
        .ok (bool_to_mal_bool (match x with | .Atom _ => true | _ => false)) st
      | _ => .err (.mal (.unexpectedNumberOfArguments "atom" 1)) st
    | .deref =>
      match args with
      | [x] =>
        match assert_atom x with
        | .ok i =>
          match getAtom st i with
          | some v => .ok v st
          | none => .err (.host .indexError) st
        | .error m => .err (.mal m) st
      | _ => .err (.mal (.unexpectedNumberOfArguments "deref" 1)) st
    | .reset =>
      match args with
      | [a, v] =>
        match assert_atom a with
        | .ok i => .ok v (setAtom st i v)
        | .error m => .err (.mal m) st
      | _ => .err (.mal (.unexpectedNumberOfArguments "reset" 2)) st
    | .swap =>
      match args with
      | x0 :: x1 :: extra =>
        match assert_atom x0 with
        | .error m => .err (.mal m) st
        | .ok i =>
          match x1 with
          | .Function g =>
            match getAtom st i with
            | none => .err (.host .indexError) st
            | some cur =>
              match applyPrim f s g (cur :: extra) st with
              | .ok v st' => .ok v (setAtom st' i v)
              | r => r
          | .FunctionDefinition ps body cenv _ =>
            -- `f.closure.value([a.value] + args)`: the compiled closure
            -- binds `params` (no arity check) in a child of the captured
            -- env and evaluates the body
            match getAtom st i with
            | none => .err (.host .indexError) st
            | some cur =>
              match mkBoundEnv st cenv ps (cur :: extra) with
              | .ok newEnv st₁ =>
                match eval_ast f s body newEnv st₁ with
                | .ok v st' => .ok v (setAtom st' i v)
                | r => r
              | .err e st₁ => .err e st₁
              | .timeout => .timeout
          | _ => .err (.mal (.unexpectedArgument "a function")) st
      | _ => .err (.mal (.unexpectedNumberOfArguments "swap" 2)) st
termination_by structural fuel

end

/-- `core.get_namespace`, in the source's insertion order. -/
def get_namespace : List (String × ExpressionT) :=
  [("+", .Function .add), ("-", .Function .sub), ("/", .Function .div),
   ("*", .Function .mul), ("%", .Function .mod),
   ("prn", .Function .prn), ("list", .Function .list),
   ("list?", .Function .isList), ("empty?", .Function .isEmpty),
   ("count", .Function .count), ("=", .Function .eq),
   ("<", .Function .le), ("<=", .Function .leq),
   (">", .Function .gt), (">=", .Function .geq),
   ("pr-str", .Function .prStr), ("str", .Function .str),
   ("println", .Function .println), ("car", .Function .car),
   ("cdr", .Function .cdr), ("read-string", .Function .readString),
   ("slurp", .Function .slurp), ("atom", .Function .atom),
   ("atom?", .Function .isAtom), ("deref", .Function .deref),
   ("reset!", .Function .reset), ("swap!", .Function .swap)]

/-- The top-level store after `main`'s setup: environment 0 holds the
namespace and `*ARGV*` (the `not`, `load-file` and `eval` bindings added
afterwards play no role in the claims below and would not shadow
anything they use). -/
def defaultSt : St :=
  { envs := [(0, { data := tableSet get_namespace "*ARGV*" (.List []), outer := none })]
    nextEnv := 1
    atoms := []
    nextClosure := 0
    out := [] }

/-! ## Claims -/

/-- C2, counterexample.  The claim says `/` truncates toward zero, so
`(/ -7 2)` would be `-3`; the source computes with Python `//` (floor
division) and returns `-4`. -/
theorem c2_counterexample :
    applyPrim 1 0 .div [.Number (-7), .Number 2] defaultSt =
      .ok (.Number (-4)) defaultSt ∧ (-4 : Int) ≠ -3 :=
  ⟨rfl, by decide⟩

/-- C2, amended: for Numbers `a`, `b` with `b ≠ 0`, the primitive `/`
returns the floor of the quotient (rounding toward negative infinity,
Python `//`), so `(/ -7 2)` is `-4`. -/
theorem c2_floor_division (a b : Int) (st : St) (f s : Nat) (hb : b ≠ 0) :
    applyPrim (f + 1) s .div [.Number a, .Number b] st =
      .ok (.Number (Int.fdiv a b)) st := by
  simp [applyPrim, numBin, assert_number, hb]

theorem c2_witness :
    applyPrim 1 0 .div [.Number (-7), .Number 2] defaultSt =
      .ok (.Number (Int.fdiv (-7) 2)) defaultSt :=
  c2_floor_division (-7) 2 defaultSt 0 0 (by decide)

/-- C3, counterexample.  `(def! 5 7)` binds under the host `repr` of the
key — the name `Number(value=5)` — not under its printed form `5`. -/
theorem c3_counterexample :
    eval_ast 3 3 (.List [.Symbol "def!", .Number 5, .Number 7]) 0 defaultSt =
      .ok (.Number 7) (envSet defaultSt 0 "Number(value=5)" (.Number 7)) ∧
    envFind (envSet defaultSt 0 "Number(value=5)" (.Number 7)) 0 "5" = none ∧
    envFind (envSet defaultSt 0 "Number(value=5)" (.Number 7)) 0 "Number(value=5)" =
      some (.Number 7) := by
  refine ⟨?_, rfl, rfl⟩
  simp [eval_ast, reprExpr, intReprChars, natReprChars, digitChar]

/-- C3, amended: for `(def! S V)` with `S` not a `Symbol`, evaluation
coerces the key to the host `repr` of `S` (e.g. `Number(value=5)` when `S`
is the Number 5), evaluates `V` in the current env, binds the result in
the current env under that name and returns it. -/
theorem c3_def_repr_key (f s : Nat) (st st' : St) (env : Nat)
    (key value v : ExpressionT) (cs : List Char)
    (hkey : ∀ t, key ≠ .Symbol t)
    (hrepr : reprExpr st f [] key = some cs)
    (hval : eval_ast f s value env st = .ok v st') :
    eval_ast (f + 1) (s + 1) (.List [.Symbol "def!", key, value]) env st =
      .ok v (envSet st' env (String.mk cs) v) := by
  cases key with
  | Symbol t => exact absurd rfl (hkey t)
  | _ => simp [eval_ast, hrepr, hval]

theorem c3_witness :
    eval_ast 2 2 (.List [.Symbol "def!", .Number 5, .Number 7]) 0 defaultSt =
      .ok (.Number 7) (envSet defaultSt 0 (String.mk "Number(value=5)".data) (.Number 7)) :=
  c3_def_repr_key 1 1 defaultSt defaultSt 0 (.Number 5) (.Number 7) (.Number 7)
    "Number(value=5)".data (fun t h => ExpressionT.noConfusion h)
    (by simp [reprExpr, intReprChars, natReprChars, digitChar]) rfl

/-- C4, counterexample.  Two distinct atom cells (indices 0 and 1) holding
structurally equal values: the claim says `=` returns False; the source's
dataclass `__eq__` compares the stored values and returns True. -/
def c4St : St :=
  { envs := [(0, { data := [], outer := none })]
    nextEnv := 1
    atoms := [.Number 7, .Number 7]
    nextClosure := 0
    out := [] }

theorem c4_counterexample :
    applyPrim 1 10 .eq [.Atom 0, .Atom 1] c4St = .ok .TrueV c4St ∧ (0 : Nat) ≠ 1 := by
  refine ⟨?_, by decide⟩
  simp [applyPrim, eqCore, pyEq, seqElems, variantIdx, getAtom, c4St, bool_to_mal_bool]

/-- C4, amended: `=` on two Atoms is structural on the stored values, not
cell identity: the same cell always compares True (the host identity
shortcut), and distinct cells compare exactly as their current contents
compare under Python `==`. -/
theorem c4_atom_structural_eq :
    (∀ (s : Nat) (st : St) (i : Nat),
        eqCore (s + 2) st (.Atom i) (.Atom i) = some .TrueV) ∧
    (∀ (s : Nat) (st : St) (i j : Nat) (vi vj : ExpressionT) (b : Bool),
        i ≠ j → getAtom st i = some vi → getAtom st j = some vj →
        pyEq s st vi vj = some b →
        eqCore (s + 2) st (.Atom i) (.Atom j) = some (bool_to_mal_bool b)) ∧
    (∀ (f s : Nat) (st : St) (x y r : ExpressionT),
        eqCore s st x y = some r →
        applyPrim (f + 1) s .eq [x, y] st = .ok r st) := by
  refine ⟨?_, ?_, ?_⟩
  · intro s st i
    simp [eqCore, seqElems, variantIdx, pyEq]
  · intro s st i j vi vj b hij hi hj hvv
    simp [eqCore, seqElems, variantIdx, pyEq, hij, hi, hj, hvv]
    cases b <;> simp [bool_to_mal_bool]
  · intro f s st x y r h
    simp [applyPrim, h]

theorem c4_witness :
    eqCore 3 c4St (.Atom 0) (.Atom 1) = some (bool_to_mal_bool true) :=
  c4_atom_structural_eq.2.1 1 c4St 0 1 (.Number 7) (.Number 7) true
    (by decide) rfl rfl (by simp [pyEq])

/-- C5 (confirmed): in `(if C T)`/`(if C T E)` the evaluator branches on
the host truthiness of C's value: exactly `Nil` and `FalseV` are falsy
(their `__bool__`); every other value — the Number 0, the empty List, the
empty String included — selects the then branch; the two-armed form
returns `Nil` on a falsy condition. -/
theorem c5_if_truthiness :
    (∀ v : ExpressionT, truthy v = false ↔ (v = .Nil ∨ v = .FalseV)) ∧
    truthy (.Number 0) = true ∧ truthy (.List []) = true ∧
    truthy (.String "") = true ∧
    (∀ (f s : Nat) (st st' : St) (env : Nat) (c t e v : ExpressionT),
        eval_ast f s c env st = .ok v st' →
        eval_ast (f + 1) (s + 1) (.List [.Symbol "if", c, t, e]) env st =
          (if truthy v then eval_ast f (s + 1) t env st'
           else eval_ast f (s + 1) e env st')) ∧
    (∀ (f s : Nat) (st st' : St) (env : Nat) (c t v : ExpressionT),
        eval_ast f s c env st = .ok v st' →
        eval_ast (f + 1) (s + 1) (.List [.Symbol "if", c, t]) env st =
          (if truthy v then eval_ast f (s + 1) t env st' else .ok .Nil st')) := by
  refine ⟨?_, rfl, rfl, rfl, ?_, ?_⟩
  · intro v
    cases v <;> simp [truthy]
  · intro f s st st' env c t e v h
    simp [eval_ast, h]
  · intro f s st st' env c t v h
    simp [eval_ast, h]

theorem c5_witness :
    eval_ast 2 2 (.List [.Symbol "if", .Number 0, .Keyword "t", .Keyword "e"]) 0 defaultSt =
      (if truthy (.Number 0) then eval_ast 1 2 (.Keyword "t") 0 defaultSt
       else eval_ast 1 2 (.Keyword "e") 0 defaultSt) :=
  c5_if_truthiness.2.2.2.2.1 1 1 defaultSt defaultSt 0
    (.Number 0) (.Keyword "t") (.Keyword "e") (.Number 0) rfl

/-- C9 (confirmed): each arithmetic primitive reads only `t[0]` and
`t[1]`: on longer argument lists it behaves exactly as on the first two
(no arity error; `+ - *` return the operation of the first two, `/ %` do
so whenever the second is nonzero); on fewer than two Number arguments it
raises a host `IndexError`, which is not a `MalException` and so is not
caught by `rep`'s handler. -/
theorem c9_arith_first_two :
    (∀ (p : Prim),
        (p = .add ∨ p = .sub ∨ p = .div ∨ p = .mul ∨ p = .mod) →
        ∀ (a b : Int) (rest : List ExpressionT) (st : St) (f s : Nat),
          applyPrim (f + 1) s p (.Number a :: .Number b :: rest) st =
            applyPrim (f + 1) s p [.Number a, .Number b] st) ∧
    (∀ (a b : Int) (rest : List ExpressionT) (st : St) (f s : Nat),
        applyPrim (f + 1) s .add (.Number a :: .Number b :: rest) st =
          .ok (.Number (a + b)) st ∧
        applyPrim (f + 1) s .sub (.Number a :: .Number b :: rest) st =
          .ok (.Number (a - b)) st ∧
        applyPrim (f + 1) s .mul (.Number a :: .Number b :: rest) st =
          .ok (.Number (a * b)) st ∧
        (b ≠ 0 →
          applyPrim (f + 1) s .div (.Number a :: .Number b :: rest) st =
            .ok (.Number (Int.fdiv a b)) st) ∧
        (b ≠ 0 →
          applyPrim (f + 1) s .mod (.Number a :: .Number b :: rest) st =
            .ok (.Number (Int.fmod a b)) st)) ∧
    (∀ (p : Prim),
        (p = .add ∨ p = .sub ∨ p = .div ∨ p = .mul ∨ p = .mod) →
        ∀ (st : St) (f s : Nat),
          applyPrim (f + 1) s p [] st = .err (.host .indexError) st ∧
          ∀ a : Int,
            applyPrim (f + 1) s p [.Number a] st = .err (.host .indexError) st) ∧
    repCatches (.host .indexError) = false := by
  refine ⟨?_, ?_, ?_, rfl⟩
  · intro p hp a b rest st f s
    rcases hp with rfl | rfl | rfl | rfl | rfl <;>
      simp [applyPrim, numBin, assert_number]
  · intro a b rest st f s
    refine ⟨?_, ?_, ?_, ?_, ?_⟩ <;>
      simp [applyPrim, numBin, assert_number] <;>
      intro hb <;> simp [hb]
  · intro p hp st f s
    rcases hp with rfl | rfl | rfl | rfl | rfl <;>
      exact ⟨by simp [applyPrim, numBin], fun a => by simp [applyPrim, numBin, assert_number]⟩

theorem c9_witness :
    applyPrim 1 0 .add [.Number 1, .Number 2, .Number 99] defaultSt =
      applyPrim 1 0 .add [.Number 1, .Number 2] defaultSt ∧
    applyPrim 1 0 .add [.Number 1] defaultSt = .err (.host .indexError) defaultSt :=
  ⟨c9_arith_first_two.1 .add (.inl rfl) 1 2 [.Number 99] defaultSt 0 0,
   (c9_arith_first_two.2.2.1 .add (.inl rfl) defaultSt 0 0).2 1⟩

/-- `core.eq` only produces the two booleans (or crashes). -/
theorem eqCore_values (b : Nat) (st : St) (x y : ExpressionT) :
    eqCore b st x y = none ∨ eqCore b st x y = some .TrueV ∨
      eqCore b st x y = some .FalseV := by
  rw [eqCore]
  split
  · exact .inl rfl
  · split
    · split
      · rcases eqCoreAll (b - 1) st _ _ with _ | r
        · exact .inl rfl
        · cases r <;> simp [bool_to_mal_bool]
      · simp [bool_to_mal_bool]
    · split
      · rcases pyEq (b - 1) st x y with _ | r
        · exact .inl rfl
        · cases r <;> simp
      · simp

/-- The pairwise `all(eq(...))` succeeds exactly when every zipped pair
compares `TrueV`. -/
theorem eqCoreAll_true_iff (s : Nat) (st : St) :
    ∀ xs ys : List ExpressionT,
      eqCoreAll s st xs ys = some true ↔
        ∀ p ∈ xs.zip ys, eqCore s st p.1 p.2 = some .TrueV := by
  intro xs
  induction xs with
  | nil => intro ys; simp [eqCoreAll]
  | cons x xs ih =>
    intro ys
    cases ys with
    | nil => simp [eqCoreAll]
    | cons y ys =>
      have hv := eqCore_values s st x y
      rcases hc : eqCore s st x y with _ | r
      · simp [eqCoreAll, hc]
      · rw [hc] at hv
        rcases hv with hv | hv | hv
        · cases hv
        · cases Option.some.inj hv
          simp [eqCoreAll, hc, truthy, ih]
        · cases Option.some.inj hv
          simp [eqCoreAll, hc, truthy]

/-- C6 (confirmed): `=` on a List and a Vector (either order) is True
exactly when the lengths agree and the zipped elements are pairwise
`=`-equal; on any other pair of distinct variants it is False — in
particular `(= (list 1 2 3) [1 2 3])` is True and `(= (list) nil)` is
False. -/
theorem c6_list_vector_eq :
    (∀ (s : Nat) (st : St) (xs ys : List ExpressionT),
        eqCore (s + 1) st (.List xs) (.Vector ys) = some .TrueV ↔
          xs.length = ys.length ∧
            ∀ p ∈ xs.zip ys, eqCore s st p.1 p.2 = some .TrueV) ∧
    (∀ (s : Nat) (st : St) (xs ys : List ExpressionT),
        eqCore (s + 1) st (.Vector xs) (.List ys) = some .TrueV ↔
          xs.length = ys.length ∧
            ∀ p ∈ xs.zip ys, eqCore s st p.1 p.2 = some .TrueV) ∧
    (∀ (s : Nat) (st : St) (x y : ExpressionT),
        variantIdx x ≠ variantIdx y →
        (seqElems x = none ∨ seqElems y = none) →
        eqCore (s + 1) st x y = some .FalseV) ∧
    eqCore 5 defaultSt (.List [.Number 1, .Number 2, .Number 3])
        (.Vector [.Number 1, .Number 2, .Number 3]) = some .TrueV ∧
    eqCore 5 defaultSt (.List []) .Nil = some .FalseV := by
  have hall : ∀ (s : Nat) (st : St) (xs ys : List ExpressionT),
      (if xs.length = ys.length then
        match eqCoreAll s st xs ys with
        | none => none
        | some r => some (bool_to_mal_bool r)
       else some (bool_to_mal_bool false)) = some ExpressionT.TrueV ↔
        xs.length = ys.length ∧
          ∀ p ∈ xs.zip ys, eqCore s st p.1 p.2 = some .TrueV := by
    intro s st xs ys
    by_cases hl : xs.length = ys.length
    · constructor
      · intro h
        rw [if_pos hl] at h
        rcases ha : eqCoreAll s st xs ys with _ | r
        · rw [ha] at h; cases h
        · rw [ha] at h
          cases r
          · simp [bool_to_mal_bool] at h
          · exact ⟨hl, (eqCoreAll_true_iff s st xs ys).mp ha⟩
      · intro h
        rw [if_pos hl, (eqCoreAll_true_iff s st xs ys).mpr h.2]
        rfl
    · simp [hl, bool_to_mal_bool]
  refine ⟨?_, ?_, ?_, ?_, ?_⟩
  · intro s st xs ys
    rw [eqCore, dif_neg (Nat.succ_ne_zero s)]
    simp only [seqElems, Nat.add_sub_cancel]
    exact hall s st xs ys
  · intro s st xs ys
    rw [eqCore, dif_neg (Nat.succ_ne_zero s)]
    simp only [seqElems, Nat.add_sub_cancel]
    exact hall s st xs ys
  · intro s st x y hvar hseq
    rw [eqCore, dif_neg (Nat.succ_ne_zero s)]
    rcases hsx : seqElems x with _ | xs <;> rcases hsy : seqElems y with _ | ys <;>
      simp_all
  · simp [eqCore, eqCoreAll, pyEq, seqElems, bool_to_mal_bool, truthy]
  · simp [eqCore, seqElems, variantIdx, bool_to_mal_bool]

theorem c6_witness :
    eqCore 1 defaultSt (.List []) .Nil = some .FalseV :=
  c6_list_vector_eq.2.2.1 0 defaultSt (.List []) .Nil (by decide) (.inr rfl)

/-- C10, counterexample setup: an atom `a` holding `0`, and a closure
that first does `(reset! a 99)` and then raises via `(car (list))`. -/
def c10St : St :=
  { envs := [(0, { data := [("a", .Atom 0), ("reset!", .Function .reset),
                            ("car", .Function .car), ("list", .Function .list)],
                   outer := none })]
    nextEnv := 1
    atoms := [.Number 0]
    nextClosure := 0
    out := [] }

def c10Body : ExpressionT :=
  .List [.Symbol "do",
    .List [.Symbol "reset!", .Symbol "a", .Number 99],
    .List [.Symbol "car", .List [.Symbol "list"]]]

def c10StAfter : St :=
  { envs := [(1, { data := [("x", .Number 0)], outer := some 0 }),
             (0, { data := [("a", .Atom 0), ("reset!", .Function .reset),
                            ("car", .Function .car), ("list", .Function .list)],
                   outer := none })]
    nextEnv := 2
    atoms := [.Number 99]
    nextClosure := 0
    out := [] }

/-- C10, counterexample.  `swap!` on atom `a` (holding `0`) with that
closure: invoking the closure raises `CarOnEmptyList`, yet the value
stored in `a` afterwards is `99`, not the original `0` — the callee's own
mutations are not rolled back. -/
theorem c10_counterexample :
    applyPrim 20 20 .swap [.Atom 0, .FunctionDefinition ["x"] c10Body 0 0] c10St =
      .err (.mal .carOnEmptyList) c10StAfter ∧
    getAtom c10StAfter 0 = some (.Number 99) ∧
    (ExpressionT.Number 99) ≠ .Number 0 :=
  ⟨rfl, rfl, by simp⟩

/-- C10, amended: `swap!` itself writes nothing on error — when invoking
the callable raises, `swap!` re-raises with the store exactly as the
callee's invocation left it (so the atom is unchanged whenever the callee
itself did not write to it); when the callable returns normally, `swap!`
stores its result and returns it, and the stored value afterwards equals
the returned value. -/
theorem c10_swap_writes_only_result :
    (∀ (f s : Nat) (st st₁ stf : St) (i : Nat) (cur v : ExpressionT)
        (ps : List String) (body : ExpressionT) (cenv cid : Nat)
        (extra : List ExpressionT) (newEnv : Nat) (e : Err),
        getAtom st i = some cur →
        mkBoundEnv st cenv ps (cur :: extra) = .ok newEnv st₁ →
        (eval_ast f s body newEnv st₁ = .err e stf →
          applyPrim (f + 1) s .swap
            (.Atom i :: .FunctionDefinition ps body cenv cid :: extra) st =
            .err e stf) ∧
        (eval_ast f s body newEnv st₁ = .ok v stf →
          applyPrim (f + 1) s .swap
            (.Atom i :: .FunctionDefinition ps body cenv cid :: extra) st =
            .ok v (setAtom stf i v))) ∧
    (∀ (f s : Nat) (st stf : St) (i : Nat) (cur v : ExpressionT) (g : Prim)
        (extra : List ExpressionT) (e : Err),
        getAtom st i = some cur →
        (applyPrim f s g (cur :: extra) st = .err e stf →
          applyPrim (f + 1) s .swap (.Atom i :: .Function g :: extra) st =
            .err e stf) ∧
        (applyPrim f s g (cur :: extra) st = .ok v stf →
          applyPrim (f + 1) s .swap (.Atom i :: .Function g :: extra) st =
            .ok v (setAtom stf i v))) ∧
    (∀ (st : St) (i : Nat) (v : ExpressionT),
        i < st.atoms.length → getAtom (setAtom st i v) i = some v) := by
  refine ⟨?_, ?_, ?_⟩
  · intro f s st st₁ stf i cur v ps body cenv cid extra newEnv e hcur hbind
    constructor
    · intro heval
      simp [applyPrim, assert_atom, hcur, hbind, heval]
    · intro heval
      simp [applyPrim, assert_atom, hcur, hbind, heval]
  · intro f s st stf i cur v g extra e hcur
    constructor
    · intro happ
      simp [applyPrim, assert_atom, hcur, happ]
    · intro happ
      simp [applyPrim, assert_atom, hcur, happ]
  · intro st i v h
    simp only [getAtom, setAtom]
    rw [List.get?_eq_getElem?]
    simpa using List.getElem?_set_eq_of_lt v h

theorem c10_witness :
    applyPrim 2 20 .swap [.Atom 0, .Function .add] c10St =
      .err (.host .indexError) c10St :=
  (c10_swap_writes_only_result.2.1 1 20 c10St c10St 0 (.Number 0) .Nil .add []
    (.host .indexError) rfl).1 rfl

/-! ### Binding lemmas for C1 -/

theorem tableGet_tableSet_self (t : List (String × ExpressionT)) (n : String)
    (v : ExpressionT) : tableGet (tableSet t n v) n = some v := by
  induction t with
  | nil => simp [tableSet, tableGet]
  | cons p rest ih =>
    obtain ⟨k, w⟩ := p
    by_cases hk : k = n
    · simp [tableSet, tableGet, hk]
    · simp [tableSet, tableGet, hk, ih]

theorem tableGet_tableSet_ne (t : List (String × ExpressionT)) (n m : String)
    (v : ExpressionT) (h : m ≠ n) : tableGet (tableSet t n v) m = tableGet t m := by
  induction t with
  | nil =>
    simp only [tableSet, tableGet]
    rw [if_neg (fun hh => h hh.symm)]
  | cons p rest ih =>
    obtain ⟨k, w⟩ := p
    simp only [tableSet]
    by_cases hk : k = n
    · rw [if_pos hk]
      subst hk
      simp only [tableGet]
      rw [if_neg (fun hh => h hh.symm), if_neg (fun hh => h hh.symm)]
    · rw [if_neg hk]
      simp only [tableGet]
      by_cases hm : k = m
      · rw [if_pos hm, if_pos hm]
      · rw [if_neg hm, if_neg hm]
        exact ih

theorem lookupFrame_setFrame_self (l : List (Nat × Environment)) (i : Nat)
    (fr fr' : Environment) (h : lookupFrame l i = some fr) :
    lookupFrame (setFrame l i fr') i = some fr' := by
  induction l with
  | nil => simp [lookupFrame] at h
  | cons p rest ih =>
    obtain ⟨j, g⟩ := p
    by_cases hj : j = i
    · simp [lookupFrame, setFrame, hj]
    · simp only [lookupFrame, setFrame, hj, if_false, if_neg hj] at h ⊢
      exact ih h

theorem envSet_lookup (st : St) (env : Nat) (n : String) (v : ExpressionT)
    (fr : Environment) (h : lookupFrame st.envs env = some fr) :
    lookupFrame (envSet st env n v).envs env =
      some { fr with data := tableSet fr.data n v } := by
  simp only [envSet, h]
  exact lookupFrame_setFrame_self _ _ _ _ h

/-- The sequence of `set` calls done by the non-variadic prefix of the
binding loop. -/
def bindPairs (st : St) (env : Nat) : List (String × ExpressionT) → St
  | [] => st
  | (b, v) :: rest => bindPairs (envSet st env b v) env rest

theorem bindPairs_lookup :
    ∀ (prs : List (String × ExpressionT)) (st : St) (env : Nat) (fr : Environment),
      lookupFrame st.envs env = some fr →
      lookupFrame (bindPairs st env prs).envs env =
        some { fr with data := prs.foldl (fun t p => tableSet t p.1 p.2) fr.data } := by
  intro prs
  induction prs with
  | nil => intro st env fr h; simpa [bindPairs] using h
  | cons p rest ih =>
    intro st env fr h
    obtain ⟨b, v⟩ := p
    simp only [bindPairs, List.foldl]
    exact ih (envSet st env b v) env _ (envSet_lookup st env b v fr h)

/-- `Environment.__init__`'s loop on a parameter list with a `&` marker:
the prefix binds pairwise, then the parameter after `&` is set to the
remaining arguments and the loop returns. -/
theorem bindLoop_variadic :
    ∀ (pre : List String) (vals : List ExpressionT) (st : St) (env : Nat)
      (r : String) (post : List String),
      "&" ∉ pre → pre.length ≤ vals.length →
      bindLoop st env (pre ++ "&" :: r :: post) vals =
        .ok () (envSet (bindPairs st env (pre.zip vals)) env r
                 (.List (vals.drop pre.length))) := by
  intro pre
  induction pre with
  | nil =>
    intro vals st env r post _ _
    simp [bindLoop, bindPairs]
  | cons b pre ih =>
    intro vals st env r post h1 h2
    cases vals with
    | nil => simp at h2
    | cons v vs =>
      have hb : ¬(b = "&") := fun h => h1 (by simp [h])
      simp only [List.cons_append, bindLoop, hb, if_false, List.zip_cons_cons,
        bindPairs, List.drop_succ_cons, if_neg hb]
      exact ih vs (envSet st env b v) env r post (fun h => h1 (by simp [h]))
        (by simpa using h2)

theorem tableGet_fold_set_of_not_mem :
    ∀ (prs : List (String × ExpressionT)) (t : List (String × ExpressionT)) (n : String),
      n ∉ prs.map Prod.fst →
      tableGet (prs.foldl (fun t p => tableSet t p.1 p.2) t) n = tableGet t n := by
  intro prs
  induction prs with
  | nil => intro t n _; rfl
  | cons p rest ih =>
    intro t n h
    simp only [List.map_cons, List.mem_cons] at h
    push_neg at h
    simp only [List.foldl]
    rw [ih _ n h.2, tableGet_tableSet_ne _ _ _ _ h.1]

theorem tableGet_fold_zip :
    ∀ (pre : List String) (vals : List ExpressionT) (t : List (String × ExpressionT))
      (j : Nat) (hj : j < pre.length),
      pre.Nodup → pre.length ≤ vals.length →
      tableGet ((pre.zip vals).foldl (fun t p => tableSet t p.1 p.2) t)
          (pre.get ⟨j, hj⟩) = vals.get? j := by
  intro pre
  induction pre with
  | nil => intro vals t j hj; simp at hj
  | cons b pre ih =>
    intro vals t j hj hnd hlen
    cases vals with
    | nil => simp at hlen
    | cons v vs =>
      simp only [List.zip_cons_cons, List.foldl]
      rcases j with _ | k
      · simp only [List.get]
        rw [tableGet_fold_set_of_not_mem]
        · rw [tableGet_tableSet_self]; rfl
        · have hmem : b ∉ List.map Prod.fst (pre.zip vs) := by
            rw [List.map_fst_zip pre vs (by simpa using hlen)]
            exact (List.nodup_cons.mp hnd).1
          exact hmem
      · simpa using ih vs (tableSet t b v) k (by simpa using hj)
          (List.nodup_cons.mp hnd).2 (by simpa using hlen)

theorem envFind_of_lookup (st : St) (env : Nat) (fr : Environment) (n : String)
    (v : ExpressionT) (hf : lookupFrame st.envs env = some fr)
    (hg : tableGet fr.data n = some v) : envFind st env n = some v := by
  have hne : st.envs ≠ [] := by
    intro h; rw [h] at hf; simp [lookupFrame] at hf
  obtain ⟨p, rest, hl⟩ := List.exists_cons_of_ne_nil hne
  rw [envFind]
  rw [show st.envs.length = rest.length + 1 by rw [hl]; rfl]
  simp [envFindGo, hf, hg]

theorem evalSeq_length :
    ∀ (f s : Nat) (es : List ExpressionT) (env : Nat) (st : St)
      (vals : List ExpressionT) (st' : St),
      evalSeq f s es env st = .ok vals st' → vals.length = es.length := by
  intro f
  induction f with
  | zero => intro s es env st vals st' h; cases h
  | succ f ih =>
    intro s es env st vals st' h
    cases es with
    | nil => cases h; rfl
    | cons e rest =>
      simp only [evalSeq] at h
      cases hev : eval_ast f s e env st with
      | ok v st₁ =>
        rw [hev] at h
        dsimp only at h
        cases hr : evalSeq f s rest env st₁ with
        | ok vs st₂ =>
          rw [hr] at h
          cases h
          simpa using ih s rest env st₁ _ _ hr
        | err e' st'' => rw [hr] at h; cases h
        | timeout => rw [hr] at h; cases h
      | err e' st'' => rw [hev] at h; cases h
      | timeout => rw [hev] at h; cases h

/-- C1, counterexample.  A Closure with parameters `(a & rest)` has the
marker at position 1; the claim promises success on any call with at
least one argument, but applying it to the single argument `1` raises the
arity error (the evaluator requires the argument count to equal the full
parameter count, `&` and rest symbol included). -/
theorem c1_counterexample :
    eval_ast 5 5
      (.List [.FunctionDefinition ["a", "&", "rest"] (.Symbol "a") 0 0, .Number 1])
      0 defaultSt = .err (.mal .badNumberOfArguments) defaultSt := rfl

/-- C1, amended: applying a Closure whose parameters are
`pre ++ & :: r :: post` raises the arity error whenever the argument
count differs from the full parameter count; when it is equal, the call
proceeds to evaluate the body in a fresh child of the captured env in
which the `pre` parameters are bound pairwise to the first arguments and
`r` is bound to a List of the arguments from position `|pre|` onward. -/
theorem c1_variadic_binding :
    (∀ (f s : Nat) (st : St) (env : Nat) (ps : List String) (body : ExpressionT)
        (cenv cid : Nat) (argEs : List ExpressionT),
        ps.length ≠ argEs.length →
        eval_ast (f + 2) (s + 2)
            (.List (.FunctionDefinition ps body cenv cid :: argEs)) env st =
          .err (.mal .badNumberOfArguments) st) ∧
    (∀ (f s : Nat) (st st₂ : St) (env : Nat) (pre post : List String) (r : String)
        (body : ExpressionT) (cenv cid : Nat) (argEs vals : List ExpressionT),
        "&" ∉ pre → (pre ++ [r]).Nodup →
        evalSeq (f + 1) (s + 1) argEs env st = .ok vals st₂ →
        vals.length = pre.length + 2 + post.length →
        argEs.length = (pre ++ "&" :: r :: post).length →
        ∃ st₃,
          eval_ast (f + 2) (s + 2)
              (.List (.FunctionDefinition (pre ++ "&" :: r :: post) body cenv cid ::
                argEs)) env st =
            eval_ast (f + 1) (s + 2) body st₂.nextEnv st₃ ∧
          envFind st₃ st₂.nextEnv r = some (.List (vals.drop pre.length)) ∧
          ∀ (j : Nat) (hj : j < pre.length),
            envFind st₃ st₂.nextEnv (pre.get ⟨j, hj⟩) = vals.get? j) := by
  constructor
  · intro f s st env ps body cenv cid argEs hne
    simp [eval_ast, hne]
  · intro f s st st₂ env pre post r body cenv cid argEs vals hamp hnd hargs hvlen halen
    have hplen : pre.length ≤ vals.length := by omega
    have hndpre : pre.Nodup := (List.nodup_append.mp hnd).1
    have hrpre : r ∉ pre := by
      have hd := (List.nodup_append.mp hnd).2.2
      intro hm
      exact hd hm (by simp)
    have hfr0 : lookupFrame
        ({ st₂ with
            envs := (st₂.nextEnv, { data := [], outer := some cenv }) :: st₂.envs
            nextEnv := st₂.nextEnv + 1 } : St).envs st₂.nextEnv =
        some { data := [], outer := some cenv } := by
      simp [lookupFrame]
    have hbind := bindLoop_variadic pre vals
      { st₂ with
          envs := (st₂.nextEnv, { data := [], outer := some cenv }) :: st₂.envs
          nextEnv := st₂.nextEnv + 1 }
      st₂.nextEnv r post hamp hplen
    have hfr1 := bindPairs_lookup (pre.zip vals) _ st₂.nextEnv _ hfr0
    have hfr2 := envSet_lookup _ st₂.nextEnv r (.List (vals.drop pre.length)) _ hfr1
    refine ⟨envSet
        (bindPairs
          { st₂ with
              envs := (st₂.nextEnv, { data := [], outer := some cenv }) :: st₂.envs
              nextEnv := st₂.nextEnv + 1 }
          st₂.nextEnv (pre.zip vals))
        st₂.nextEnv r (.List (vals.drop pre.length)), ?_, ?_, ?_⟩
    · have hlen_eq : (pre ++ "&" :: r :: post).length = argEs.length := halen.symm
      simp only [eval_ast]
      rw [if_neg (not_not_intro hlen_eq), hargs]
      simp only [mkBoundEnv, allocEnv]
      rw [hbind]
    · exact envFind_of_lookup _ _ _ _ _ hfr2 (tableGet_tableSet_self _ _ _)
    · intro j hj
      have hlt : j < vals.length := by omega
      have hw := List.get?_eq_get hlt
      rw [hw]
      refine envFind_of_lookup _ _ _ _ _ hfr2 ?_
      dsimp only
      rw [tableGet_tableSet_ne _ _ _ _
        (fun hh : pre.get ⟨j, hj⟩ = r => hrpre (hh ▸ List.get_mem pre j hj))]
      have hz := tableGet_fold_zip pre vals [] j hj hndpre hplen
      rw [hz]
      exact hw

theorem c1_witness :
    ∃ st₃,
      eval_ast 6 3
          (.List [.FunctionDefinition ["a", "&", "rest"] (.Symbol "a") 0 0,
            .Number 1, .Number 2, .Number 3]) 0 defaultSt =
        eval_ast 5 3 (.Symbol "a") defaultSt.nextEnv st₃ ∧
      envFind st₃ defaultSt.nextEnv "rest" = some (.List [.Number 2, .Number 3]) ∧
      ∀ (j : Nat) (hj : j < (["a"] : List String).length),
        envFind st₃ defaultSt.nextEnv ((["a"] : List String).get ⟨j, hj⟩) =
          ([ExpressionT.Number 1, .Number 2, .Number 3] : List ExpressionT).get? j :=
  c1_variadic_binding.2 4 1 defaultSt defaultSt 0 ["a"] [] "rest" (.Symbol "a") 0 0
    [.Number 1, .Number 2, .Number 3] [.Number 1, .Number 2, .Number 3]
    (by simp) (by simp) rfl rfl rfl

/-! ### The C8 program: `(def! f (fn* (n) (if (<= n 0) :done (f (- n 1)))))`
followed by `(f N)`.  The evaluator trampolines the `if` branch and the
closure application, so one recursion (`f N` to `f (N-1)`) costs loop
iterations (`fuel`) but leaves the host-stack budget (`stack`) untouched:
all the lemmas below run at the constant stack budget 10 while `N` is
arbitrary. -/

def c8Cond : ExpressionT := .List [.Symbol "<=", .Symbol "n", .Number 0]

def c8SubE : ExpressionT := .List [.Symbol "-", .Symbol "n", .Number 1]

def c8Call : ExpressionT := .List [.Symbol "f", c8SubE]

def c8FnBody : ExpressionT := .List [.Symbol "if", c8Cond, .Keyword "done", c8Call]

def c8Def : ExpressionT :=
  .List [.Symbol "def!", .Symbol "f",
    .List [.Symbol "fn*", .List [.Symbol "n"], c8FnBody]]

def c8Closure : ExpressionT := .FunctionDefinition ["n"] c8FnBody 0 0

/-- The top-level table after the `def!`. -/
def c8TopTable : List (String × ExpressionT) :=
  tableSet (tableSet get_namespace "*ARGV*" (.List [])) "f" c8Closure

/-- The store after evaluating the `def!` in `defaultSt`. -/
def c8St1 : St :=
  { envs := [(0, { data := c8TopTable, outer := none })]
    nextEnv := 1
    atoms := []
    nextClosure := 1
    out := [] }

/-- Loop invariant: the current env holds only `n ↦ k` and chains
directly to the top env, which holds the post-`def!` table. -/
def C8Inv (st : St) (c : Nat) (k : Int) : Prop :=
  lookupFrame st.envs c = some { data := [("n", .Number k)], outer := some 0 } ∧
  lookupFrame st.envs 0 = some { data := c8TopTable, outer := none } ∧
  c ≠ 0 ∧ 1 ≤ st.nextEnv ∧ 2 ≤ st.envs.length

theorem c8_find_n (st : St) (c : Nat) (k : Int) (inv : C8Inv st c k) :
    envFind st c "n" = some (.Number k) := by
  obtain ⟨m, hm⟩ : ∃ m, st.envs.length = m + 2 :=
    ⟨st.envs.length - 2, by have := inv.2.2.2.2; omega⟩
  rw [envFind, hm]
  simp [envFindGo, inv.1, tableGet]

theorem c8_find_out (st : St) (c : Nat) (k : Int) (inv : C8Inv st c k)
    (name : String) (hn : ¬("n" = name)) :
    envFind st c name = tableGet c8TopTable name := by
  obtain ⟨m, hm⟩ : ∃ m, st.envs.length = m + 2 :=
    ⟨st.envs.length - 2, by have := inv.2.2.2.2; omega⟩
  rw [envFind, hm]
  have h1 : tableGet [("n", ExpressionT.Number k)] name = none := by
    simp [tableGet, hn]
  simp only [envFindGo, inv.1, inv.2.1, h1]
  rcases hg : tableGet c8TopTable name with _ | v <;> simp [hg]

theorem c8_find_leq (st : St) (c : Nat) (k : Int) (inv : C8Inv st c k) :
    envFind st c "<=" = some (.Function .leq) := by
  rw [c8_find_out st c k inv "<=" (by decide)]; rfl

theorem c8_find_sub (st : St) (c : Nat) (k : Int) (inv : C8Inv st c k) :
    envFind st c "-" = some (.Function .sub) := by
  rw [c8_find_out st c k inv "-" (by decide)]; rfl

theorem c8_find_f (st : St) (c : Nat) (k : Int) (inv : C8Inv st c k) :
    envFind st c "f" = some c8Closure := by
  rw [c8_find_out st c k inv "f" (by decide)]; rfl

theorem c8_cond_eval (g : Nat) (st : St) (c : Nat) (k : Int) (inv : C8Inv st c k) :
    eval_ast (g + 6) 9 c8Cond c st =
      .ok (bool_to_mal_bool (decide (k ≤ 0))) st := by
  simp [c8Cond, eval_ast, evalSeq, applyPrim, cmpPrim, envGet,
    c8_find_leq st c k inv, c8_find_n st c k inv, assert_number]

theorem c8_sub_eval (g : Nat) (st : St) (c : Nat) (k : Int) (inv : C8Inv st c k) :
    eval_ast (g + 4) 9 c8SubE c st = .ok (.Number (k - 1)) st := by
  simp [c8SubE, eval_ast, evalSeq, applyPrim, numBin, envGet,
    c8_find_sub st c k inv, c8_find_n st c k inv, assert_number]

/-- Unfolding the 4-element `if` form one loop iteration: the condition
is a nested call (stack `s`), the chosen branch a `continue` (stack back
to `s + 1`). -/
theorem c8_if_step (f s : Nat) (st st' : St) (c : Nat) (v : ExpressionT)
    (h : eval_ast f s c8Cond c st = .ok v st') :
    eval_ast (f + 1) (s + 1) c8FnBody c st =
      if truthy v then eval_ast f (s + 1) (.Keyword "done") c st'
      else eval_ast f (s + 1) c8Call c st' := by
  simp [c8FnBody, eval_ast, h]

/-- Unfolding an application of `f` to one argument: head and argument
are nested calls, then the body is trampolined into a fresh child of the
closure's env with `n` bound to the argument's value. -/
theorem c8_apply_step (f s : Nat) (st st₁ st₂ : St) (c : Nat) (argE v : ExpressionT)
    (hf : eval_ast f s (.Symbol "f") c st =
      .ok (.FunctionDefinition ["n"] c8FnBody 0 0) st₁)
    (hargs : evalSeq f s [argE] c st₁ = .ok [v] st₂) :
    eval_ast (f + 1) (s + 1) (.List [.Symbol "f", argE]) c st =
      eval_ast f (s + 1) c8FnBody st₂.nextEnv
        (envSet { st₂ with
                    envs := (st₂.nextEnv, { data := [], outer := some 0 }) :: st₂.envs
                    nextEnv := st₂.nextEnv + 1 }
          st₂.nextEnv "n" v) := by
  simp [eval_ast, hf, hargs, mkBoundEnv, allocEnv, bindLoop]

/-- The store after one trampolined call of `f`: a fresh frame holding
only `n ↦ k - 1`, chained to the top env. -/
def c8NextSt (st : St) (k : Int) : St :=
  envSet { st with
             envs := (st.nextEnv, { data := [], outer := some 0 }) :: st.envs
             nextEnv := st.nextEnv + 1 }
    st.nextEnv "n" (.Number (k - 1))

theorem c8NextSt_eq (st : St) (k : Int) :
    c8NextSt st k =
      { st with
          envs := (st.nextEnv,
            { data := [("n", ExpressionT.Number (k - 1))], outer := some 0 }) :: st.envs
          nextEnv := st.nextEnv + 1 } := by
  simp [c8NextSt, envSet, lookupFrame, setFrame, tableSet]

theorem c8Inv_next (st : St) (c : Nat) (k : Int) (inv : C8Inv st c k) :
    C8Inv (c8NextSt st k) st.nextEnv (k - 1) := by
  have hE : ¬ (st.nextEnv = 0) := by have := inv.2.2.2.1; omega
  rw [c8NextSt_eq]
  unfold C8Inv
  refine ⟨by simp [lookupFrame], ?_, hE, ?_, ?_⟩
  · simpa [lookupFrame, hE] using inv.2.1
  · dsimp only
    omega
  · dsimp only
    have := inv.2.2.2.2
    simp only [List.length_cons]
    omega

/-- One full loop iteration at positive `n`: exactly two units of fuel,
the stack budget untouched. -/
theorem c8_step (g : Nat) (st : St) (c : Nat) (k : Int) (inv : C8Inv st c k)
    (hk : ¬ k ≤ 0) :
    eval_ast (g + 7) 10 c8FnBody c st =
      eval_ast (g + 5) 10 c8FnBody st.nextEnv (c8NextSt st k) := by
  have hcond : eval_ast (g + 6) 9 c8Cond c st = .ok .FalseV st := by
    have h := c8_cond_eval g st c k inv
    rw [decide_eq_false hk] at h
    simpa [bool_to_mal_bool] using h
  have hstep := c8_if_step (g + 6) 9 st st c .FalseV hcond
  rw [show g + 7 = (g + 6) + 1 from by ring, show (10 : Nat) = 9 + 1 from rfl, hstep]
  simp only [truthy, Bool.false_eq_true, if_false]
  have hf : eval_ast (g + 5) 9 (.Symbol "f") c st =
      .ok (.FunctionDefinition ["n"] c8FnBody 0 0) st := by
    have h := c8_find_f st c k inv
    rw [c8Closure] at h
    simp [eval_ast, envGet, h]
  have hargs : evalSeq (g + 5) 9 [c8SubE] c st = .ok [.Number (k - 1)] st := by
    simp [evalSeq, c8_sub_eval g st c k inv]
  have hcall := c8_apply_step (g + 5) 9 st st st c c8SubE (.Number (k - 1)) hf hargs
  rw [show g + 6 = (g + 5) + 1 from by ring, show c8Call = .List [.Symbol "f", c8SubE] from rfl,
    hcall]
  rfl

/-- The loop: `2 * n + 8` iterations of fuel reach `:done` from `n`, at
the constant stack budget 10. -/
theorem c8_loop : ∀ (kN : Nat) (st : St) (c : Nat), C8Inv st c (Int.ofNat kN) →
    ∃ st' : St, eval_ast (2 * kN + 8) 10 c8FnBody c st = .ok (.Keyword "done") st' := by
  intro kN
  induction kN with
  | zero =>
    intro st c inv
    refine ⟨st, ?_⟩
    have h := c8_cond_eval 1 st c (Int.ofNat 0) inv
    rw [show decide ((Int.ofNat 0 : Int) ≤ 0) = true from by decide] at h
    norm_num [bool_to_mal_bool] at h
    have hstep := c8_if_step 7 9 st st c .TrueV h
    norm_num [truthy] at hstep
    rw [show 2 * 0 + 8 = 8 from by norm_num, hstep]
    simp [eval_ast]
  | succ kI ih =>
    intro st c inv
    have hk : ¬ ((Int.ofNat (kI + 1) : Int) ≤ 0) := by
      rw [Int.ofNat_eq_natCast]; omega
    have hstep := c8_step (2 * kI + 3) st c (Int.ofNat (kI + 1)) inv hk
    have hinv := c8Inv_next st c (Int.ofNat (kI + 1)) inv
    rw [show (Int.ofNat (kI + 1) : Int) - 1 = Int.ofNat kI from by
      rw [Int.ofNat_eq_natCast, Int.ofNat_eq_natCast]; omega] at hinv
    obtain ⟨st', hst'⟩ := ih (c8NextSt st (Int.ofNat (kI + 1))) st.nextEnv hinv
    refine ⟨st', ?_⟩
    rw [show 2 * (kI + 1) + 8 = (2 * kI + 3) + 7 from by ring, hstep,
      show (2 * kI + 3) + 5 = 2 * kI + 8 from by ring]
    exact hst'

/-- Evaluating the `def!` form in the top-level store: the closure value
is created (bumping the closure counter) and bound under `f`. -/
theorem c8_def_eval : eval_ast 5 10 c8Def 0 defaultSt = .ok c8Closure c8St1 := rfl

theorem c8St1_find_f : envFind c8St1 0 "f" = some c8Closure := rfl

/-- The store on entry to the first body evaluation of `(f n)`. -/
def c8CallSt (n : Nat) : St :=
  envSet { c8St1 with
             envs := (c8St1.nextEnv, { data := [], outer := some 0 }) :: c8St1.envs
             nextEnv := c8St1.nextEnv + 1 }
    c8St1.nextEnv "n" (.Number (Int.ofNat n))

theorem c8CallSt_inv (n : Nat) : C8Inv (c8CallSt n) c8St1.nextEnv (Int.ofNat n) := by
  unfold C8Inv c8CallSt
  refine ⟨?_, ?_, ?_, ?_, ?_⟩ <;>
    simp [envSet, lookupFrame, setFrame, tableSet, c8St1]

/-- The initial application `(f n)`: one fuel unit for the list node,
two for head and argument, then the body at the same stack budget. -/
theorem c8_initial_call (g n : Nat) :
    eval_ast (g + 3) 10 (.List [.Symbol "f", .Number (Int.ofNat n)]) 0 c8St1 =
      eval_ast (g + 2) 10 c8FnBody c8St1.nextEnv (c8CallSt n) := by
  have hf : eval_ast (g + 2) 9 (.Symbol "f") 0 c8St1 =
      .ok (.FunctionDefinition ["n"] c8FnBody 0 0) c8St1 := by
    have h := c8St1_find_f
    rw [c8Closure] at h
    simp [eval_ast, envGet, h]
  have hargs : evalSeq (g + 2) 9 [.Number (Int.ofNat n)] 0 c8St1 =
      .ok [.Number (Int.ofNat n)] c8St1 := by
    simp [evalSeq, eval_ast]
  have hcall := c8_apply_step (g + 2) 9 c8St1 c8St1 c8St1 0 (.Number (Int.ofNat n))
    (.Number (Int.ofNat n)) hf hargs
  rw [show g + 3 = (g + 2) + 1 from by ring, show (10 : Nat) = 9 + 1 from rfl, hcall]
  rfl

/-- C8: evaluating `(def! f (fn* (n) (if (<= n 0) :done (f (- n 1)))))`
in the top-level store binds the closure under `f`; then for every `n` —
`n = 100000` included — the call `(f n)` returns the Keyword `done`
within `2 * n + 9` iterations of the evaluator's `while True:` loop at
the constant host-stack budget 10: the self-recursive tail call is
executed by the loop's `continue` (rewriting the `(ast, env)` pair), so
the host stack does not grow with `n`. -/
theorem c8_tco :
    eval_ast 5 10 c8Def 0 defaultSt = .ok c8Closure c8St1 ∧
    (∀ n : Nat, ∃ st' : St,
      eval_ast (2 * n + 9) 10 (.List [.Symbol "f", .Number (Int.ofNat n)]) 0 c8St1 =
        .ok (.Keyword "done") st') ∧
    (∃ st' : St,
      eval_ast (2 * 100000 + 9) 10 (.List [.Symbol "f", .Number 100000]) 0 c8St1 =
        .ok (.Keyword "done") st') := by
  have hmain : ∀ n : Nat, ∃ st' : St,
      eval_ast (2 * n + 9) 10 (.List [.Symbol "f", .Number (Int.ofNat n)]) 0 c8St1 =
        .ok (.Keyword "done") st' := by
    intro n
    obtain ⟨st', hst'⟩ := c8_loop n (c8CallSt n) c8St1.nextEnv (c8CallSt_inv n)
    refine ⟨st', ?_⟩
    rw [show 2 * n + 9 = (2 * n + 6) + 3 from by ring, c8_initial_call (2 * n + 6) n,
      show (2 * n + 6) + 2 = 2 * n + 8 from by ring]
    exact hst'
  exact ⟨c8_def_eval, hmain, hmain 100000⟩

/-! ### C7: the reader's range and the print/parse round trip

`Producible` characterizes the expressions the reader returns: every
`parse_str` success is `Producible` (proved below), and every
`Producible` value round-trips through the readable-mode printer.  The
two string-side predicates record what it takes for a printed `Symbol`
or `Keyword` to lex back as one `SYMBOL`/`KEYWORD` token — exactly the
shapes the lexer's own `SYMBOL`/`KEYWORD` arms emit, since every
higher-priority terminal matches first. -/

/-- Characters that may legally follow a printed token without extending
it: the separator the printer emits and the three closers.  (`[]` stands
for the end of the input.) -/
def safeChar (c : Char) : Bool := c = ' ' || c = ')' || c = ']' || c = '}'

def safeHead : List Char → Bool
  | [] => true
  | c :: _ => safeChar c

/-- The texts the lexer's `SYMBOL` arm can emit as one token: nonempty
runs of symbol characters that no higher-priority terminal claims first —
not a prefix-macro character, not a number, not a `KEYWORD` shape, and
not carrying a `true`/`false`/`nil` literal prefix. -/
def symbolProducible (cs : List Char) : Bool :=
  match cs with
  | [] => false
  | c :: rest =>
    (c :: rest).all symChar &&
    !(c = '~') && !(c = '^') && !(c = '@') && !c.isDigit &&
    !(c = '-' && headDigit19 rest) &&
    !(c = ':' && headSymChar rest) &&
    !(decide ((c :: rest).take 4 = ['t', 'r', 'u', 'e'])) &&
    !(decide ((c :: rest).take 5 = ['f', 'a', 'l', 's', 'e'])) &&
    !(decide ((c :: rest).take 3 = ['n', 'i', 'l']))

/-- The names the lexer's `KEYWORD` arm emits (the part after `:`). -/
def keywordProducible (cs : List Char) : Bool :=
  !cs.isEmpty && cs.all symChar

/-- `hash_map_item` keys are syntactically `STRING` or `KEYWORD`. -/
def isHashKey : ExpressionT → Bool
  | .String _ => true
  | .Keyword _ => true
  | _ => false

/-- The expressions the reader can return. -/
inductive Producible : ExpressionT → Prop where
  | nil : Producible .Nil
  | trueV : Producible .TrueV
  | falseV : Producible .FalseV
  | num (n : Int) : Producible (.Number n)
  | str (s : String) : Producible (.String s)
  | sym (s : String) (h : symbolProducible s.data = true) : Producible (.Symbol s)
  | kw (s : String) (h : keywordProducible s.data = true) : Producible (.Keyword s)
  | list (xs : List ExpressionT) (h : ∀ x ∈ xs, Producible x) : Producible (.List xs)
  | vec (xs : List ExpressionT) (h : ∀ x ∈ xs, Producible x) : Producible (.Vector xs)
  | hmap (ps : List (ExpressionT × ExpressionT))
      (hk : ∀ p ∈ ps, Producible p.1)
      (hs : ∀ p ∈ ps, isHashKey p.1 = true)
      (hv : ∀ p ∈ ps, Producible p.2)
      (hd : List.Pairwise (fun p q => keyEq p.1 q.1 = false) ps) :
      Producible (.HashMap ps)

mutual

/-- The characters `prettyGo st true b` returns on the atom-free
fragment (callables and atoms fall outside `Producible`). -/
def ppChars : ExpressionT → List Char
  | .Symbol s => s.data
  | .Keyword k => ':' :: k.data
  | .Number n => intReprChars n
  | .TrueV => ['t', 'r', 'u', 'e']
  | .FalseV => ['f', 'a', 'l', 's', 'e']
  | .Nil => ['n', 'i', 'l']
  | .String s => '"' :: escapeString s.data ++ ['"']
  | .List xs => '(' :: joinSpace (ppList xs) ++ [')']
  | .Vector xs => '[' :: joinSpace (ppList xs) ++ [']']
  | .HashMap ps => '{' :: joinSpace (ppPairs ps) ++ ['}']
  | .Function _ => []
  | .FunctionDefinition .. => []
  | .Atom _ => []

def ppList : List ExpressionT → List (List Char)
  | [] => []
  | x :: rest => ppChars x :: ppList rest

def ppPairs : List (ExpressionT × ExpressionT) → List (List Char)
  | [] => []
  | (k, v) :: rest => (ppChars k ++ ' ' :: ppChars v) :: ppPairs rest

end

mutual

/-- The token stream the printed form of a producible value lexes to. -/
def toksOf : ExpressionT → List Tok
  | .Symbol s => [.symTok s]
  | .Keyword k => [.kwTok k]
  | .Number n => [.numTok n]
  | .TrueV => [.trueTok]
  | .FalseV => [.falseTok]
  | .Nil => [.nilTok]
  | .String s => [.strTok (escapeString s.data)]
  | .List xs => .lparen :: toksList xs ++ [.rparen]
  | .Vector xs => .lbracket :: toksList xs ++ [.rbracket]
  | .HashMap ps => .lbrace :: toksPairs ps ++ [.rbrace]
  | .Function _ => []
  | .FunctionDefinition .. => []
  | .Atom _ => []

def toksList : List ExpressionT → List Tok
  | [] => []
  | x :: rest => toksOf x ++ toksList rest

def toksPairs : List (ExpressionT × ExpressionT) → List Tok
  | [] => []
  | (k, v) :: rest => toksOf k ++ toksOf v ++ toksPairs rest

end

/-! #### List and character utilities for the round trip -/

theorem takeWhile_append_all (p : Char → Bool) (l1 l2 : List Char) (h : l1.all p = true) :
    (l1 ++ l2).takeWhile p = l1 ++ l2.takeWhile p := by
  induction l1 with
  | nil => simp
  | cons c cs ih =>
    simp only [List.all_cons, Bool.and_eq_true] at h
    simp [List.takeWhile_cons, h.1, ih h.2]

theorem dropWhile_append_all (p : Char → Bool) (l1 l2 : List Char) (h : l1.all p = true) :
    (l1 ++ l2).dropWhile p = l2.dropWhile p := by
  induction l1 with
  | nil => simp
  | cons c cs ih =>
    simp only [List.all_cons, Bool.and_eq_true] at h
    simp [List.dropWhile_cons, h.1, ih h.2]

theorem takeWhile_safe (p : Char → Bool) (l : List Char) (h : safeHead l = true)
    (hp : p ' ' = false ∧ p ')' = false ∧ p ']' = false ∧ p '}' = false) :
    l.takeWhile p = [] := by
  cases l with
  | nil => rfl
  | cons c rest =>
    simp only [safeHead, safeChar, Bool.or_eq_true, decide_eq_true_eq] at h
    rcases h with ((h | h) | h) | h <;> subst h <;>
      simp [List.takeWhile_cons, hp.1, hp.2.1, hp.2.2.1, hp.2.2.2]

theorem dropWhile_safe (p : Char → Bool) (l : List Char) (h : safeHead l = true)
    (hp : p ' ' = false ∧ p ')' = false ∧ p ']' = false ∧ p '}' = false) :
    l.dropWhile p = l := by
  cases l with
  | nil => rfl
  | cons c rest =>
    simp only [safeHead, safeChar, Bool.or_eq_true, decide_eq_true_eq] at h
    rcases h with ((h | h) | h) | h <;> subst h <;>
      simp [List.dropWhile_cons, hp.1, hp.2.1, hp.2.2.1, hp.2.2.2]

theorem headDigit19_safe (l : List Char) (h : safeHead l = true) : headDigit19 l = false := by
  cases l with
  | nil => rfl
  | cons c rest =>
    simp only [safeHead, safeChar, Bool.or_eq_true, decide_eq_true_eq] at h
    rcases h with ((h | h) | h) | h <;> subst h <;> rfl

theorem headSymChar_safe (l : List Char) (h : safeHead l = true) : headSymChar l = false := by
  cases l with
  | nil => rfl
  | cons c rest =>
    simp only [safeHead, safeChar, Bool.or_eq_true, decide_eq_true_eq] at h
    rcases h with ((h | h) | h) | h <;> subst h <;> rfl

theorem takeWhile_take_full (p : Char → Bool) (l : List Char) (k : Nat)
    (h : k ≤ (l.takeWhile p).length) : l.take k = (l.takeWhile p).take k := by
  induction l generalizing k with
  | nil => simp
  | cons c rest ih =>
    by_cases hc : p c = true
    · rw [List.takeWhile_cons, if_pos hc] at h ⊢
      cases k with
      | zero => simp
      | succ k' =>
        simp only [List.take_succ_cons]
        rw [ih k' (by simpa using h)]
    · rw [List.takeWhile_cons, if_neg hc] at h
      simp only [List.length_nil, Nat.le_zero] at h
      subst h
      simp

theorem take_append_safe (tail rest out : List Char) (hsafe : safeHead rest = true)
    (hout : ∀ c ∈ out, safeChar c = false)
    (h : (tail ++ rest).take out.length = out) : tail.take out.length = out := by
  induction out generalizing tail with
  | nil => simp
  | cons o out' ih =>
    cases tail with
    | nil =>
      simp only [List.nil_append, List.length_cons] at h ⊢
      cases rest with
      | nil => simp at h
      | cons r rs =>
        rw [List.take_succ_cons] at h
        have h1 : r = o := (List.cons.injEq _ _ _ _ ▸ h).1
        simp only [safeHead] at hsafe
        rw [h1] at hsafe
        rw [hout o (by simp)] at hsafe
        cases hsafe
    | cons tc tail' =>
      simp only [List.cons_append, List.length_cons, List.take_succ_cons] at h ⊢
      have h1 : tc = o := (List.cons.injEq _ _ _ _ ▸ h).1
      have h2 : (tail' ++ rest).take out'.length = out' := (List.cons.injEq _ _ _ _ ▸ h).2
      rw [h1, ih tail' (fun c hc => hout c (by simp [hc])) h2]

/-! #### Decimal rendering round trip -/

theorem digitChar_toNat (d : Nat) (h : d < 10) : (digitChar d).toNat = 48 + d := by
  interval_cases d <;> decide

theorem digitChar_isDigit (d : Nat) (h : d < 10) : (digitChar d).isDigit = true := by
  interval_cases d <;> decide

theorem natReprChars_all_digit (n : Nat) : (natReprChars n).all Char.isDigit = true := by
  induction n using Nat.strong_induction_on with
  | _ n ih =>
    rw [natReprChars]
    split
    · simp [digitChar_isDigit n (by omega)]
    · rename_i h
      simp only [List.all_append, Bool.and_eq_true]
      exact ⟨ih (n / 10) (Nat.div_lt_self (by omega) (by omega)),
        by simp [digitChar_isDigit (n % 10) (Nat.mod_lt n (by omega))]⟩

theorem natReprChars_head19 (n : Nat) (h : 1 ≤ n) :
    ∃ d ds, natReprChars n = d :: ds ∧ d.isDigit = true ∧ ¬(d = '0') := by
  induction n using Nat.strong_induction_on with
  | _ n ih =>
    rw [natReprChars]
    split
    · rename_i hlt
      refine ⟨digitChar n, [], rfl, digitChar_isDigit n hlt, ?_⟩
      interval_cases n <;> decide
    · rename_i hge
      obtain ⟨d, ds, hd, h1, h2⟩ :=
        ih (n / 10) (Nat.div_lt_self (by omega) (by omega))
          (by omega)
      exact ⟨d, ds ++ [digitChar (n % 10)], by rw [hd]; rfl, h1, h2⟩

def digitChars : List Char := ['0', '1', '2', '3', '4', '5', '6', '7', '8', '9']

theorem digitChar_mem (d : Nat) (h : d < 10) : digitChar d ∈ digitChars := by
  interval_cases d <;> decide

theorem natReprChars_mem (n : Nat) : ∀ c ∈ natReprChars n, c ∈ digitChars := by
  induction n using Nat.strong_induction_on with
  | _ n ih =>
    rw [natReprChars]
    split
    · rename_i h
      intro c hc
      simp only [List.mem_singleton] at hc
      subst hc
      exact digitChar_mem n (by omega)
    · rename_i h
      intro c hc
      rcases List.mem_append.mp hc with h1 | h1
      · exact ih (n / 10) (Nat.div_lt_self (by omega) (by omega)) c h1
      · simp only [List.mem_singleton] at h1
        subst h1
        exact digitChar_mem (n % 10) (Nat.mod_lt n (by omega))

theorem digitsVal_append (l : List Char) (c : Char) :
    digitsVal (l ++ [c]) = digitsVal l * 10 + (c.toNat - 48) := by
  simp [digitsVal, List.foldl_append]

theorem digitsVal_natReprChars (n : Nat) : digitsVal (natReprChars n) = n := by
  induction n using Nat.strong_induction_on with
  | _ n ih =>
    rw [natReprChars]
    split
    · rename_i hlt
      simp [digitsVal, digitChar_toNat n hlt]
    · rename_i hge
      rw [digitsVal_append, ih (n / 10) (Nat.div_lt_self (by omega) (by omega)),
        digitChar_toNat (n % 10) (Nat.mod_lt n (by omega))]
      omega

/-! #### `Except` plumbing -/

theorem map_cons_ok (t : Tok) (r : Except String (List Tok)) (toks : List Tok)
    (h : (t :: ·) <$> r = .ok toks) : ∃ ts, r = .ok ts ∧ toks = t :: ts := by
  cases r with
  | ok ts =>
    simp only [Except.map_ok, Except.ok.injEq] at h
    exact ⟨ts, rfl, h.symm⟩
  | error e => simp [Except.map] at h

/-! #### String escaping round trip -/

/-- What the three `replace` passes do to one character. -/
def escUnit (c : Char) : List Char :=
  if c = '\\' then ['\\', '\\']
  else if c = '\n' then ['\\', 'n']
  else if c = '"' then ['\\', '"']
  else [c]

theorem escapeString_cons (c : Char) (rest : List Char) :
    escapeString (c :: rest) = escUnit c ++ escapeString rest := by
  by_cases h1 : c = '\\'
  · subst h1; simp [escapeString, replaceChar, escUnit]
  · by_cases h2 : c = '\n'
    · subst h2; simp [escapeString, replaceChar, escUnit]
    · by_cases h3 : c = '"'
      · subst h3; simp [escapeString, replaceChar, escUnit]
      · simp [escapeString, replaceChar, escUnit, h1, h2, h3]

theorem unescape_escape (cs : List Char) : unescapeChars (escapeString cs) = some cs := by
  induction cs with
  | nil => rfl
  | cons c rest ih =>
    rw [escapeString_cons]
    by_cases h1 : c = '\\'
    · subst h1; simp [escUnit, unescapeChars, ih]
    · by_cases h2 : c = '\n'
      · subst h2; simp [escUnit, unescapeChars, ih]
      · by_cases h3 : c = '"'
        · subst h3; simp [escUnit, unescapeChars, ih]
        · simp [escUnit, h1, h2, h3, unescapeChars, ih]

/-! #### Lexing each printed token shape -/

theorem tokenize_lparen (f : Nat) (rest : List Char) :
    tokenizeGo (f + 1) ('(' :: rest) = (Tok.lparen :: ·) <$> tokenizeGo f rest := by
  simp [tokenizeGo, tokStepA]

theorem tokenize_rparen (f : Nat) (rest : List Char) :
    tokenizeGo (f + 1) (')' :: rest) = (Tok.rparen :: ·) <$> tokenizeGo f rest := by
  simp [tokenizeGo, tokStepA, tokStepB]

theorem tokenize_lbracket (f : Nat) (rest : List Char) :
    tokenizeGo (f + 1) ('[' :: rest) = (Tok.lbracket :: ·) <$> tokenizeGo f rest := by
  simp [tokenizeGo, tokStepA, tokStepB]

theorem tokenize_rbracket (f : Nat) (rest : List Char) :
    tokenizeGo (f + 1) (']' :: rest) = (Tok.rbracket :: ·) <$> tokenizeGo f rest := by
  simp [tokenizeGo, tokStepA, tokStepB]

theorem tokenize_lbrace (f : Nat) (rest : List Char) :
    tokenizeGo (f + 1) ('{' :: rest) = (Tok.lbrace :: ·) <$> tokenizeGo f rest := by
  simp [tokenizeGo, tokStepA, tokStepB]

theorem tokenize_rbrace (f : Nat) (rest : List Char) :
    tokenizeGo (f + 1) ('}' :: rest) = (Tok.rbrace :: ·) <$> tokenizeGo f rest := by
  simp [tokenizeGo, tokStepA, tokStepB]

theorem tokenize_space (f : Nat) (rest : List Char) :
    tokenizeGo (f + 1) (' ' :: rest) = tokenizeGo f rest := by
  simp [tokenizeGo, tokStepA, tokStepB, tokStepC, isSpacePy]

theorem tokenize_true (f : Nat) (rest : List Char) :
    tokenizeGo (f + 1) (['t', 'r', 'u', 'e'] ++ rest) =
      (Tok.trueTok :: ·) <$> tokenizeGo f rest := by
  simp [tokenizeGo, tokStepA, tokStepB, tokStepC]

theorem tokenize_false (f : Nat) (rest : List Char) :
    tokenizeGo (f + 1) (['f', 'a', 'l', 's', 'e'] ++ rest) =
      (Tok.falseTok :: ·) <$> tokenizeGo f rest := by
  simp [tokenizeGo, tokStepA, tokStepB, tokStepC]

theorem tokenize_nil (f : Nat) (rest : List Char) :
    tokenizeGo (f + 1) (['n', 'i', 'l'] ++ rest) =
      (Tok.nilTok :: ·) <$> tokenizeGo f rest := by
  simp [tokenizeGo, tokStepA, tokStepB, tokStepC]

theorem scanString_escape (cs rest : List Char) :
    scanString (escapeString cs ++ '"' :: rest) = .closed (escapeString cs) rest := by
  induction cs with
  | nil =>
    simp only [escapeString, replaceChar, List.flatMap_nil, List.nil_append]
    rw [scanString.eq_def]
    simp
  | cons c cs' ih =>
    rw [escapeString_cons]
    by_cases h1 : c = '\\'
    · subst h1; simp [escUnit, scanString, ih]
    · by_cases h2 : c = '\n'
      · subst h2; simp [escUnit, scanString, ih]
      · by_cases h3 : c = '"'
        · subst h3; simp [escUnit, scanString, ih]
        · simp only [escUnit, h1, h2, h3, if_neg, List.cons_append, List.nil_append,
            if_false]
          rw [scanString.eq_def]
          simp only []
          rw [if_neg h3, if_neg h1, ih]

theorem tokenize_str (f : Nat) (s rest : List Char) :
    tokenizeGo (f + 1) (('"' :: escapeString s ++ ['"']) ++ rest) =
      (Tok.strTok (escapeString s) :: ·) <$> tokenizeGo f rest := by
  have hsc : scanString (escapeString s ++ '"' :: rest) = .closed (escapeString s) rest :=
    scanString_escape s rest
  simp [tokenizeGo, tokStepA, tokStepB, hsc, scanTok]

theorem tokenize_kw (f : Nat) (n0 : Char) (ntail rest : List Char)
    (hall : (n0 :: ntail).all symChar = true) (hr : safeHead rest = true) :
    tokenizeGo (f + 1) ((':' :: n0 :: ntail) ++ rest) =
      (Tok.kwTok (String.mk (n0 :: ntail)) :: ·) <$> tokenizeGo f rest := by
  simp only [List.all_cons, Bool.and_eq_true] at hall
  obtain ⟨hsym0, halltail⟩ := hall
  have htw : (ntail ++ rest).takeWhile symChar = ntail := by
    rw [takeWhile_append_all _ _ _ halltail, takeWhile_safe symChar rest hr (by decide),
      List.append_nil]
  have hdw : (ntail ++ rest).dropWhile symChar = rest := by
    rw [dropWhile_append_all _ _ _ halltail, dropWhile_safe symChar rest hr (by decide)]
  have hhead : headSymChar (n0 :: (ntail ++ rest)) = true := by
    simp [headSymChar, hsym0]
  simp [tokenizeGo, tokStepA, tokStepB, tokStepC, tokStepD, isSpacePy, hhead,
    List.takeWhile_cons, List.dropWhile_cons, hsym0, htw, hdw]

theorem tokenize_sym (f : Nat) (c : Char) (tail rest : List Char)
    (h : symbolProducible (c :: tail) = true) (hr : safeHead rest = true) :
    tokenizeGo (f + 1) ((c :: tail) ++ rest) =
      (Tok.symTok (String.mk (c :: tail)) :: ·) <$> tokenizeGo f rest := by
  simp only [symbolProducible, Bool.and_eq_true, Bool.not_eq_true',
    decide_eq_false_iff_not] at h
  obtain ⟨⟨⟨⟨⟨⟨⟨⟨⟨hall, h1⟩, h2⟩, h3⟩, h4⟩, h5⟩, h6⟩, h7⟩, h8⟩, h9⟩ := h
  simp only [List.all_cons, Bool.and_eq_true] at hall
  obtain ⟨hsym, halltail⟩ := hall
  have hne : ∀ d : Char, symChar d = false → ¬(c = d) := by
    intro d hd he
    rw [he] at hsym
    rw [hsym] at hd
    cases hd
  have h0 : ¬(c = '0') := by
    intro he
    rw [he] at h4
    exact absurd h4 (by decide)
  have hspace : (isSpacePy c || c = ',') = false := by
    cases hb : isSpacePy c with
    | true =>
      exfalso
      have hx : symChar c = false := by simp [symChar, hb]
      rw [hx] at hsym
      cases hsym
    | false =>
      simp only [Bool.false_or]
      exact decide_eq_false (hne ',' (by decide))
  have hd19 : headDigit19 (tail ++ rest) = headDigit19 tail := by
    cases tail with
    | nil =>
      simp only [List.nil_append]
      rw [headDigit19_safe rest hr]
      rfl
    | cons t ts => rfl
  have hsymhead : headSymChar (tail ++ rest) = headSymChar tail := by
    cases tail with
    | nil =>
      simp only [List.nil_append]
      rw [headSymChar_safe rest hr]
      rfl
    | cons t ts => rfl
  have hT : ¬(c = 't' ∧ (tail ++ rest).take 3 = ['r', 'u', 'e']) := by
    rintro ⟨hc, htk⟩
    have h3' : tail.take 3 = ['r', 'u', 'e'] := by
      have := take_append_safe tail rest ['r', 'u', 'e'] hr (by decide) (by simpa using htk)
      simpa using this
    exact h7 (by subst hc; simp [List.take_succ_cons, h3'])
  have hF : ¬(c = 'f' ∧ (tail ++ rest).take 4 = ['a', 'l', 's', 'e']) := by
    rintro ⟨hc, htk⟩
    have h4' : tail.take 4 = ['a', 'l', 's', 'e'] := by
      have := take_append_safe tail rest ['a', 'l', 's', 'e'] hr (by decide) (by simpa using htk)
      simpa using this
    exact h8 (by subst hc; simp [List.take_succ_cons, h4'])
  have hN : ¬(c = 'n' ∧ (tail ++ rest).take 2 = ['i', 'l']) := by
    rintro ⟨hc, htk⟩
    have h2' : tail.take 2 = ['i', 'l'] := by
      have := take_append_safe tail rest ['i', 'l'] hr (by decide) (by simpa using htk)
      simpa using this
    exact h9 (by subst hc; simp [List.take_succ_cons, h2'])
  have hminus : (decide (c = '-') && headDigit19 tail) = false := by
    simpa using h5
  have hcolon : (decide (c = ':') && headSymChar tail) = false := by
    simpa using h6
  have htw : (tail ++ rest).takeWhile symChar = tail := by
    rw [takeWhile_append_all _ _ _ halltail, takeWhile_safe symChar rest hr (by decide),
      List.append_nil]
  have hdw : (tail ++ rest).dropWhile symChar = rest := by
    rw [dropWhile_append_all _ _ _ halltail, dropWhile_safe symChar rest hr (by decide)]
  simp only [List.cons_append, tokenizeGo, tokStepA, tokStepB, tokStepC, tokStepD,
    h1, h2, h3, h4, hT, hF, hN, h0, hspace, hd19, hsymhead, hminus, hcolon,
    htw, hdw, hsym,
    hne '\'' (by decide), hne '`' (by decide), hne '(' (by decide), hne ')' (by decide),
    hne '[' (by decide), hne ']' (by decide), hne '{' (by decide), hne '}' (by decide),
    hne '"' (by decide), hne ';' (by decide),
    if_false, if_true, Bool.false_eq_true, ite_false, ite_true]

theorem natReprChars_zero : natReprChars 0 = ['0'] := by
  rw [natReprChars]
  norm_num [digitChar]

theorem tokenize_num (f : Nat) (n : Int) (rest : List Char) (hr : safeHead rest = true) :
    tokenizeGo (f + 1) (intReprChars n ++ rest) =
      (Tok.numTok n :: ·) <$> tokenizeGo f rest := by
  rcases lt_trichotomy n 0 with hn | hn | hn
  · -- negative: a `-` then the digits of the absolute value
    rw [intReprChars, if_pos hn]
    obtain ⟨d, ds, hd, hdig, hd0⟩ := natReprChars_head19 n.natAbs (by omega)
    have hds : ds.all Char.isDigit = true := by
      have := natReprChars_all_digit n.natAbs
      rw [hd] at this
      simp only [List.all_cons, Bool.and_eq_true] at this
      exact this.2
    have htw : (ds ++ rest).takeWhile Char.isDigit = ds := by
      rw [takeWhile_append_all _ _ _ hds, takeWhile_safe Char.isDigit rest hr (by decide),
        List.append_nil]
    have hdw : (ds ++ rest).dropWhile Char.isDigit = rest := by
      rw [dropWhile_append_all _ _ _ hds, dropWhile_safe Char.isDigit rest hr (by decide)]
    have hval : digitsVal (d :: ds) = n.natAbs := by
      rw [← hd, digitsVal_natReprChars]
    have h19 : headDigit19 (d :: (ds ++ rest)) = true := by
      simp [headDigit19, hdig, hd0]
    have hneg : negSel (d :: (ds ++ rest)) =
        (-(digitsVal (d :: ds) : Int), rest) := by
      simp [negSel, htw, hdw]
    have hcast : -((n.natAbs : Nat) : Int) = n := by omega
    rw [hd]
    simp only [List.cons_append, List.append_assoc]
    simp [tokenizeGo, tokStepA, tokStepB, tokStepC, tokStepD, isSpacePy, h19, hneg, hval,
      hcast, abs_of_neg hn]
  · subst hn
    rw [intReprChars, if_neg (by omega)]
    have hz : (Int.natAbs 0) = 0 := rfl
    rw [hz, natReprChars_zero]
    have hdw : rest.dropWhile (fun d => d = '0') = rest :=
      dropWhile_safe _ rest hr (by decide)
    simp [tokenizeGo, tokStepA, tokStepB, tokStepC, tokStepD, isSpacePy, hdw]
  · -- positive
    rw [intReprChars, if_neg (by omega)]
    obtain ⟨d, ds, hd, hdig, hd0⟩ := natReprChars_head19 n.natAbs (by omega)
    have hmem : d ∈ digitChars := by
      have := natReprChars_mem n.natAbs
      rw [hd] at this
      exact this d (by simp)
    have hds : ds.all Char.isDigit = true := by
      have := natReprChars_all_digit n.natAbs
      rw [hd] at this
      simp only [List.all_cons, Bool.and_eq_true] at this
      exact this.2
    have htw : (ds ++ rest).takeWhile Char.isDigit = ds := by
      rw [takeWhile_append_all _ _ _ hds, takeWhile_safe Char.isDigit rest hr (by decide),
        List.append_nil]
    have hdw : (ds ++ rest).dropWhile Char.isDigit = rest := by
      rw [dropWhile_append_all _ _ _ hds, dropWhile_safe Char.isDigit rest hr (by decide)]
    have hval : digitsVal (d :: ds) = n.natAbs := by
      rw [← hd, digitsVal_natReprChars]
    have hcast : ((n.natAbs : Nat) : Int) = n := by omega
    rw [hd]
    simp only [List.cons_append]
    fin_cases hmem
    · exact absurd rfl hd0
    all_goals
      simp [tokenizeGo, tokStepA, tokStepB, tokStepC, tokStepD, isSpacePy,
        List.takeWhile_cons, htw, hdw, hval, hcast]

theorem natReprChars_pos (m : Nat) : 0 < (natReprChars m).length := by
  rw [natReprChars]
  split <;> simp

theorem intReprChars_pos (n : Int) : 0 < (intReprChars n).length := by
  rw [intReprChars]
  split <;> simp [natReprChars_pos]

/-- Lexing the printed items of a sequence, followed by the closing
bracket: the space separator and the closer keep every item's token
greedy-safe. -/
theorem tokenize_items (closer : Char) (hcl : safeChar closer = true) :
    ∀ (ys : List ExpressionT)
      (hP : ∀ y ∈ ys, ∀ (rest : List Char) (f : Nat), (ppChars y ++ rest).length < f →
        safeHead rest = true →
        tokenizeGo f (ppChars y ++ rest) = (toksOf y ++ ·) <$> tokenizeGo (rest.length + 1) rest)
      (rest' : List Char) (f : Nat),
      (joinSpace (ppList ys) ++ closer :: rest').length < f →
      tokenizeGo f (joinSpace (ppList ys) ++ closer :: rest') =
        (toksList ys ++ ·) <$> tokenizeGo (rest'.length + 2) (closer :: rest') := by
  intro ys
  induction ys with
  | nil =>
    intro hP rest' f hf
    simp only [ppList, joinSpace, toksList, List.nil_append] at hf ⊢
    rw [tokenizeGo_fuel (closer :: rest').length (closer :: rest') Nat.le.refl f
      (rest'.length + 2) (by simpa using hf) (by simp)]
    rcases htk : tokenizeGo (rest'.length + 2) (closer :: rest') with e | ts <;> rfl
  | cons y ys' ihy =>
    intro hP rest' f hf
    rcases ys' with _ | ⟨z, zs⟩
    · simp only [ppList, joinSpace, toksList] at hf ⊢
      rw [hP y (by simp) (closer :: rest') f (by simpa using hf)
        (by simp [safeHead, hcl])]
      simp only [List.length_cons, List.append_nil]
    · have ihy' := ihy (fun w hw => hP w (by simp [hw])) rest'
      simp only [ppList, toksList] at ihy'
      simp only [ppList, joinSpace, toksList] at hf ⊢
      simp only [List.append_assoc, List.cons_append] at hf ⊢
      rw [hP y (by simp) (' ' :: (joinSpace (ppChars z :: ppList zs) ++ closer :: rest')) f
        (by simpa using hf) (by simp [safeHead, safeChar])]
      simp only [List.length_cons]
      rw [tokenize_space]
      rw [ihy' _ (Nat.lt_succ_self _)]
      rcases htk : tokenizeGo (rest'.length + 2) (closer :: rest') with e | ts <;> simp

/-- Lexing the printed `key value` pairs of a hash map, followed by the
closing brace. -/
theorem tokenize_pairs :
    ∀ (qs : List (ExpressionT × ExpressionT))
      (hPk : ∀ p ∈ qs, ∀ (rest : List Char) (f : Nat), (ppChars p.1 ++ rest).length < f →
        safeHead rest = true →
        tokenizeGo f (ppChars p.1 ++ rest) =
          (toksOf p.1 ++ ·) <$> tokenizeGo (rest.length + 1) rest)
      (hPv : ∀ p ∈ qs, ∀ (rest : List Char) (f : Nat), (ppChars p.2 ++ rest).length < f →
        safeHead rest = true →
        tokenizeGo f (ppChars p.2 ++ rest) =
          (toksOf p.2 ++ ·) <$> tokenizeGo (rest.length + 1) rest)
      (rest' : List Char) (f : Nat),
      (joinSpace (ppPairs qs) ++ '}' :: rest').length < f →
      tokenizeGo f (joinSpace (ppPairs qs) ++ '}' :: rest') =
        (toksPairs qs ++ ·) <$> tokenizeGo (rest'.length + 2) ('}' :: rest') := by
  intro qs
  induction qs with
  | nil =>
    intro hPk hPv rest' f hf
    simp only [ppPairs, joinSpace, toksPairs, List.nil_append] at hf ⊢
    rw [tokenizeGo_fuel ('}' :: rest').length ('}' :: rest') Nat.le.refl f
      (rest'.length + 2) (by simpa using hf) (by simp)]
    rcases htk : tokenizeGo (rest'.length + 2) ('}' :: rest') with e | ts <;> rfl
  | cons p qs' ihq =>
    intro hPk hPv rest' f hf
    obtain ⟨k, v⟩ := p
    rcases qs' with _ | ⟨q2, qs2⟩
    · simp only [ppPairs, joinSpace, toksPairs] at hf ⊢
      simp only [List.append_assoc, List.cons_append, List.append_nil] at hf ⊢
      rw [hPk (k, v) (by simp) (' ' :: (ppChars v ++ '}' :: rest')) f
        (by simpa using hf) (by simp [safeHead, safeChar])]
      simp only [List.length_cons]
      rw [tokenize_space]
      rw [hPv (k, v) (by simp) ('}' :: rest') _ (Nat.lt_succ_self _)
        (by simp [safeHead, safeChar])]
      simp only [List.length_cons]
      rw [show rest'.length + 1 + 1 = rest'.length + 2 from rfl]
      rcases htk : tokenizeGo (rest'.length + 2) ('}' :: rest') with e | ts <;> simp
    · obtain ⟨k2, v2⟩ := q2
      have ihq' := ihq (fun w hw => hPk w (by simp [hw])) (fun w hw => hPv w (by simp [hw]))
        rest'
      simp only [ppPairs, toksPairs] at ihq'
      simp only [ppPairs, joinSpace, toksPairs] at hf ⊢
      simp only [List.append_assoc, List.cons_append] at hf ⊢
      rw [hPk (k, v) (by simp)
        (' ' :: (ppChars v ++ ' ' ::
          (joinSpace ((ppChars k2 ++ ' ' :: ppChars v2) :: ppPairs qs2) ++ '}' :: rest'))) f
        (by simpa using hf) (by simp [safeHead, safeChar])]
      simp only [List.length_cons]
      rw [tokenize_space]
      rw [hPv (k, v) (by simp)
        (' ' :: (joinSpace ((ppChars k2 ++ ' ' :: ppChars v2) :: ppPairs qs2) ++
          '}' :: rest')) _ (Nat.lt_succ_self _) (by simp [safeHead, safeChar])]
      simp only [List.length_cons]
      rw [tokenize_space]
      rw [ihq' _ (Nat.lt_succ_self _)]
      rcases htk : tokenizeGo (rest'.length + 2) ('}' :: rest') with e | ts <;> simp

/-- Lexing the printed form of any producible value, followed by a safe
remainder: the printed text contributes exactly `toksOf x`. -/
theorem tokenize_pp (x : ExpressionT) (hx : Producible x) :
    ∀ (rest : List Char) (f : Nat), (ppChars x ++ rest).length < f → safeHead rest = true →
      tokenizeGo f (ppChars x ++ rest) =
        (toksOf x ++ ·) <$> tokenizeGo (rest.length + 1) rest := by
  induction hx with
  | nil =>
    intro rest f hf hr
    match f, hf with
    | f' + 1, hf =>
      simp only [ppChars, toksOf] at hf ⊢
      rw [tokenize_nil,
        tokenizeGo_fuel rest.length rest Nat.le.refl f' (rest.length + 1)
          (by simp at hf; omega) (by omega)]
      rfl
  | trueV =>
    intro rest f hf hr
    match f, hf with
    | f' + 1, hf =>
      simp only [ppChars, toksOf] at hf ⊢
      rw [tokenize_true,
        tokenizeGo_fuel rest.length rest Nat.le.refl f' (rest.length + 1)
          (by simp at hf; omega) (by omega)]
      rfl
  | falseV =>
    intro rest f hf hr
    match f, hf with
    | f' + 1, hf =>
      simp only [ppChars, toksOf] at hf ⊢
      rw [tokenize_false,
        tokenizeGo_fuel rest.length rest Nat.le.refl f' (rest.length + 1)
          (by simp at hf; omega) (by omega)]
      rfl
  | num n =>
    intro rest f hf hr
    match f, hf with
    | f' + 1, hf =>
      simp only [ppChars, toksOf] at hf ⊢
      rw [tokenize_num f' n rest hr,
        tokenizeGo_fuel rest.length rest Nat.le.refl f' (rest.length + 1)
          (by have := intReprChars_pos n; simp at hf; omega) (by omega)]
      rfl
  | str s =>
    intro rest f hf hr
    match f, hf with
    | f' + 1, hf =>
      simp only [ppChars, toksOf] at hf ⊢
      rw [tokenize_str f' s.data rest,
        tokenizeGo_fuel rest.length rest Nat.le.refl f' (rest.length + 1)
          (by simp at hf; omega) (by omega)]
      rfl
  | sym s hs =>
    intro rest f hf hr
    match f, hf with
    | f' + 1, hf =>
      simp only [ppChars, toksOf] at hf ⊢
      rcases hsd : s.data with _ | ⟨c, tail⟩
      · rw [hsd] at hs
        simp [symbolProducible] at hs
      · rw [hsd] at hf
        rw [tokenize_sym f' c tail rest (hsd ▸ hs) hr,
          tokenizeGo_fuel rest.length rest Nat.le.refl f' (rest.length + 1)
            (by simp at hf; omega) (by omega), ← hsd]
        rfl
  | kw s hs =>
    intro rest f hf hr
    match f, hf with
    | f' + 1, hf =>
      simp only [ppChars, toksOf] at hf ⊢
      rcases hsd : s.data with _ | ⟨c, tail⟩
      · rw [hsd] at hs
        simp [keywordProducible] at hs
      · have hall : (c :: tail).all symChar = true := by
          rw [← hsd]
          simp only [keywordProducible, Bool.and_eq_true] at hs
          exact hs.2
        rw [hsd] at hf
        rw [tokenize_kw f' c tail rest hall hr,
          tokenizeGo_fuel rest.length rest Nat.le.refl f' (rest.length + 1)
            (by simp at hf; omega) (by omega), ← hsd]
        rfl
  | list xs h ih =>
    intro rest f hf hr
    match f, hf with
    | f' + 1, hf =>
      simp only [ppChars, toksOf] at hf ⊢
      simp only [List.cons_append, List.append_assoc, List.singleton_append,
        List.nil_append] at hf ⊢
      rw [tokenize_lparen]
      rw [tokenize_items ')' (by decide) xs ih rest f' (by simpa using hf)]
      rw [show rest.length + 2 = (rest.length + 1) + 1 from rfl, tokenize_rparen]
      rcases htk : tokenizeGo (rest.length + 1) rest with e | ts <;> simp
  | vec xs h ih =>
    intro rest f hf hr
    match f, hf with
    | f' + 1, hf =>
      simp only [ppChars, toksOf] at hf ⊢
      simp only [List.cons_append, List.append_assoc, List.singleton_append,
        List.nil_append] at hf ⊢
      rw [tokenize_lbracket]
      rw [tokenize_items ']' (by decide) xs ih rest f' (by simpa using hf)]
      rw [show rest.length + 2 = (rest.length + 1) + 1 from rfl, tokenize_rbracket]
      rcases htk : tokenizeGo (rest.length + 1) rest with e | ts <;> simp
  | hmap ps hk hsk hv hd ihk ihv =>
    intro rest f hf hr
    match f, hf with
    | f' + 1, hf =>
      simp only [ppChars, toksOf] at hf ⊢
      simp only [List.cons_append, List.append_assoc, List.singleton_append,
        List.nil_append] at hf ⊢
      rw [tokenize_lbrace]
      rw [tokenize_pairs ps ihk ihv rest f' (by simpa using hf)]
      rw [show rest.length + 2 = (rest.length + 1) + 1 from rfl, tokenize_rbrace]
      rcases htk : tokenizeGo (rest.length + 1) rest with e | ts <;> simp

/-! #### Parsing the token stream back -/

theorem dictInsert_append (acc : List (ExpressionT × ExpressionT)) (k v : ExpressionT)
    (h : ∀ p ∈ acc, keyEq p.1 k = false) :
    dictInsert acc k v = acc ++ [(k, v)] := by
  induction acc with
  | nil => rfl
  | cons q rest ih =>
    obtain ⟨k', v'⟩ := q
    simp only [dictInsert]
    rw [h (k', v') (by simp)]
    simp only [Bool.false_eq_true, if_false, List.cons_append, List.cons.injEq, true_and]
    exact ih (fun p hp => h p (by simp [hp]))

theorem buildDict_go (ps : List (ExpressionT × ExpressionT)) :
    ∀ acc : List (ExpressionT × ExpressionT),
      List.Pairwise (fun p q => keyEq p.1 q.1 = false) ps →
      (∀ p ∈ acc, ∀ q ∈ ps, keyEq p.1 q.1 = false) →
      ps.foldl (fun acc p => dictInsert acc p.1 p.2) acc = acc ++ ps := by
  induction ps with
  | nil => intro acc _ _; simp
  | cons q rest ih =>
    intro acc hd hdisj
    simp only [List.foldl_cons]
    rw [dictInsert_append acc q.1 q.2 (fun p hp => hdisj p hp q (by simp))]
    rw [ih (acc ++ [(q.1, q.2)]) (List.Pairwise.sublist (by simp) hd)
      ?_]
    · simp
    · intro p hp r hr
      rcases List.mem_append.mp hp with h1 | h1
      · exact hdisj p h1 r (by simp [hr])
      · simp only [List.mem_singleton] at h1
        subst h1
        exact (List.pairwise_cons.mp hd).1 r hr

theorem buildDict_self (ps : List (ExpressionT × ExpressionT))
    (hd : List.Pairwise (fun p q => keyEq p.1 q.1 = false) ps) : buildDict ps = ps := by
  have := buildDict_go ps [] hd (by simp)
  simpa [buildDict] using this

theorem toksOf_pos (x : ExpressionT) (hx : Producible x) : 0 < (toksOf x).length := by
  cases hx <;> simp [toksOf]

theorem toksOf_shape (x : ExpressionT) (hx : Producible x) :
    ∃ t rest, toksOf x = t :: rest ∧ ¬(t = Tok.rparen) ∧ ¬(t = Tok.rbracket) ∧
      ¬(t = Tok.rbrace) := by
  cases hx with
  | nil => exact ⟨.nilTok, [], by simp [toksOf], by simp, by simp, by simp⟩
  | trueV => exact ⟨.trueTok, [], by simp [toksOf], by simp, by simp, by simp⟩
  | falseV => exact ⟨.falseTok, [], by simp [toksOf], by simp, by simp, by simp⟩
  | num n => exact ⟨.numTok n, [], by simp [toksOf], by simp, by simp, by simp⟩
  | str s =>
    exact ⟨.strTok (escapeString s.data), [], by simp [toksOf], by simp, by simp,
      by simp⟩
  | sym s h => exact ⟨.symTok s, [], by simp [toksOf], by simp, by simp, by simp⟩
  | kw s h => exact ⟨.kwTok s, [], by simp [toksOf], by simp, by simp, by simp⟩
  | list xs h =>
    exact ⟨.lparen, toksList xs ++ [.rparen], by simp [toksOf], by simp, by simp,
      by simp⟩
  | vec xs h =>
    exact ⟨.lbracket, toksList xs ++ [.rbracket], by simp [toksOf], by simp, by simp,
      by simp⟩
  | hmap ps hk hs hv hd =>
    exact ⟨.lbrace, toksPairs ps ++ [.rbrace], by simp [toksOf], by simp, by simp,
      by simp⟩

theorem parseItems_toks (closer : Tok)
    (hcl : closer = Tok.rparen ∨ closer = Tok.rbracket) :
    ∀ (xs : List ExpressionT)
      (hP : ∀ x ∈ xs, Producible x)
      (hPE : ∀ x ∈ xs, ∀ (L ts : List Tok), L = toksOf x ++ ts →
        ∃ h : ts.length < L.length, parseExpr L = .ok (x, ⟨ts, h⟩))
      (L ts : List Tok), L = toksList xs ++ closer :: ts →
      ∃ h : ts.length < L.length, parseItems closer L = .ok (xs, ⟨ts, h⟩) := by
  intro xs
  induction xs with
  | nil =>
    intro hP hPE L ts hL
    have hL2 : L = closer :: ts := by rw [hL]; simp [toksList]
    subst hL2
    refine ⟨by simp, ?_⟩
    rw [parseItems, if_pos rfl]
  | cons x xs2 ih =>
    intro hP hPE L ts hL
    obtain ⟨t0, tr, hsh, hn1, hn2, hn3⟩ := toksOf_shape x (hP x (by simp))
    have hL2 : L = t0 :: (tr ++ (toksList xs2 ++ closer :: ts)) := by
      rw [hL]; simp [toksList, hsh]
    subst hL2
    obtain ⟨h1, he1⟩ := hPE x (by simp) (t0 :: (tr ++ (toksList xs2 ++ closer :: ts)))
      (toksList xs2 ++ closer :: ts) (by rw [hsh]; simp)
    obtain ⟨h2, he2⟩ := ih (fun w hw => hP w (by simp [hw]))
      (fun w hw => hPE w (by simp [hw])) (toksList xs2 ++ closer :: ts) ts rfl
    refine ⟨by simp only [List.length_cons, List.length_append]; omega, ?_⟩
    rw [parseItems]
    rw [if_neg (by rcases hcl with h | h <;> subst h <;> [exact hn1; exact hn2])]
    rw [he1]
    dsimp only
    rw [he2]

theorem parsePairs_toks :
    ∀ (qs : List (ExpressionT × ExpressionT))
      (hKey : ∀ p ∈ qs, isHashKey p.1 = true)
      (hPEv : ∀ p ∈ qs, ∀ (L ts : List Tok), L = toksOf p.2 ++ ts →
        ∃ h : ts.length < L.length, parseExpr L = .ok (p.2, ⟨ts, h⟩))
      (L ts : List Tok), L = toksPairs qs ++ Tok.rbrace :: ts →
      ∃ h : ts.length < L.length, parsePairs L = .ok (qs, ⟨ts, h⟩) := by
  intro qs
  induction qs with
  | nil =>
    intro hKey hPEv L ts hL
    have hL2 : L = Tok.rbrace :: ts := by rw [hL]; simp [toksPairs]
    subst hL2
    refine ⟨by simp, ?_⟩
    rw [parsePairs]
  | cons p qs2 ih =>
    intro hKey hPEv L ts hL
    obtain ⟨k, v⟩ := p
    have hks := hKey (k, v) (by simp)
    obtain ⟨h2, he2⟩ := ih (fun w hw => hKey w (by simp [hw]))
      (fun w hw => hPEv w (by simp [hw])) (toksPairs qs2 ++ Tok.rbrace :: ts) ts rfl
    cases k <;> simp [isHashKey] at hks
    case String s =>
      obtain ⟨h1, he1⟩ := hPEv (.String s, v) (by simp)
        (toksOf v ++ (toksPairs qs2 ++ Tok.rbrace :: ts))
        (toksPairs qs2 ++ Tok.rbrace :: ts) rfl
      have hL2 : L = Tok.strTok (escapeString s.data) ::
          (toksOf v ++ (toksPairs qs2 ++ Tok.rbrace :: ts)) := by
        rw [hL]; simp [toksPairs, toksOf]
      subst hL2
      refine ⟨by simp only [List.length_cons, List.length_append]; omega, ?_⟩
      rw [parsePairs]
      rw [unescape_escape]
      dsimp only
      rw [he1]
      dsimp only
      rw [he2]
    case Keyword s =>
      obtain ⟨h1, he1⟩ := hPEv (.Keyword s, v) (by simp)
        (toksOf v ++ (toksPairs qs2 ++ Tok.rbrace :: ts))
        (toksPairs qs2 ++ Tok.rbrace :: ts) rfl
      have hL2 : L = Tok.kwTok s ::
          (toksOf v ++ (toksPairs qs2 ++ Tok.rbrace :: ts)) := by
        rw [hL]; simp [toksPairs, toksOf]
      subst hL2
      refine ⟨by simp only [List.length_cons, List.length_append]; omega, ?_⟩
      rw [parsePairs]
      rw [he1]
      dsimp only
      rw [he2]

theorem parse_toks (x : ExpressionT) (hx : Producible x) :
    ∀ (L ts : List Tok), L = toksOf x ++ ts →
      ∃ h : ts.length < L.length, parseExpr L = .ok (x, ⟨ts, h⟩) := by
  induction hx with
  | nil =>
    intro L ts hL
    have hL2 : L = Tok.nilTok :: ts := by rw [hL]; simp [toksOf]
    subst hL2
    exact ⟨by simp, by rw [parseExpr]⟩
  | trueV =>
    intro L ts hL
    have hL2 : L = Tok.trueTok :: ts := by rw [hL]; simp [toksOf]
    subst hL2
    exact ⟨by simp, by rw [parseExpr]⟩
  | falseV =>
    intro L ts hL
    have hL2 : L = Tok.falseTok :: ts := by rw [hL]; simp [toksOf]
    subst hL2
    exact ⟨by simp, by rw [parseExpr]⟩
  | num n =>
    intro L ts hL
    have hL2 : L = Tok.numTok n :: ts := by rw [hL]; simp [toksOf]
    subst hL2
    exact ⟨by simp, by rw [parseExpr]⟩
  | str s =>
    intro L ts hL
    have hL2 : L = Tok.strTok (escapeString s.data) :: ts := by rw [hL]; simp [toksOf]
    subst hL2
    exact ⟨by simp, by rw [parseExpr, unescape_escape]⟩
  | sym s hs =>
    intro L ts hL
    have hL2 : L = Tok.symTok s :: ts := by rw [hL]; simp [toksOf]
    subst hL2
    exact ⟨by simp, by rw [parseExpr]⟩
  | kw s hs =>
    intro L ts hL
    have hL2 : L = Tok.kwTok s :: ts := by rw [hL]; simp [toksOf]
    subst hL2
    exact ⟨by simp, by rw [parseExpr]⟩
  | list xs h ih =>
    intro L ts hL
    have hL2 : L = Tok.lparen :: (toksList xs ++ Tok.rparen :: ts) := by
      rw [hL]; simp [toksOf]
    subst hL2
    obtain ⟨h2, he2⟩ := parseItems_toks .rparen (Or.inl rfl) xs h ih
      (toksList xs ++ Tok.rparen :: ts) ts rfl
    refine ⟨by simp only [List.length_cons, List.length_append]; omega, ?_⟩
    rw [parseExpr]
    rw [he2]
  | vec xs h ih =>
    intro L ts hL
    have hL2 : L = Tok.lbracket :: (toksList xs ++ Tok.rbracket :: ts) := by
      rw [hL]; simp [toksOf]
    subst hL2
    obtain ⟨h2, he2⟩ := parseItems_toks .rbracket (Or.inr rfl) xs h ih
      (toksList xs ++ Tok.rbracket :: ts) ts rfl
    refine ⟨by simp only [List.length_cons, List.length_append]; omega, ?_⟩
    rw [parseExpr]
    rw [he2]
  | hmap ps hk hsk hv hd ihk ihv =>
    intro L ts hL
    have hL2 : L = Tok.lbrace :: (toksPairs ps ++ Tok.rbrace :: ts) := by
      rw [hL]; simp [toksOf]
    subst hL2
    obtain ⟨h2, he2⟩ := parsePairs_toks ps hsk ihv
      (toksPairs ps ++ Tok.rbrace :: ts) ts rfl
    refine ⟨by simp only [List.length_cons, List.length_append]; omega, ?_⟩
    rw [parseExpr]
    rw [he2]
    dsimp only
    rw [buildDict_self ps hd]

/-! #### The printer on producible values -/

theorem pretty_producible (x : ExpressionT) (hx : Producible x) :
    ∀ (st : St) (b : Nat), prettyGo st true b x = some (ppChars x) := by
  induction hx with
  | nil => intro st b; rw [prettyGo]; rfl
  | trueV => intro st b; rw [prettyGo]; rfl
  | falseV => intro st b; rw [prettyGo]; rfl
  | num n => intro st b; rw [prettyGo]; rfl
  | str s => intro st b; rw [prettyGo]; simp [ppChars]
  | sym s hs => intro st b; rw [prettyGo]; rfl
  | kw s hs => intro st b; rw [prettyGo]; rfl
  | list xs h ih =>
    intro st b
    have hj : ∀ ys, (∀ y ∈ ys, ∀ (st2 : St) (b2 : Nat),
        prettyGo st2 true b2 y = some (ppChars y)) →
        prettyJoin st true b ys = some (ppList ys) := by
      intro ys
      induction ys with
      | nil => intro _; rw [prettyJoin]; rfl
      | cons y ys2 ihy =>
        intro hy
        rw [prettyJoin]
        rw [hy y (by simp) st b]
        rw [ihy (fun w hw st2 b2 => hy w (by simp [hw]) st2 b2)]
        simp [ppList]
    rw [prettyGo, hj xs ih]
    simp [ppChars]
  | vec xs h ih =>
    intro st b
    have hj : ∀ ys, (∀ y ∈ ys, ∀ (st2 : St) (b2 : Nat),
        prettyGo st2 true b2 y = some (ppChars y)) →
        prettyJoin st true b ys = some (ppList ys) := by
      intro ys
      induction ys with
      | nil => intro _; rw [prettyJoin]; rfl
      | cons y ys2 ihy =>
        intro hy
        rw [prettyJoin]
        rw [hy y (by simp) st b]
        rw [ihy (fun w hw st2 b2 => hy w (by simp [hw]) st2 b2)]
        simp [ppList]
    rw [prettyGo, hj xs ih]
    simp [ppChars]
  | hmap ps hk hsk hv hd ihk ihv =>
    intro st b
    have hj : ∀ qs, (∀ q ∈ qs, ∀ (st2 : St) (b2 : Nat),
        prettyGo st2 true b2 q.1 = some (ppChars q.1)) →
        (∀ q ∈ qs, ∀ (st2 : St) (b2 : Nat),
        prettyGo st2 true b2 q.2 = some (ppChars q.2)) →
        prettyPairs st true b qs = some (ppPairs qs) := by
      intro qs
      induction qs with
      | nil => intro _ _; rw [prettyPairs]; rfl
      | cons q qs2 ihq =>
        intro h1 h2
        obtain ⟨k, v⟩ := q
        rw [prettyPairs]
        rw [h1 (k, v) (by simp) st b]
        rw [h2 (k, v) (by simp) st b]
        rw [ihq (fun w hw st2 b2 => h1 w (by simp [hw]) st2 b2)
          (fun w hw st2 b2 => h2 w (by simp [hw]) st2 b2)]
        simp [ppPairs]
    rw [prettyGo, hj ps ihk ihv]
    simp [ppChars]

/-! #### Every token the lexer emits is in the printable range -/

/-- Symbols and keywords the lexer can emit have producible names; the
other token kinds carry no name constraint. -/
def wfTok : Tok → Bool
  | .symTok s => symbolProducible s.data
  | .kwTok s => keywordProducible s.data
  | _ => true

theorem takeWhile_all (p : Char → Bool) (l : List Char) :
    (l.takeWhile p).all p = true :=
  List.all_eq_true.mpr (fun _ ha => List.mem_takeWhile_imp ha)

theorem headDigit19_takeWhile (l : List Char)
    (h : headDigit19 (l.takeWhile symChar) = true) : headDigit19 l = true := by
  cases l with
  | nil => simp only [List.takeWhile_nil] at h; exact h
  | cons d tl =>
    rw [List.takeWhile_cons] at h
    by_cases hd : symChar d = true
    · rw [if_pos hd] at h
      simpa [headDigit19] using h
    · rw [if_neg hd] at h
      simp [headDigit19] at h

theorem headSymChar_takeWhile (l : List Char) :
    headSymChar (l.takeWhile symChar) = true → headSymChar l = true := by
  cases l with
  | nil => simp [List.takeWhile, headSymChar]
  | cons d tl =>
    rw [List.takeWhile_cons]
    by_cases hd : symChar d = true
    · rw [if_pos hd]
      simp [headSymChar, hd]
    · rw [if_neg hd]
      simp [headSymChar]

theorem take_eq_of_takeWhile_take (p : Char → Bool) :
    ∀ (n : Nat) (l X : List Char), X.length = n → (l.takeWhile p).take n = X →
      l.take n = X := by
  intro n
  induction n with
  | zero =>
    intro l X hX h
    rw [List.length_eq_zero] at hX
    subst hX
    simp
  | succ m ihm =>
    intro l X hX h
    match X, hX with
    | x :: X2, hX =>
      match l with
      | [] => simp [List.takeWhile] at h
      | c :: l2 =>
        rw [List.takeWhile_cons] at h
        by_cases hc : p c = true
        · rw [if_pos hc] at h
          rw [List.take_succ_cons] at h ⊢
          injection h with h1 h2
          subst h1
          rw [ihm l2 X2 (by simpa using hX) h2]
        · rw [if_neg hc] at h
          simp at h

theorem wf_cons_step (k : List Char → Except String (List Tok)) (X : List Char)
    (t0 : Tok) (toks : List Tok)
    (hk : ∀ X2 toks2, k X2 = .ok toks2 → ∀ t ∈ toks2, wfTok t = true)
    (h0 : wfTok t0 = true)
    (h : (t0 :: ·) <$> k X = .ok toks) :
    ∀ t ∈ toks, wfTok t = true := by
  obtain ⟨ts2, hkk, htoks⟩ := map_cons_ok t0 (k X) toks h
  subst htoks
  intro t ht
  rcases List.mem_cons.mp ht with h | h
  · subst h; exact h0
  · exact hk X ts2 hkk t h

theorem tokStepD_wf (k : List Char → Except String (List Tok)) (c : Char)
    (rest : List Char) (toks : List Tok)
    (hk : ∀ X toks2, k X = .ok toks2 → ∀ t ∈ toks2, wfTok t = true)
    (h1 : ¬(c = '~')) (h2 : ¬(c = '^')) (h3 : ¬(c = '@'))
    (h4 : ¬(c = 't' ∧ rest.take 3 = ['r', 'u', 'e']))
    (h5 : ¬(c = 'f' ∧ rest.take 4 = ['a', 'l', 's', 'e']))
    (h6 : ¬(c = 'n' ∧ rest.take 2 = ['i', 'l']))
    (h : tokStepD k c rest = .ok toks) :
    ∀ t ∈ toks, wfTok t = true := by
  simp only [tokStepD] at h
  split_ifs at h with hc0 hcd hcm hck hcs
  · exact wf_cons_step k _ _ toks hk (by rfl) h
  · exact wf_cons_step k _ _ toks hk (by rfl) h
  · exact wf_cons_step k _ _ toks hk (by rfl) h
  · refine wf_cons_step k _ _ toks hk ?_ h
    simp only [Bool.and_eq_true, decide_eq_true_eq] at hck
    obtain ⟨hcol, hhead⟩ := hck
    show keywordProducible (rest.takeWhile symChar) = true
    simp only [keywordProducible, Bool.and_eq_true]
    cases rest with
    | nil => simp [headSymChar] at hhead
    | cons d tl =>
      simp only [headSymChar] at hhead
      constructor
      · rw [List.takeWhile_cons, if_pos hhead]
        simp
      · exact takeWhile_all symChar (d :: tl)
  · refine wf_cons_step k _ _ toks hk ?_ h
    show symbolProducible (c :: rest.takeWhile symChar) = true
    simp only [symbolProducible, Bool.and_eq_true]
    refine ⟨⟨⟨⟨⟨⟨⟨⟨⟨?_, ?_⟩, ?_⟩, ?_⟩, ?_⟩, ?_⟩, ?_⟩, ?_⟩, ?_⟩, ?_⟩
    · simp only [List.all_cons, Bool.and_eq_true]
      exact ⟨hcs, takeWhile_all symChar rest⟩
    · simp [h1]
    · simp [h2]
    · simp [h3]
    · cases hdd : c.isDigit
      · rfl
      · exact absurd hdd hcd
    · by_cases hcm2 : c = '-'
      · have hh : headDigit19 (List.takeWhile symChar rest) = false := by
          cases hh2 : headDigit19 (List.takeWhile symChar rest)
          · rfl
          · exact absurd (by
              simp only [Bool.and_eq_true, decide_eq_true_eq]
              exact ⟨hcm2, headDigit19_takeWhile rest hh2⟩) hcm
        simp [hh]
      · simp [hcm2]
    · by_cases hck2 : c = ':'
      · have hh : headSymChar (List.takeWhile symChar rest) = false := by
          cases hh2 : headSymChar (List.takeWhile symChar rest)
          · rfl
          · exact absurd (by
              simp only [Bool.and_eq_true, decide_eq_true_eq]
              exact ⟨hck2, headSymChar_takeWhile rest hh2⟩) hck
        simp [hh]
      · simp [hck2]
    · have hne : ¬(List.take 4 (c :: List.takeWhile symChar rest) = ['t', 'r', 'u', 'e']) := by
        intro hcontra
        rw [List.take_succ_cons] at hcontra
        injection hcontra with hcA hcB
        exact h4 ⟨hcA, take_eq_of_takeWhile_take symChar 3 rest _ rfl hcB⟩
      rw [decide_eq_false hne]
      rfl
    · have hne : ¬(List.take 5 (c :: List.takeWhile symChar rest) =
          ['f', 'a', 'l', 's', 'e']) := by
        intro hcontra
        rw [List.take_succ_cons] at hcontra
        injection hcontra with hcA hcB
        exact h5 ⟨hcA, take_eq_of_takeWhile_take symChar 4 rest _ rfl hcB⟩
      rw [decide_eq_false hne]
      rfl
    · have hne : ¬(List.take 3 (c :: List.takeWhile symChar rest) = ['n', 'i', 'l']) := by
        intro hcontra
        rw [List.take_succ_cons] at hcontra
        injection hcontra with hcA hcB
        exact h6 ⟨hcA, take_eq_of_takeWhile_take symChar 2 rest _ rfl hcB⟩
      rw [decide_eq_false hne]
      rfl

theorem tokStepC_wf (k : List Char → Except String (List Tok)) (c : Char)
    (rest : List Char) (toks : List Tok)
    (hk : ∀ X toks2, k X = .ok toks2 → ∀ t ∈ toks2, wfTok t = true)
    (h1 : ¬(c = '~')) (h2 : ¬(c = '^')) (h3 : ¬(c = '@'))
    (h : tokStepC k c rest = .ok toks) :
    ∀ t ∈ toks, wfTok t = true := by
  simp only [tokStepC] at h
  split_ifs at h with hct hcf hcn hcsp hcc
  · exact wf_cons_step k _ _ toks hk (by rfl) h
  · exact wf_cons_step k _ _ toks hk (by rfl) h
  · exact wf_cons_step k _ _ toks hk (by rfl) h
  · exact hk _ _ h
  · exact hk _ _ h
  · exact tokStepD_wf k c rest toks hk h1 h2 h3 hct hcf hcn h

theorem tokStepB_wf (k : List Char → Except String (List Tok)) (c : Char)
    (rest : List Char) (toks : List Tok)
    (hk : ∀ X toks2, k X = .ok toks2 → ∀ t ∈ toks2, wfTok t = true)
    (h1 : ¬(c = '~')) (h2 : ¬(c = '^')) (h3 : ¬(c = '@'))
    (h : tokStepB k c rest = .ok toks) :
    ∀ t ∈ toks, wfTok t = true := by
  simp only [tokStepB] at h
  split_ifs at h with hc1 hc2 hc3 hc4 hc5 hc6 hund
  · exact wf_cons_step k _ _ toks hk (by rfl) h
  · exact wf_cons_step k _ _ toks hk (by rfl) h
  · exact wf_cons_step k _ _ toks hk (by rfl) h
  · exact wf_cons_step k _ _ toks hk (by rfl) h
  · exact wf_cons_step k _ _ toks hk (by rfl) h
  · rcases hsc : scanTok (scanString rest) with _ | ⟨raw, r⟩ <;> rw [hsc] at h <;>
      simp only [Option.elim_none, Option.elim_some] at h
    · injection h with h
      subst h
      intro t ht
      have ht2 := List.mem_singleton.mp ht
      subst ht2
      rfl
    · exact wf_cons_step k _ _ toks hk (by rfl) h
  · rcases hsc : scanTok (scanString rest) with _ | ⟨raw, r⟩ <;> rw [hsc] at h <;>
      simp only [Option.elim_none, Option.elim_some] at h
    · cases h
    · exact wf_cons_step k _ _ toks hk (by rfl) h
  · exact tokStepC_wf k c rest toks hk h1 h2 h3 h

theorem tokStepA_wf (k : List Char → Except String (List Tok)) (c : Char)
    (rest : List Char) (toks : List Tok)
    (hk : ∀ X toks2, k X = .ok toks2 → ∀ t ∈ toks2, wfTok t = true)
    (h : tokStepA k c rest = .ok toks) :
    ∀ t ∈ toks, wfTok t = true := by
  simp only [tokStepA] at h
  split_ifs at h with hc1 hc2 hc3 hc4 hc5 hc6
  · refine wf_cons_step k _ _ toks hk ?_ h
    rw [tildeSel.eq_def]
    split <;> rfl
  · exact wf_cons_step k _ _ toks hk (by rfl) h
  · exact wf_cons_step k _ _ toks hk (by rfl) h
  · exact wf_cons_step k _ _ toks hk (by rfl) h
  · exact wf_cons_step k _ _ toks hk (by rfl) h
  · exact wf_cons_step k _ _ toks hk (by rfl) h
  · exact tokStepB_wf k c rest toks hk hc1 hc4 hc5 h

theorem tokenizeGo_wf : ∀ (f : Nat) (cs : List Char) (toks : List Tok),
    tokenizeGo f cs = .ok toks → ∀ t ∈ toks, wfTok t = true := by
  intro f
  induction f with
  | zero =>
    intro cs toks h
    simp only [tokenizeGo] at h
    cases h
  | succ fl ih =>
    intro cs toks h
    match cs with
    | [] =>
      simp only [tokenizeGo] at h
      injection h with h
      subst h
      intro t ht
      cases ht
    | c :: rest =>
      simp only [tokenizeGo] at h
      exact tokStepA_wf (tokenizeGo fl) c rest toks (fun X t2 => ih X t2) h

/-! #### Parsed hash maps are producible -/

theorem dictInsert_mem (acc : List (ExpressionT × ExpressionT)) (k v : ExpressionT)
    (p : ExpressionT × ExpressionT) (h : p ∈ dictInsert acc k v) :
    (p.1 = k ∨ ∃ q ∈ acc, p.1 = q.1) ∧ (p.2 = v ∨ ∃ q ∈ acc, p.2 = q.2) := by
  induction acc with
  | nil =>
    simp only [dictInsert, List.mem_singleton] at h
    subst h
    exact ⟨Or.inl rfl, Or.inl rfl⟩
  | cons q0 rest ih =>
    obtain ⟨k0, v0⟩ := q0
    simp only [dictInsert] at h
    by_cases hkeq : keyEq k0 k = true
    · rw [if_pos hkeq] at h
      rcases List.mem_cons.mp h with h2 | h2
      · subst h2
        exact ⟨Or.inr ⟨(k0, v0), by simp, rfl⟩, Or.inl rfl⟩
      · exact ⟨Or.inr ⟨p, by simp [h2], rfl⟩, Or.inr ⟨p, by simp [h2], rfl⟩⟩
    · rw [if_neg hkeq] at h
      rcases List.mem_cons.mp h with h2 | h2
      · subst h2
        exact ⟨Or.inr ⟨(k0, v0), by simp, rfl⟩, Or.inr ⟨(k0, v0), by simp, rfl⟩⟩
      · obtain ⟨hA, hB⟩ := ih h2
        refine ⟨?_, ?_⟩
        · rcases hA with h3 | ⟨q, hq, hq2⟩
          · exact Or.inl h3
          · exact Or.inr ⟨q, by simp [hq], hq2⟩
        · rcases hB with h3 | ⟨q, hq, hq2⟩
          · exact Or.inl h3
          · exact Or.inr ⟨q, by simp [hq], hq2⟩

theorem dictInsert_pairwise (acc : List (ExpressionT × ExpressionT)) (k v : ExpressionT)
    (h : List.Pairwise (fun p q => keyEq p.1 q.1 = false) acc) :
    List.Pairwise (fun p q => keyEq p.1 q.1 = false) (dictInsert acc k v) := by
  induction acc with
  | nil => simp [dictInsert]
  | cons q0 rest ih =>
    obtain ⟨k0, v0⟩ := q0
    rw [List.pairwise_cons] at h
    obtain ⟨hhead, hrest⟩ := h
    simp only [dictInsert]
    by_cases hkeq : keyEq k0 k = true
    · rw [if_pos hkeq]
      exact List.pairwise_cons.mpr ⟨fun q hq => hhead q hq, hrest⟩
    · rw [if_neg hkeq]
      have hkeq2 : keyEq k0 k = false := by
        cases hb : keyEq k0 k
        · rfl
        · exact absurd hb hkeq
      refine List.pairwise_cons.mpr ⟨?_, ih hrest⟩
      intro q hq
      obtain ⟨hA, _⟩ := dictInsert_mem rest k v q hq
      rcases hA with h2 | ⟨q2, hq2, hq22⟩
      · rw [h2]
        exact hkeq2
      · rw [hq22]
        exact hhead q2 hq2

theorem foldl_dictInsert_wf (qs : List (ExpressionT × ExpressionT)) :
    ∀ acc : List (ExpressionT × ExpressionT),
      List.Pairwise (fun p q => keyEq p.1 q.1 = false) acc →
      List.Pairwise (fun p q => keyEq p.1 q.1 = false)
        (qs.foldl (fun a p => dictInsert a p.1 p.2) acc) ∧
      ∀ p ∈ qs.foldl (fun a p => dictInsert a p.1 p.2) acc,
        ((∃ q ∈ acc, p.1 = q.1) ∨ (∃ q ∈ qs, p.1 = q.1)) ∧
        ((∃ q ∈ acc, p.2 = q.2) ∨ (∃ q ∈ qs, p.2 = q.2)) := by
  induction qs with
  | nil =>
    intro acc hp
    simp only [List.foldl_nil]
    exact ⟨hp, fun p hp2 => ⟨Or.inl ⟨p, hp2, rfl⟩, Or.inl ⟨p, hp2, rfl⟩⟩⟩
  | cons q0 qs2 ih =>
    intro acc hp
    simp only [List.foldl_cons]
    obtain ⟨hP, hM⟩ := ih (dictInsert acc q0.1 q0.2) (dictInsert_pairwise acc q0.1 q0.2 hp)
    refine ⟨hP, ?_⟩
    intro p hp2
    obtain ⟨hA, hB⟩ := hM p hp2
    constructor
    · rcases hA with ⟨q, hq, hqe⟩ | ⟨q, hq, hqe⟩
      · obtain ⟨hA2, _⟩ := dictInsert_mem acc q0.1 q0.2 q hq
        rcases hA2 with h2 | ⟨q2, hq2, hq22⟩
        · exact Or.inr ⟨q0, by simp, hqe.trans h2⟩
        · exact Or.inl ⟨q2, hq2, hqe.trans hq22⟩
      · exact Or.inr ⟨q, by simp [hq], hqe⟩
    · rcases hB with ⟨q, hq, hqe⟩ | ⟨q, hq, hqe⟩
      · obtain ⟨_, hB2⟩ := dictInsert_mem acc q0.1 q0.2 q hq
        rcases hB2 with h2 | ⟨q2, hq2, hq22⟩
        · exact Or.inr ⟨q0, by simp, hqe.trans h2⟩
        · exact Or.inl ⟨q2, hq2, hqe.trans hq22⟩
      · exact Or.inr ⟨q, by simp [hq], hqe⟩

theorem buildDict_wf (qs : List (ExpressionT × ExpressionT)) :
    List.Pairwise (fun p q => keyEq p.1 q.1 = false) (buildDict qs) ∧
    ∀ p ∈ buildDict qs, (∃ q ∈ qs, p.1 = q.1) ∧ (∃ q ∈ qs, p.2 = q.2) := by
  obtain ⟨hP, hM⟩ := foldl_dictInsert_wf qs [] (by simp)
  refine ⟨hP, ?_⟩
  intro p hp2
  obtain ⟨hA, hB⟩ := hM p hp2
  constructor
  · rcases hA with ⟨q, hq, _⟩ | h2
    · cases hq
    · exact h2
  · rcases hB with ⟨q, hq, _⟩ | h2
    · cases hq
    · exact h2



/-! #### Everything the parser accepts on lexer tokens is producible -/

theorem parse_wf : ∀ (n : Nat) (ts : List Tok), ts.length < n →
    (∀ t ∈ ts, wfTok t = true) →
    ((∀ x r, parseExpr ts = .ok (x, r) →
        Producible x ∧ ∀ t ∈ r.val, wfTok t = true) ∧
     (∀ closer xs r, parseItems closer ts = .ok (xs, r) →
        (∀ x ∈ xs, Producible x) ∧ ∀ t ∈ r.val, wfTok t = true) ∧
     (∀ qs r, parsePairs ts = .ok (qs, r) →
        (∀ p ∈ qs, isHashKey p.1 = true ∧ Producible p.1 ∧ Producible p.2) ∧
        ∀ t ∈ r.val, wfTok t = true)) := by
  intro n
  induction n using Nat.strong_induction_on with
  | _ n ih =>
    intro ts hlen hwf
    have hA : ∀ L : List Tok, L.length < n → (∀ t ∈ L, wfTok t = true) →
        ∀ x r, parseExpr L = .ok (x, r) →
          Producible x ∧ ∀ t ∈ r.val, wfTok t = true := by
      intro L hLn hLwf
      match L, hLn, hLwf with
      | [], _, _ =>
        intro x r h
        rw [parseExpr] at h
        cases h
      | t :: ts2, hLn, hLwf =>
        intro x r h
        have hwf2 : ∀ t2 ∈ ts2, wfTok t2 = true :=
          fun t2 ht2 => hLwf t2 (List.mem_cons_of_mem t ht2)
        have hlt : ts2.length + 1 < n := by simpa using hLn
        cases t with
        | trueTok =>
          rw [parseExpr] at h
          try dsimp only at h
          injection h with h
          injection h with h1 h2
          subst h1; subst h2
          exact ⟨Producible.trueV, hwf2⟩
        | falseTok =>
          rw [parseExpr] at h
          try dsimp only at h
          injection h with h
          injection h with h1 h2
          subst h1; subst h2
          exact ⟨Producible.falseV, hwf2⟩
        | nilTok =>
          rw [parseExpr] at h
          try dsimp only at h
          injection h with h
          injection h with h1 h2
          subst h1; subst h2
          exact ⟨Producible.nil, hwf2⟩
        | numTok m =>
          rw [parseExpr] at h
          try dsimp only at h
          injection h with h
          injection h with h1 h2
          subst h1; subst h2
          exact ⟨Producible.num m, hwf2⟩
        | kwTok s =>
          rw [parseExpr] at h
          try dsimp only at h
          injection h with h
          injection h with h1 h2
          subst h1; subst h2
          exact ⟨Producible.kw s (hLwf (.kwTok s) (by simp)), hwf2⟩
        | symTok s =>
          rw [parseExpr] at h
          try dsimp only at h
          injection h with h
          injection h with h1 h2
          subst h1; subst h2
          exact ⟨Producible.sym s (hLwf (.symTok s) (by simp)), hwf2⟩
        | strTok raw =>
          rw [parseExpr] at h
          try dsimp only at h
          rcases hu : unescapeChars raw with _ | s <;> rw [hu] at h <;> try dsimp only at h
          · cases h
          · injection h with h
            injection h with h1 h2
            subst h1; subst h2
            exact ⟨Producible.str _, hwf2⟩
        | unbalancedTok =>
          rw [parseExpr] at h
          try dsimp only at h
          cases h
        | rparen =>
          rw [parseExpr] at h
          try dsimp only at h
          cases h
        | rbracket =>
          rw [parseExpr] at h
          try dsimp only at h
          cases h
        | rbrace =>
          rw [parseExpr] at h
          try dsimp only at h
          cases h
        | quoteTok =>
          rw [parseExpr] at h
          try dsimp only at h
          rcases hrec : parseExpr ts2 with m | ⟨e1, r1, hr1⟩ <;> rw [hrec] at h <;>
            try dsimp only at h
          · cases h
          · obtain ⟨hPe1, hwfr1⟩ :=
              (ih (ts2.length + 1) hlt ts2 (Nat.lt_succ_self _) hwf2).1 e1 ⟨r1, hr1⟩ hrec
            injection h with h
            injection h with h1 h2
            subst h1; subst h2
            refine ⟨Producible.list _ ?_, hwfr1⟩
            intro y hy
            rcases List.mem_cons.mp hy with h2 | h2
            · subst h2; exact Producible.sym _ (by decide)
            · have h3 := List.mem_singleton.mp h2
              subst h3; exact hPe1
        | backtickTok =>
          rw [parseExpr] at h
          try dsimp only at h
          rcases hrec : parseExpr ts2 with m | ⟨e1, r1, hr1⟩ <;> rw [hrec] at h <;>
            try dsimp only at h
          · cases h
          · obtain ⟨hPe1, hwfr1⟩ :=
              (ih (ts2.length + 1) hlt ts2 (Nat.lt_succ_self _) hwf2).1 e1 ⟨r1, hr1⟩ hrec
            injection h with h
            injection h with h1 h2
            subst h1; subst h2
            refine ⟨Producible.list _ ?_, hwfr1⟩
            intro y hy
            rcases List.mem_cons.mp hy with h2 | h2
            · subst h2; exact Producible.sym _ (by decide)
            · have h3 := List.mem_singleton.mp h2
              subst h3; exact hPe1
        | tildeTok =>
          rw [parseExpr] at h
          try dsimp only at h
          rcases hrec : parseExpr ts2 with m | ⟨e1, r1, hr1⟩ <;> rw [hrec] at h <;>
            try dsimp only at h
          · cases h
          · obtain ⟨hPe1, hwfr1⟩ :=
              (ih (ts2.length + 1) hlt ts2 (Nat.lt_succ_self _) hwf2).1 e1 ⟨r1, hr1⟩ hrec
            injection h with h
            injection h with h1 h2
            subst h1; subst h2
            refine ⟨Producible.list _ ?_, hwfr1⟩
            intro y hy
            rcases List.mem_cons.mp hy with h2 | h2
            · subst h2; exact Producible.sym _ (by decide)
            · have h3 := List.mem_singleton.mp h2
              subst h3; exact hPe1
        | specialTok =>
          rw [parseExpr] at h
          try dsimp only at h
          rcases hrec : parseExpr ts2 with m | ⟨e1, r1, hr1⟩ <;> rw [hrec] at h <;>
            try dsimp only at h
          · cases h
          · obtain ⟨hPe1, hwfr1⟩ :=
              (ih (ts2.length + 1) hlt ts2 (Nat.lt_succ_self _) hwf2).1 e1 ⟨r1, hr1⟩ hrec
            injection h with h
            injection h with h1 h2
            subst h1; subst h2
            refine ⟨Producible.list _ ?_, hwfr1⟩
            intro y hy
            rcases List.mem_cons.mp hy with h2 | h2
            · subst h2; exact Producible.sym _ (by decide)
            · have h3 := List.mem_singleton.mp h2
              subst h3; exact hPe1
        | atTok =>
          rw [parseExpr] at h
          try dsimp only at h
          rcases hrec : parseExpr ts2 with m | ⟨e1, r1, hr1⟩ <;> rw [hrec] at h <;>
            try dsimp only at h
          · cases h
          · obtain ⟨hPe1, hwfr1⟩ :=
              (ih (ts2.length + 1) hlt ts2 (Nat.lt_succ_self _) hwf2).1 e1 ⟨r1, hr1⟩ hrec
            injection h with h
            injection h with h1 h2
            subst h1; subst h2
            refine ⟨Producible.list _ ?_, hwfr1⟩
            intro y hy
            rcases List.mem_cons.mp hy with h2 | h2
            · subst h2; exact Producible.sym _ (by decide)
            · have h3 := List.mem_singleton.mp h2
              subst h3; exact hPe1
        | hatTok =>
          rw [parseExpr] at h
          try dsimp only at h
          rcases hrec : parseExpr ts2 with m | ⟨e1, r1, hr1⟩ <;> rw [hrec] at h <;>
            try dsimp only at h
          · cases h
          · obtain ⟨hPe1, hwfr1⟩ :=
              (ih (ts2.length + 1) hlt ts2 (Nat.lt_succ_self _) hwf2).1 e1 ⟨r1, hr1⟩ hrec
            rcases hrec2 : parseExpr r1 with m | ⟨e2, r2, hr2⟩ <;> rw [hrec2] at h <;>
              try dsimp only at h
            · cases h
            · obtain ⟨hPe2, hwfr2⟩ :=
                (ih (r1.length + 1) (by omega) r1 (Nat.lt_succ_self _) hwfr1).1 e2
                  ⟨r2, hr2⟩ hrec2
              injection h with h
              injection h with h1 h2
              subst h1; subst h2
              refine ⟨Producible.list _ ?_, hwfr2⟩
              intro y hy
              rcases List.mem_cons.mp hy with h2 | h2
              · subst h2; exact Producible.sym _ (by decide)
              · rcases List.mem_cons.mp h2 with h3 | h3
                · subst h3; exact hPe2
                · have h4 := List.mem_singleton.mp h3
                  subst h4; exact hPe1
        | lparen =>
          rw [parseExpr] at h
          try dsimp only at h
          rcases hrec : parseItems Tok.rparen ts2 with m | ⟨es, r1, hr1⟩ <;>
            rw [hrec] at h <;> try dsimp only at h
          · cases h
          · obtain ⟨hPes, hwfr1⟩ :=
              (ih (ts2.length + 1) hlt ts2 (Nat.lt_succ_self _) hwf2).2.1 Tok.rparen es
                ⟨r1, hr1⟩ hrec
            injection h with h
            injection h with h1 h2
            subst h1; subst h2
            exact ⟨Producible.list es hPes, hwfr1⟩
        | lbracket =>
          rw [parseExpr] at h
          try dsimp only at h
          rcases hrec : parseItems Tok.rbracket ts2 with m | ⟨es, r1, hr1⟩ <;>
            rw [hrec] at h <;> try dsimp only at h
          · cases h
          · obtain ⟨hPes, hwfr1⟩ :=
              (ih (ts2.length + 1) hlt ts2 (Nat.lt_succ_self _) hwf2).2.1 Tok.rbracket es
                ⟨r1, hr1⟩ hrec
            injection h with h
            injection h with h1 h2
            subst h1; subst h2
            exact ⟨Producible.vec es hPes, hwfr1⟩
        | lbrace =>
          rw [parseExpr] at h
          try dsimp only at h
          rcases hrec : parsePairs ts2 with m | ⟨qs, r1, hr1⟩ <;>
            rw [hrec] at h <;> try dsimp only at h
          · cases h
          · obtain ⟨hQ, hwfr1⟩ :=
              (ih (ts2.length + 1) hlt ts2 (Nat.lt_succ_self _) hwf2).2.2 qs
                ⟨r1, hr1⟩ hrec
            injection h with h
            injection h with h1 h2
            subst h1; subst h2
            refine ⟨?_, hwfr1⟩
            obtain ⟨hBP, hBM⟩ := buildDict_wf qs
            refine Producible.hmap _ ?_ ?_ ?_ hBP
            · intro p hp
              obtain ⟨⟨q, hq, hqe⟩, _⟩ := hBM p hp
              rw [hqe]
              exact (hQ q hq).2.1
            · intro p hp
              obtain ⟨⟨q, hq, hqe⟩, _⟩ := hBM p hp
              rw [hqe]
              exact (hQ q hq).1
            · intro p hp
              obtain ⟨_, ⟨q, hq, hqe⟩⟩ := hBM p hp
              rw [hqe]
              exact (hQ q hq).2.2
    have hB : ∀ L : List Tok, L.length < n → (∀ t ∈ L, wfTok t = true) →
        ∀ closer xs r, parseItems closer L = .ok (xs, r) →
          (∀ x ∈ xs, Producible x) ∧ ∀ t ∈ r.val, wfTok t = true := by
      intro L hLn hLwf
      match L, hLn, hLwf with
      | [], _, _ =>
        intro closer xs r h
        rw [parseItems] at h
        cases h
      | t :: ts2, hLn, hLwf =>
        intro closer xs r h
        have hwf2 : ∀ t2 ∈ ts2, wfTok t2 = true :=
          fun t2 ht2 => hLwf t2 (List.mem_cons_of_mem t ht2)
        have hlt : ts2.length + 1 < n := by simpa using hLn
        rw [parseItems] at h
        by_cases hcl : t = closer
        · rw [if_pos hcl] at h
          injection h with h
          injection h with h1 h2
          subst h1; subst h2
          exact ⟨fun x hx => absurd hx (List.not_mem_nil x), hwf2⟩
        · rw [if_neg hcl] at h
          rcases hrec : parseExpr (t :: ts2) with m | ⟨e, r1, hr1⟩ <;> rw [hrec] at h <;>
            try dsimp only at h
          · cases h
          · obtain ⟨hPe, hwfr1⟩ := hA (t :: ts2) hLn hLwf e ⟨r1, hr1⟩ hrec
            rcases hrec2 : parseItems closer r1 with m | ⟨es, r2, hr2⟩ <;>
              rw [hrec2] at h <;> try dsimp only at h
            · cases h
            · have hr1b : r1.length + 1 < n := by
                simp only [List.length_cons] at hr1
                omega
              obtain ⟨hPes, hwfr2⟩ :=
                (ih (r1.length + 1) hr1b r1 (Nat.lt_succ_self _) hwfr1).2.1 closer es
                  ⟨r2, hr2⟩ hrec2
              injection h with h
              injection h with h1 h2
              subst h1; subst h2
              refine ⟨?_, hwfr2⟩
              intro y hy
              rcases List.mem_cons.mp hy with h2 | h2
              · subst h2; exact hPe
              · exact hPes y h2
    have hC : ∀ L : List Tok, L.length < n → (∀ t ∈ L, wfTok t = true) →
        ∀ qs r, parsePairs L = .ok (qs, r) →
          (∀ p ∈ qs, isHashKey p.1 = true ∧ Producible p.1 ∧ Producible p.2) ∧
          ∀ t ∈ r.val, wfTok t = true := by
      intro L hLn hLwf
      match L, hLn, hLwf with
      | [], _, _ =>
        intro qs r h
        rw [parsePairs] at h
        cases h
      | t :: ts2, hLn, hLwf =>
        intro qs r h
        have hwf2 : ∀ t2 ∈ ts2, wfTok t2 = true :=
          fun t2 ht2 => hLwf t2 (List.mem_cons_of_mem t ht2)
        have hlt : ts2.length + 1 < n := by simpa using hLn
        cases t with
        | rbrace =>
          rw [parsePairs] at h
          try dsimp only at h
          injection h with h
          injection h with h1 h2
          subst h1; subst h2
          exact ⟨fun p hp => absurd hp (List.not_mem_nil p), hwf2⟩
        | strTok raw =>
          rw [parsePairs] at h
          try dsimp only at h
          rcases hu : unescapeChars raw with _ | s <;> rw [hu] at h <;> try dsimp only at h
          · cases h
          · rcases hrec : parseExpr ts2 with m | ⟨v, r1, hr1⟩ <;> rw [hrec] at h <;>
              try dsimp only at h
            · cases h
            · obtain ⟨hPv, hwfr1⟩ :=
                (ih (ts2.length + 1) hlt ts2 (Nat.lt_succ_self _) hwf2).1 v ⟨r1, hr1⟩ hrec
              rcases hrec2 : parsePairs r1 with m | ⟨ps2, r2, hr2⟩ <;> rw [hrec2] at h <;>
                try dsimp only at h
              · cases h
              · obtain ⟨hQ, hwfr2⟩ :=
                  (ih (r1.length + 1) (by omega) r1 (Nat.lt_succ_self _) hwfr1).2.2 ps2
                    ⟨r2, hr2⟩ hrec2
                injection h with h
                injection h with h1 h2
                subst h1; subst h2
                refine ⟨?_, hwfr2⟩
                intro p hp
                rcases List.mem_cons.mp hp with h2 | h2
                · subst h2
                  exact ⟨rfl, Producible.str _, hPv⟩
                · exact hQ p h2
        | kwTok kname =>
          rw [parsePairs] at h
          try dsimp only at h
          rcases hrec : parseExpr ts2 with m | ⟨v, r1, hr1⟩ <;> rw [hrec] at h <;>
            try dsimp only at h
          · cases h
          · obtain ⟨hPv, hwfr1⟩ :=
              (ih (ts2.length + 1) hlt ts2 (Nat.lt_succ_self _) hwf2).1 v ⟨r1, hr1⟩ hrec
            rcases hrec2 : parsePairs r1 with m | ⟨ps2, r2, hr2⟩ <;> rw [hrec2] at h <;>
              try dsimp only at h
            · cases h
            · obtain ⟨hQ, hwfr2⟩ :=
                (ih (r1.length + 1) (by omega) r1 (Nat.lt_succ_self _) hwfr1).2.2 ps2
                  ⟨r2, hr2⟩ hrec2
              injection h with h
              injection h with h1 h2
              subst h1; subst h2
              refine ⟨?_, hwfr2⟩
              intro p hp
              rcases List.mem_cons.mp hp with h2 | h2
              · subst h2
                exact ⟨rfl, Producible.kw kname (hLwf (.kwTok kname) (by simp)), hPv⟩
              · exact hQ p h2
        | lparen => simp [parsePairs] at h
        | rparen => simp [parsePairs] at h
        | lbracket => simp [parsePairs] at h
        | rbracket => simp [parsePairs] at h
        | lbrace => simp [parsePairs] at h
        | quoteTok => simp [parsePairs] at h
        | backtickTok => simp [parsePairs] at h
        | tildeTok => simp [parsePairs] at h
        | specialTok => simp [parsePairs] at h
        | hatTok => simp [parsePairs] at h
        | atTok => simp [parsePairs] at h
        | trueTok => simp [parsePairs] at h
        | falseTok => simp [parsePairs] at h
        | nilTok => simp [parsePairs] at h
        | numTok m => simp [parsePairs] at h
        | unbalancedTok => simp [parsePairs] at h
        | symTok s => simp [parsePairs] at h
    exact ⟨hA ts hlen hwf, hB ts hlen hwf, hC ts hlen hwf⟩


/-! #### C7: the read - print round trip -/

theorem parse_str_producible (t : String) (x : ExpressionT)
    (h : parse_str t = .ok x) : Producible x := by
  simp only [parse_str] at h
  rcases htk : tokenize t.data with m | toks <;> rw [htk] at h <;> try dsimp only at h
  · cases h
  · rcases hpe : parseExpr toks with m | ⟨e, rest, hr⟩ <;> rw [hpe] at h <;>
      try dsimp only at h
    · cases h
    · have hwf : ∀ tk ∈ toks, wfTok tk = true := by
        have htk2 : tokenizeGo (t.data.length + 1) t.data = .ok toks := htk
        exact tokenizeGo_wf (t.data.length + 1) t.data toks htk2
      match rest, hr, h with
      | [], hr, h =>
        injection h with h
        subst h
        exact ((parse_wf (toks.length + 1) toks (Nat.lt_succ_self _) hwf).1 e
          ⟨[], hr⟩ hpe).1
      | tk :: more, hr, h => cases h

theorem parse_str_pp (x : ExpressionT) (hP : Producible x) :
    parse_str (String.mk (ppChars x)) = .ok x := by
  have h2 := tokenize_pp x hP [] ((ppChars x ++ []).length + 1) (by omega) rfl
  have htk : tokenize (ppChars x) = .ok (toksOf x ++ []) := by
    simp only [tokenize]
    rw [show ppChars x = ppChars x ++ [] from (List.append_nil _).symm]
    rw [h2]
    rfl
  obtain ⟨hlen, hpe⟩ := parse_toks x hP (toksOf x ++ []) [] rfl
  simp only [parse_str]
  rw [htk]
  dsimp only
  rw [hpe]

/-- **C7**: every expression the reader produces — an `x` with
`parse_str t = .ok x` for some source text `t`, hence atom- and
callable-free — prints in readable mode to a text that re-parses to a
structurally equal expression, whatever the store and the printing
budget. -/
theorem c7_round_trip (t : String) (x : ExpressionT) (h : parse_str t = .ok x)
    (st : St) (b : Nat) :
    ∃ s : List Char, prettyGo st true b x = some s ∧
      parse_str (String.mk s) = .ok x := by
  have hP : Producible x := parse_str_producible t x h
  exact ⟨ppChars x, pretty_producible x hP st b, parse_str_pp x hP⟩

theorem c7_witness :
    ∃ s : List Char, prettyGo defaultSt true 1 ExpressionT.Nil = some s ∧
      parse_str (String.mk s) = .ok ExpressionT.Nil :=
  c7_round_trip (String.mk (ppChars ExpressionT.Nil)) ExpressionT.Nil
    (parse_str_pp ExpressionT.Nil Producible.nil) defaultSt 1

end Mal
